import Mathlib

/-!
# Left-leaning red-black tree (`llrb.c`): shallow embedding

The child links of the C nodes form a tree, so the part of the heap reachable from
`tree->root` through `child[]` is embedded as an inductive tree whose nodes carry the
node's address and `color` field.  The `neigh[]` fields form a circular list through
the anchor, so they are embedded as a map from addresses to addresses that is threaded
through every mutating function.  A dereference of `NULL` is an explicit outcome.
-/

namespace LLRB

/-- Colour of a node, `enum {BLACK=0,RED,COLORS}`. -/
inductive Color where
  | BLACK
  | RED
  deriving DecidableEq

/-- Side of a child or neighbour link, `enum {LEFT=0,RIGHT,SIDES}`. -/
inductive Side where
  | LEFT
  | RIGHT
  deriving DecidableEq

/-- The opposite side: `!side` and `1-side` in the source. -/
def Side.other : Side → Side
  | .LEFT => .RIGHT
  | .RIGHT => .LEFT

/-- Logical negation of the colour field, `!h->color`. -/
def Color.flip : Color → Color
  | .BLACK => .RED
  | .RED => .BLACK

/-- A `struct LLRBNode*` seen through its child links: `nil` is `NULL`, `node a c l r` is
the node stored at address `a` with colour `c` and children `l` and `r`. -/
inductive LLRBNode where
  | nil
  | node (addr : Nat) (color : Color) (left right : LLRBNode)
  deriving DecidableEq

/-- Outcome of running a piece of the C code. -/
inductive Res (α : Type) where
  | ok (a : α)
  | nullDeref
  | noFuel
  deriving DecidableEq

/-- Sequencing of two steps; a fault of the first step is the fault of the whole. -/
def Res.bind {α β : Type} : Res α → (α → Res β) → Res β
  | .ok a, f => f a
  | .nullDeref, _ => .nullDeref
  | .noFuel, _ => .noFuel

/-- The `neigh[]` fields of all nodes (the anchor included), by address and side. -/
abbrev Neigh := Nat → Side → Nat

/-- The assignment `a->neigh[s] = v`. -/
def setNeigh (ng : Neigh) (a : Nat) (s : Side) (v : Nat) : Neigh :=
  fun a' s' => if a' = a ∧ s' = s then v else ng a' s'

/-- The comparator type `LLRBComparator`; the tree argument is part of the closure. -/
abbrev Comparator := Nat → Nat → Int

namespace LLRBNode

/-- Child `h->child[LEFT]` of a non-null node (`nil` for `nil`, never used for a dereference
that the source performs on a possibly null pointer). -/
def left : LLRBNode → LLRBNode
  | nil => nil
  | node _ _ l _ => l

/-- Child `h->child[RIGHT]` of a non-null node. -/
def right : LLRBNode → LLRBNode
  | nil => nil
  | node _ _ _ r => r

/-- In-order traversal: the addresses of the nodes, left to right. -/
def inorder : LLRBNode → List Nat
  | nil => []
  | node a _ l r => inorder l ++ a :: inorder r

/-- Number of nodes. -/
def size : LLRBNode → Nat
  | nil => 0
  | node _ _ l r => size l + size r + 1

end LLRBNode

open LLRBNode

/-- Source `rotate`: `x = h->child[!side]` becomes the root of the subtree, takes the colour of
`h`, and `h` becomes its red child on `side`. -/
def rotate (h : LLRBNode) (side : Side) : Res LLRBNode :=
  match side, h with
  | _, nil => .nullDeref
  | .RIGHT, node _ _ nil _ => .nullDeref
  | .RIGHT, node ha hc (node xa _ xl xr) hr => .ok (node xa hc xl (node ha .RED xr hr))
  | .LEFT, node _ _ _ nil => .nullDeref
  | .LEFT, node ha hc hl (node xa _ xl xr) => .ok (node xa hc (node ha .RED hl xl) xr)

/-- Source `colorFlip`: negate the colour of `h` and of both children. -/
def colorFlip : LLRBNode → Res LLRBNode
  | node a c (node la lc ll lr) (node ra rc rl rr) =>
      .ok (node a c.flip (node la lc.flip ll lr) (node ra rc.flip rl rr))
  | _ => .nullDeref

/-- Source `isRed`: `h && (h->color == RED)`. -/
def isRed : LLRBNode → Bool
  | node _ .RED _ _ => true
  | _ => false

/-- Source `fixUp`. -/
def fixUp (h : LLRBNode) : Res LLRBNode :=
  match h with
  | nil => .nullDeref
  | _ =>
    (if isRed h.right && !isRed h.left then rotate h .LEFT else .ok h).bind fun h1 =>
    (if isRed h1.left && isRed h1.left.left then rotate h1 .RIGHT else .ok h1).bind fun h2 =>
    (if isRed h2.left && isRed h2.right then colorFlip h2 else .ok h2)

/-- The four assignments of `insert` that thread the new leaf `x`, inserted below `p` on `side`,
into the neighbour list. -/
def linkLeaf (ng : Neigh) (x p : Nat) (side : Side) : Neigh :=
  let ng1 := setNeigh ng x side.other p
  let ng2 := setNeigh ng1 x side (ng1 p side)
  let ng3 := setNeigh ng2 (ng2 x side.other) side x
  setNeigh ng3 (ng3 x side) side.other x

/-- The four assignments that put `x` into the neighbour list in place of `h`. -/
def relink (ng : Neigh) (x h : Nat) : Neigh :=
  let ng1 := setNeigh ng x .LEFT (ng h .LEFT)
  let ng2 := setNeigh ng1 x .RIGHT (ng1 h .RIGHT)
  let ng3 := setNeigh ng2 (ng2 x .LEFT) .RIGHT x
  setNeigh ng3 (ng3 x .RIGHT) .LEFT x

/-- The two assignments that unlink `h` from the neighbour list. -/
def unlink (ng : Neigh) (h : Nat) : Neigh :=
  let ng1 := setNeigh ng (ng h .LEFT) .RIGHT (ng h .RIGHT)
  setNeigh ng1 (ng1 h .RIGHT) .LEFT (ng1 h .LEFT)

/-- Source `insert`.  The out-parameter `*old` is passed in and returned; `p` and `side` are the
parent (or the anchor) and the side on which the recursion descended. -/
def insert (cmp : Comparator) :
    LLRBNode → Nat → Neigh → Option Nat → Nat → Side → Res (LLRBNode × Neigh × Option Nat)
  | nil, x, ng, old, p, side => .ok (node x .RED nil nil, linkLeaf ng x p side, old)
  | node h c l r, x, ng, old, _, _ =>
      if cmp h x = 0 then .ok (node x c l r, relink ng x h, some h)
      else if cmp h x < 0 then
        (insert cmp r x ng old h .RIGHT).bind fun res =>
          (fixUp (node h c l res.1)).bind fun h1 => .ok (h1, res.2.1, res.2.2)
      else
        (insert cmp l x ng old h .LEFT).bind fun res =>
          (fixUp (node h c res.1 r)).bind fun h1 => .ok (h1, res.2.1, res.2.2)

/-- Source `moveRedRight`. -/
def moveRedRight (h : LLRBNode) : Res LLRBNode :=
  (colorFlip h).bind fun h1 =>
    if isRed h1.left.left then (rotate h1 .RIGHT).bind colorFlip else .ok h1

/-- Source `moveRedLeft`. -/
def moveRedLeft (h : LLRBNode) : Res LLRBNode :=
  (colorFlip h).bind fun h1 =>
    match h1 with
    | nil => .nullDeref
    | node a c l r =>
      if isRed r.left then
        (rotate r .RIGHT).bind fun r1 => (rotate (node a c l r1) .LEFT).bind colorFlip
      else .ok h1

/-- Source `deleteMin`; returns the new subtree, the node stored into `*old`, and the neighbour
fields.  The first argument bounds the recursion depth. -/
def deleteMin : Nat → LLRBNode → Neigh → Res (LLRBNode × Nat × Neigh)
  | 0, _, _ => .noFuel
  | _ + 1, nil, _ => .nullDeref
  | _ + 1, node a _ nil _, ng => .ok (nil, a, unlink ng a)
  | n + 1, node a c (node la lc ll lr) r, ng =>
      (if !isRed (node la lc ll lr) && !isRed ll
        then moveRedLeft (node a c (node la lc ll lr) r)
        else .ok (node a c (node la lc ll lr) r)).bind fun h1 =>
      match h1 with
      | nil => .nullDeref
      | node a1 c1 l1 r1 =>
        (deleteMin n l1 ng).bind fun res =>
          (fixUp (node a1 c1 res.1 r1)).bind fun h2 => .ok (h2, res.2.1, res.2.2)

/-- Source `deleteKey`; returns the new subtree, the node stored into `*old`, and the neighbour
fields.  The first argument bounds the recursion depth. -/
def deleteKey (cmp : Comparator) : Nat → LLRBNode → Nat → Neigh → Res (LLRBNode × Nat × Neigh)
  | 0, _, _, _ => .noFuel
  | _ + 1, nil, _, _ => .nullDeref
  | n + 1, node a c l r, key, ng =>
      if cmp key a < 0 then
        match l with
        | nil => .nullDeref
        | node la lc ll lr =>
          (if !isRed (node la lc ll lr) && !isRed ll
            then moveRedLeft (node a c (node la lc ll lr) r)
            else .ok (node a c (node la lc ll lr) r)).bind fun h1 =>
          match h1 with
          | nil => .nullDeref
          | node a1 c1 l1 r1 =>
            (deleteKey cmp n l1 key ng).bind fun res =>
              (fixUp (node a1 c1 res.1 r1)).bind fun h2 => .ok (h2, res.2.1, res.2.2)
      else
        (if isRed l then rotate (node a c l r) .RIGHT else .ok (node a c l r)).bind fun h1 =>
        match h1 with
        | nil => .nullDeref
        | node a1 c1 l1 r1 =>
          if cmp key a1 = 0 ∧ r1 = nil then .ok (nil, a1, unlink ng a1)
          else
            match r1 with
            | nil => .nullDeref
            | node ra rc rl rr =>
              (if !isRed (node ra rc rl rr) && !isRed rl
                then moveRedRight (node a1 c1 l1 (node ra rc rl rr))
                else .ok (node a1 c1 l1 (node ra rc rl rr))).bind fun h2 =>
              match h2 with
              | nil => .nullDeref
              | node a2 c2 l2 r2 =>
                if cmp key a2 = 0 then
                  (deleteMin n r2 ng).bind fun res =>
                    (fixUp (node res.2.1 c2 l2 res.1)).bind fun h3 =>
                      .ok (h3, a2, relink res.2.2 res.2.1 a2)
                else
                  (deleteKey cmp n r2 key ng).bind fun res =>
                    (fixUp (node a2 c2 l2 res.1)).bind fun h3 => .ok (h3, res.2.1, res.2.2)

/-- A `struct LLRBTree`: the address of the embedded anchor node, the root, the comparator, and
the neighbour fields of the anchor and of all nodes. -/
structure LLRBTree where
  anchor : Nat
  root : LLRBNode
  compare : Comparator
  neigh : Neigh

/-- Source `llrb_init`, run on the tree structure `t` found in memory. -/
def llrb_init (t : LLRBTree) (compare : Comparator) : LLRBTree :=
  { anchor := t.anchor
    root := nil
    compare := compare
    neigh := setNeigh (setNeigh t.neigh t.anchor .RIGHT t.anchor) t.anchor .LEFT t.anchor }

/-- The root with its colour field set to `BLACK`, when there is a root. -/
def blacken : LLRBNode → LLRBNode
  | nil => nil
  | node a _ l r => node a .BLACK l r

/-- Source `llrb_insert_or_replace`: the tree afterwards and the returned node. -/
def llrb_insert_or_replace (t : LLRBTree) (x : Nat) : Res (LLRBTree × Option Nat) :=
  (insert t.compare t.root x t.neigh none t.anchor .LEFT).bind fun res =>
    .ok ({ t with root := res.1, neigh := res.2.1 }, res.2.2)

/-- The loop of `llrb_find`, from the node `h`. -/
def findLoop (cmp : Comparator) (key : Nat) : LLRBNode → Option Nat
  | nil => none
  | node a _ l r =>
    if cmp key a = 0 then some a
    else if cmp key a < 0 then findLoop cmp key l
    else findLoop cmp key r

/-- Source `llrb_find`; it only reads, so it has no tree to return. -/
def llrb_find (t : LLRBTree) (key : Nat) : Option Nat :=
  findLoop t.compare key t.root

/-- Source `llrb_pop_min`: the tree afterwards and the returned node. -/
def llrb_pop_min (t : LLRBTree) : Res (LLRBTree × Option Nat) :=
  match t.root with
  | nil => .ok (t, none)
  | node a c l r =>
    (deleteMin (size t.root + 1) (node a c l r) t.neigh).bind fun res =>
      .ok ({ t with root := blacken res.1, neigh := res.2.2 }, some res.2.1)

/-- Source `llrb_delete`: the tree afterwards and the returned node. -/
def llrb_delete (t : LLRBTree) (key : Nat) : Res (LLRBTree × Option Nat) :=
  (deleteKey t.compare (size t.root + 1) t.root key t.neigh).bind fun res =>
    .ok ({ t with root := blacken res.1, neigh := res.2.2 }, some res.2.1)

/-- Source `llrb_neighbour`. -/
def llrb_neighbour (t : LLRBTree) (h : Nat) (side : Side) : Option Nat :=
  if t.neigh h side = t.anchor then none else some (t.neigh h side)

/-- Source `llrb_next`. -/
def llrb_next (t : LLRBTree) (h : Nat) : Option Nat := llrb_neighbour t h .RIGHT

/-- Source `llrb_prev`. -/
def llrb_prev (t : LLRBTree) (h : Nat) : Option Nat := llrb_neighbour t h .LEFT

/-- Source `llrb_min` (build with the neighbour list). -/
def llrb_min (t : LLRBTree) : Option Nat :=
  if t.neigh t.anchor .RIGHT = t.anchor then none else some (t.neigh t.anchor .RIGHT)

/-- Source `llrb_max` (build with the neighbour list). -/
def llrb_max (t : LLRBTree) : Option Nat :=
  if t.neigh t.anchor .LEFT = t.anchor then none else some (t.neigh t.anchor .LEFT)

/-- Source `llrb_min` (build with `LLRB_NO_LIST`): walk down the left spine. -/
def llrb_min_nolist : LLRBNode → Option Nat
  | nil => none
  | node a _ nil _ => some a
  | node _ _ (node la lc ll lr) _ => llrb_min_nolist (node la lc ll lr)

/-- Source `llrb_max` (build with `LLRB_NO_LIST`): walk down the right spine. -/
def llrb_max_nolist : LLRBNode → Option Nat
  | nil => none
  | node a _ _ nil => some a
  | node _ _ _ (node ra rc rl rr) => llrb_max_nolist (node ra rc rl rr)

/-- Source `llrb_ptrcmp`: three-way comparison of the two addresses. -/
def llrb_ptrcmp : Comparator := fun a b => if a = b then 0 else if a < b then -1 else 1

/-! ## Properties the specification talks about -/

/-- The comparator contract: `cmp a b` is negative, zero or positive as `a` is before, equal to
or after `b` in a total order of the keys (distinct nodes may carry equal keys). -/
structure TotalOrder (cmp : Comparator) : Prop where
  swap : ∀ a b, cmp a b < 0 ↔ 0 < cmp b a
  le_trans : ∀ a b c, cmp a b ≤ 0 → cmp b c ≤ 0 → cmp a c ≤ 0

/-- A list of nodes is strictly increasing under the comparator. -/
def Increasing (cmp : Comparator) (l : List Nat) : Prop :=
  l.Pairwise fun a b => cmp a b < 0

/-- The trees built from `llrb_init` by calls of the three mutating functions that return;
`xs` lists the nodes that were handed to `llrb_insert_or_replace` on the way, latest first. -/
inductive Reachable (cmp : Comparator) : List Nat → LLRBTree → Prop
  | init (t0 : LLRBTree) : Reachable cmp [] (llrb_init t0 cmp)
  | insert (xs : List Nat) (t t' : LLRBTree) (x : Nat) (o : Option Nat) :
      Reachable cmp xs t → llrb_insert_or_replace t x = .ok (t', o) →
      Reachable cmp (x :: xs) t'
  | delete (xs : List Nat) (t t' : LLRBTree) (key : Nat) (o : Option Nat) :
      Reachable cmp xs t → llrb_delete t key = .ok (t', o) → Reachable cmp xs t'
  | pop_min (xs : List Nat) (t t' : LLRBTree) (o : Option Nat) :
      Reachable cmp xs t → llrb_pop_min t = .ok (t', o) → Reachable cmp xs t'

/-- The number of black nodes on every path from the root down to an absent child, one entry
per path. -/
def blackCounts : LLRBNode → List Nat
  | nil => [0]
  | node _ c l r => (blackCounts l ++ blackCounts r).map fun k => if c = .BLACK then k + 1 else k

/-- Perfect black balance: all paths from the root to an absent child pass through the same
number of black nodes. -/
def BlackBalanced (h : LLRBNode) : Prop :=
  ∀ p ∈ blackCounts h, ∀ q ∈ blackCounts h, p = q

/-- Left-leaning: no node has a red right child. -/
def LeftLeaning : LLRBNode → Prop
  | nil => True
  | node _ _ l r => isRed r = false ∧ LeftLeaning l ∧ LeftLeaning r

/-- Number of black nodes along the left spine. -/
def bh : LLRBNode → Nat
  | nil => 0
  | node _ .BLACK l _ => bh l + 1
  | node _ .RED l _ => bh l

/-- The shape invariant of a subtree: at every node both subtrees have the same black height
and the right child is not red, and a red node has no red left child. -/
def LLInv : LLRBNode → Prop
  | nil => True
  | node _ c l r =>
      LLInv l ∧ LLInv r ∧ bh l = bh r ∧ isRed r = false ∧ (c = .RED → isRed l = false)

/-- The shape invariant of the whole tree: as `LLInv`, but a red root may have a red left
child. -/
def RootInv : LLRBNode → Prop
  | nil => True
  | node _ _ l r => LLInv l ∧ LLInv r ∧ bh l = bh r ∧ isRed r = false

/-- A subtree on which the deletion recursion may be entered: it satisfies the shape invariant
and its root or the left child of its root is red. -/
def Deletable (h : LLRBNode) : Prop :=
  LLInv h ∧ (isRed h = true ∨ isRed h.left = true)

/-- A black node with a black left child and a red right child, as `moveRedRight` leaves it
below the new subtree root when it rotates. -/
def RightRed (h : LLRBNode) : Prop :=
  isRed h = false ∧ isRed h.left = false ∧ isRed h.right = true ∧
    LLInv h.left ∧ LLInv h.right ∧ bh h.left = bh h.right

/-- What the deletion recursion returns for the subtree `h`: a subtree `h'` that satisfies the
shape invariant, has the same black height, and is red only if `h` was. -/
def DelPost (h h' : LLRBNode) : Prop :=
  LLInv h' ∧ bh h' = bh h ∧ (isRed h = false → isRed h' = false)

/-- The preparation of a descent to the left (`moveRedLeft` when the left child and its left
child are black) succeeds on `h`, leaves a left child on which the recursion may be entered, and
whatever the recursion returns for it, the fix-up of the prepared node succeeds with a result
satisfying `Post`. -/
def LeftPrep (h : LLRBNode) (Post : LLRBNode → Prop) : Prop :=
  ∀ a c la lc ll lr r, h = node a c (node la lc ll lr) r →
    ∃ a1 c1 l1 r1,
      (if !isRed (node la lc ll lr) && !isRed ll
        then moveRedLeft (node a c (node la lc ll lr) r)
        else .ok (node a c (node la lc ll lr) r)) = .ok (node a1 c1 l1 r1) ∧
      Deletable l1 ∧ size l1 < size h ∧
      (∀ x ∈ inorder (node la lc ll lr), x ∈ inorder l1) ∧
      ∀ l', DelPost l1 l' → ∃ h', fixUp (node a1 c1 l' r1) = .ok h' ∧ Post h'

/-- The preparation of a descent to the right in `deleteKey` (a right rotation when the left
child is red, then `moveRedRight` when the right child and its left child are black) succeeds
on `h`; when it leaves no right child the root was not moved, has no left child either, and
removing it satisfies `Post`;
otherwise it leaves a right child on which the recursion may be entered, and whatever the
recursion returns for it, the fix-up of the prepared node succeeds with a result satisfying
`Post`. -/
def RightPrep (h : LLRBNode) (Post : LLRBNode → Prop) : Prop :=
  ∀ a c l r, h = node a c l r →
    ∃ a1 c1 l1 r1,
      (if isRed l then rotate (node a c l r) .RIGHT else .ok (node a c l r)) =
        .ok (node a1 c1 l1 r1) ∧
      (a1 = a ∨ a1 ∈ inorder l) ∧
      (r1 = nil → a1 = a ∧ l1 = nil ∧ Post nil) ∧
      ∀ ra rc rl rr, r1 = node ra rc rl rr →
        ∃ a2 c2 l2 r2,
          (if !isRed (node ra rc rl rr) && !isRed rl
            then moveRedRight (node a1 c1 l1 (node ra rc rl rr))
            else .ok (node a1 c1 l1 (node ra rc rl rr))) = .ok (node a2 c2 l2 r2) ∧
          (a2 = a ∨ a2 ∈ inorder l) ∧
          (Deletable r2 ∨ (RightRed r2 ∧ a2 ∈ inorder l ∧ ∃ c' l' r', r2 = node a c' l' r')) ∧
          size r2 < size h ∧
          ∀ x r', DelPost r2 r' → ∃ h', fixUp (node x c2 l2 r') = .ok h' ∧ Post h'

/-- The list `l` is linked through the neighbour fields: each element has the next one as its
right neighbour and is the left neighbour of the next one. -/
def Linked (ng : Neigh) : List Nat → Prop
  | [] => True
  | [_] => True
  | a :: b :: rest => ng a .RIGHT = b ∧ ng b .LEFT = a ∧ Linked ng (b :: rest)

/-- The parent `p` and the side `side` handed down by `insert` name the empty slot between the
nodes `pre` before it and the nodes `post` after it: a left slot has the parent right after it, a
right slot has the parent right before it. -/
def SlotOK (p : Nat) (side : Side) (pre post : List Nat) : Prop :=
  (side = .LEFT ∧ post.head? = some p) ∨ (side = .RIGHT ∧ pre.getLast? = some p)

/-- The neighbour list of the tree is the circular chain anchor, in-order nodes, anchor, and
the anchor is not a node of the tree. -/
structure ListInv (t : LLRBTree) : Prop where
  anchor_not_mem : t.anchor ∉ inorder t.root
  linked : Linked t.neigh (t.anchor :: (inorder t.root ++ [t.anchor]))

/-- The invariant of the tree part of the trees built from `llrb_init`: the comparator is the
one given to `llrb_init`, the tree has the shape invariant, and its in-order traversal is strictly
increasing. -/
structure TreeInv (cmp : Comparator) (t : LLRBTree) : Prop where
  compare_eq : t.compare = cmp
  shape : RootInv t.root
  sorted : Increasing cmp (inorder t.root)

/-- The nodes visited by following the neighbour link on `side` from `start`, at most `n` of
them, until the link function returns absent. -/
def walk (t : LLRBTree) (side : Side) : Nat → Option Nat → List Nat
  | 0, _ => []
  | _ + 1, none => []
  | n + 1, some a => a :: walk t side n (llrb_neighbour t a side)

/-! ## Sample values -/

/-- The value of a run that returned, `d` for a run that did not. -/
def Res.getD {α : Type} : Res α → α → α
  | .ok a, _ => a
  | .nullDeref, d => d
  | .noFuel, d => d

/-- A comparator for the sample trees: the node at address `a` carries the key `a % 10`, and
the comparator returns the difference of the keys. -/
def keyCmp : Comparator := fun a b => ((a % 10 : Nat) : Int) - ((b % 10 : Nat) : Int)

/-- A tree structure with its anchor at address `0`, initialised for `keyCmp`. -/
def emptyTree : LLRBTree :=
  llrb_init { anchor := 0, root := nil, compare := keyCmp, neigh := fun _ _ => 0 } keyCmp

/-- The tree after handing the nodes of `xs` to `llrb_insert_or_replace`, first to last. -/
def insertAll (t : LLRBTree) : List Nat → LLRBTree
  | [] => t
  | x :: xs => insertAll ((llrb_insert_or_replace t x).getD (t, none)).1 xs

/-- The tree of the scenario of the specification: the nodes 5, 3, 8, 1, 4 inserted in that
order. -/
def sampleTree : LLRBTree := insertAll emptyTree [5, 3, 8, 1, 4]

/-- The sample tree after `llrb_delete` with the key 3. -/
def sampleDeleted : LLRBTree := ((llrb_delete sampleTree 3).getD (sampleTree, none)).1

/-! ## Call sequences, height, comparators of the examples, replacement -/

/-- The calls `llrb_insert_or_replace(tree, x)` for the nodes `x` of the list, first to last:
the tree after the last call. -/
def insertSeq (t : LLRBTree) : List Nat → Res LLRBTree
  | [] => .ok t
  | x :: xs => (llrb_insert_or_replace t x).bind fun r => insertSeq r.1 xs

/-- The calls `llrb_delete(tree, key)` for the key nodes of the list, first to last: the tree
after the last call and the nodes the calls returned, in the order of the calls. -/
def deleteSeq (t : LLRBTree) : List Nat → Res (LLRBTree × List (Option Nat))
  | [] => .ok (t, [])
  | k :: ks => (llrb_delete t k).bind fun r =>
      (deleteSeq r.1 ks).bind fun r2 => .ok (r2.1, r.2 :: r2.2)

namespace LLRBNode

/-- Number of nodes on the longest path from the node down to an absent child; the recursion
of `insert` on a search path runs through at most this many nodes. -/
def height : LLRBNode → Nat
  | nil => 0
  | node _ _ l r => max (height l) (height r) + 1

/-- The tree with the node `x` at the place of the node `h`: the same shape and the same
colours, the address `h` replaced by `x`. -/
def replaceNode (h x : Nat) : LLRBNode → LLRBNode
  | nil => nil
  | node a c l r => node (if a = h then x else a) c (replaceNode h x l) (replaceNode h x r)

/-- All nodes of the tree, each with the subtree below it. -/
def subtrees : LLRBNode → List LLRBNode
  | nil => []
  | node a c l r => node a c l r :: (subtrees l ++ subtrees r)

end LLRBNode

/-- Source `llrb_ptrcmp` with its third parameter, the tree, which the body casts to `void`. -/
def llrb_ptrcmp_tree (a b : Nat) (_tree : LLRBTree) : Int :=
  if a = b then 0 else if a < b then -1 else 1

/-- The difference of two `unsigned int` values, computed modulo `2^32`. -/
def subU32 (a b : Nat) : Nat := (a % 2 ^ 32 + (2 ^ 32 - b % 2 ^ 32)) % 2 ^ 32

/-- Conversion of an `unsigned int` value to the return type `int` (32 bits, two's
complement). -/
def toInt32 (u : Nat) : Int :=
  if u % 2 ^ 32 < 2 ^ 31 then ((u % 2 ^ 32 : Nat) : Int) else ((u % 2 ^ 32 : Nat) : Int) - 2 ^ 32

/-- Source `rbcmp_SetItem` of `example_int.c`: the difference of the `key` fields of the two
items; `key a` is the `key` field of the item that holds the node at address `a`. -/
def rbcmp_SetItem (key : Nat → Nat) : Comparator := fun a b => toInt32 (subU32 (key a) (key b))

/-- Source `rbcmp_MapItem` of `example_int.c`: the difference of the `key` fields of the two
items. -/
def rbcmp_MapItem (key : Nat → Nat) : Comparator := fun a b => toInt32 (subU32 (key a) (key b))

/-- Three items with keys that are `3 * 2^29` apart: the item of node `a` has the key
`a * 3 * 2^29` modulo `2^32`. -/
def wideKey : Nat → Nat := fun a => (a * 1610612736) % 2 ^ 32

/-- Keys in the range that `main` of `example_int.c` stores, `random() % 20000`: the item of
node `a` has the key `a % 20000`. -/
def mainKey : Nat → Nat := fun a => a % 20000

@[simp] theorem Res.bind_ok {α β : Type} (a : α) (f : α → Res β) : (Res.ok a).bind f = f a := rfl
@[simp] theorem Res.bind_nullDeref {α β : Type} (f : α → Res β) : (Res.nullDeref).bind f = .nullDeref := rfl
@[simp] theorem Res.bind_noFuel {α β : Type} (f : α → Res β) : (Res.noFuel).bind f = .noFuel := rfl

theorem Res.bind_eq_ok {α β : Type} {x : Res α} {f : α → Res β} {b : β} :
    x.bind f = .ok b ↔ ∃ a, x = .ok a ∧ f a = .ok b := by
  cases x <;> simp

@[simp] theorem isRed_nil : isRed nil = false := rfl
@[simp] theorem isRed_red (a : Nat) (l r : LLRBNode) : isRed (node a .RED l r) = true := rfl
@[simp] theorem isRed_black (a : Nat) (l r : LLRBNode) : isRed (node a .BLACK l r) = false := rfl
@[simp] theorem left_node (a : Nat) (c : Color) (l r : LLRBNode) : (node a c l r).left = l := rfl
@[simp] theorem right_node (a : Nat) (c : Color) (l r : LLRBNode) : (node a c l r).right = r := rfl
@[simp] theorem left_nil : (nil : LLRBNode).left = nil := rfl
@[simp] theorem right_nil : (nil : LLRBNode).right = nil := rfl
@[simp] theorem flip_red : Color.RED.flip = .BLACK := rfl
@[simp] theorem flip_black : Color.BLACK.flip = .RED := rfl

theorem isRed_eq_true {h : LLRBNode} : isRed h = true ↔ ∃ a l r, h = node a .RED l r := by
  rcases h with _ | ⟨a, c, l, r⟩
  · simp
  · cases c <;> simp

@[simp] theorem rotate_right_node (ha : Nat) (hc : Color) (xa : Nat) (xc : Color) (xl xr hr : LLRBNode) :
    rotate (node ha hc (node xa xc xl xr) hr) .RIGHT = .ok (node xa hc xl (node ha .RED xr hr)) := rfl
@[simp] theorem rotate_left_node (ha : Nat) (hc : Color) (xa : Nat) (xc : Color) (xl xr hl : LLRBNode) :
    rotate (node ha hc hl (node xa xc xl xr)) .LEFT = .ok (node xa hc (node ha .RED hl xl) xr) := rfl
@[simp] theorem colorFlip_node (a : Nat) (c : Color) (la : Nat) (lc : Color) (ll lr : LLRBNode)
    (ra : Nat) (rc : Color) (rl rr : LLRBNode) :
    colorFlip (node a c (node la lc ll lr) (node ra rc rl rr)) =
      .ok (node a c.flip (node la lc.flip ll lr) (node ra rc.flip rl rr)) := rfl

theorem rotate_inorder {h h' : LLRBNode} {s : Side} (e : rotate h s = .ok h') :
    inorder h' = inorder h := by
  unfold rotate at e
  split at e <;> simp at e <;> (subst e; simp [inorder])

theorem colorFlip_inorder {h h' : LLRBNode} (e : colorFlip h = .ok h') :
    inorder h' = inorder h := by
  unfold colorFlip at e
  split at e
  · simp at e; subst e; simp [inorder]
  · simp at e

theorem fixUp_inorder {h h' : LLRBNode} (e : fixUp h = .ok h') : inorder h' = inorder h := by
  unfold fixUp at e
  split at e
  · simp at e
  · simp only [Res.bind_eq_ok] at e
    obtain ⟨h1, e1, h2, e2, e3⟩ := e
    have i1 : inorder h1 = inorder h := by
      split at e1
      · exact rotate_inorder e1
      · simp at e1; rw [e1]
    have i2 : inorder h2 = inorder h1 := by
      split at e2
      · exact rotate_inorder e2
      · simp at e2; rw [e2]
    have i3 : inorder h' = inorder h2 := by
      split at e3
      · exact colorFlip_inorder e3
      · simp at e3; rw [e3]
    rw [i3, i2, i1]

theorem moveRedRight_inorder {h h' : LLRBNode} (e : moveRedRight h = .ok h') :
    inorder h' = inorder h := by
  unfold moveRedRight at e
  simp only [Res.bind_eq_ok] at e
  obtain ⟨h1, e1, e2⟩ := e
  have i1 := colorFlip_inorder e1
  split at e2
  · simp only [Res.bind_eq_ok] at e2
    obtain ⟨h2, e2, e3⟩ := e2
    rw [colorFlip_inorder e3, rotate_inorder e2, i1]
  · simp at e2; rw [← e2, i1]

theorem moveRedLeft_inorder {h h' : LLRBNode} (e : moveRedLeft h = .ok h') :
    inorder h' = inorder h := by
  unfold moveRedLeft at e
  simp only [Res.bind_eq_ok] at e
  obtain ⟨h1, e1, e2⟩ := e
  have i1 := colorFlip_inorder e1
  split at e2
  · simp at e2
  · split at e2
    · simp only [Res.bind_eq_ok] at e2
      obtain ⟨r1, e2, h3, e3, e4⟩ := e2
      rw [colorFlip_inorder e4, rotate_inorder e3, ← i1]
      simp [inorder, rotate_inorder e2]
    · simp at e2; rw [← e2, i1]

theorem TotalOrder.refl {cmp : Comparator} (hc : TotalOrder cmp) (a : Nat) : cmp a a = 0 := by
  have := hc.swap a a
  omega

theorem TotalOrder.lt_of_lt_of_le {cmp : Comparator} (hc : TotalOrder cmp) {a b c : Nat}
    (h1 : cmp a b < 0) (h2 : cmp b c ≤ 0) : cmp a c < 0 := by
  by_contra h
  have h3 : cmp c a ≤ 0 := by
    have := hc.swap a c
    omega
  have h4 := hc.le_trans b c a h2 h3
  have := hc.swap a b
  omega

theorem TotalOrder.lt_of_le_of_lt {cmp : Comparator} (hc : TotalOrder cmp) {a b c : Nat}
    (h1 : cmp a b ≤ 0) (h2 : cmp b c < 0) : cmp a c < 0 := by
  by_contra h
  have h3 : cmp c a ≤ 0 := by
    have := hc.swap a c
    omega
  have h4 := hc.le_trans c a b h3 h1
  have := hc.swap b c
  omega

theorem TotalOrder.lt_trans {cmp : Comparator} (hc : TotalOrder cmp) {a b c : Nat}
    (h1 : cmp a b < 0) (h2 : cmp b c < 0) : cmp a c < 0 :=
  hc.lt_of_lt_of_le h1 (by omega)

theorem TotalOrder.eq_symm {cmp : Comparator} (hc : TotalOrder cmp) {a b : Nat}
    (h : cmp a b = 0) : cmp b a = 0 := by
  have h1 := hc.swap a b
  have h2 := hc.swap b a
  omega

theorem TotalOrder.ge_symm {cmp : Comparator} (hc : TotalOrder cmp) {a b : Nat}
    (h : 0 ≤ cmp a b) : cmp b a ≤ 0 := by
  have h1 := hc.swap a b
  have h2 := hc.swap b a
  omega

theorem Increasing_append_cons {cmp : Comparator} {l1 l2 : List Nat} {a : Nat} :
    Increasing cmp (l1 ++ a :: l2) ↔
      Increasing cmp l1 ∧ Increasing cmp l2 ∧ (∀ x ∈ l1, cmp x a < 0) ∧ (∀ y ∈ l2, cmp a y < 0) ∧
        ∀ x ∈ l1, ∀ y ∈ l2, cmp x y < 0 := by
  simp only [Increasing, List.pairwise_append, List.pairwise_cons, List.mem_cons]
  constructor
  · rintro ⟨h1, ⟨h2, h3⟩, h4⟩
    exact ⟨h1, h3, fun x hx => h4 x hx a (Or.inl rfl), h2, fun x hx y hy => h4 x hx y (Or.inr hy)⟩
  · rintro ⟨h1, h2, h3, h4, h5⟩
    refine ⟨h1, ⟨h4, h2⟩, ?_⟩
    rintro x hx y (rfl | hy)
    · exact h3 x hx
    · exact h5 x hx y hy

/-- in a search tree, a key below the root that is present is present in the left subtree -/
theorem present_left {cmp : Comparator} (hc : TotalOrder cmp) {l r : List Nat} {a key d : Nat}
    (hs : Increasing cmp (l ++ a :: r)) (hd : d ∈ l ++ a :: r) (hk : cmp key d = 0)
    (hlt : cmp key a < 0) : d ∈ l := by
  rw [Increasing_append_cons] at hs
  obtain ⟨-, -, -, h4, -⟩ := hs
  simp only [List.mem_append, List.mem_cons] at hd
  rcases hd with hd | rfl | hd
  · exact hd
  · omega
  · have h1 := hc.lt_trans hlt (h4 d hd)
    omega

/-- in a search tree, a key above the root that is present is present in the right subtree -/
theorem present_right {cmp : Comparator} (hc : TotalOrder cmp) {l r : List Nat} {a key d : Nat}
    (hs : Increasing cmp (l ++ a :: r)) (hd : d ∈ l ++ a :: r) (hk : cmp key d = 0)
    (hgt : 0 < cmp key a) : d ∈ r := by
  rw [Increasing_append_cons] at hs
  obtain ⟨-, -, h3, -, -⟩ := hs
  simp only [List.mem_append, List.mem_cons] at hd
  rcases hd with hd | rfl | hd
  · have h1 : cmp a key < 0 := (hc.swap a key).mpr hgt
    have h2 := hc.lt_trans (h3 d hd) h1
    have h3 := hc.eq_symm hk
    omega
  · omega
  · exact hd

theorem ite_ok_inorder {p : Prop} [Decidable p] {f : Res LLRBNode} {h h1 : LLRBNode}
    (hf : f = .ok h1 → inorder h1 = inorder h) (e : (if p then f else .ok h) = .ok h1) :
    inorder h1 = inorder h := by
  split at e
  · exact hf e
  · simp only [Res.ok.injEq] at e
    rw [e]

@[simp] theorem bh_nil : bh nil = 0 := rfl
@[simp] theorem bh_black (a : Nat) (l r : LLRBNode) : bh (node a .BLACK l r) = bh l + 1 := rfl
@[simp] theorem bh_red (a : Nat) (l r : LLRBNode) : bh (node a .RED l r) = bh l := rfl
@[simp] theorem LLInv_nil : LLInv nil = True := rfl
@[simp] theorem LLInv_node (a : Nat) (c : Color) (l r : LLRBNode) :
    LLInv (node a c l r) =
      (LLInv l ∧ LLInv r ∧ bh l = bh r ∧ isRed r = false ∧ (c = .RED → isRed l = false)) := rfl
@[simp] theorem RootInv_nil : RootInv nil = True := rfl
@[simp] theorem RootInv_node (a : Nat) (c : Color) (l r : LLRBNode) :
    RootInv (node a c l r) = (LLInv l ∧ LLInv r ∧ bh l = bh r ∧ isRed r = false) := rfl
@[simp] theorem size_nil : size nil = 0 := rfl
@[simp] theorem size_node (a : Nat) (c : Color) (l r : LLRBNode) :
    size (node a c l r) = size l + size r + 1 := rfl
@[simp] theorem inorder_nil : inorder nil = [] := rfl
@[simp] theorem inorder_node (a : Nat) (c : Color) (l r : LLRBNode) :
    inorder (node a c l r) = inorder l ++ a :: inorder r := rfl

theorem isRed_eq_false_of_bh {h : LLRBNode} (h0 : isRed h = false) (hb : 0 < bh h) :
    ∃ a l r, h = node a .BLACK l r := by
  rcases h with _ | ⟨a, c, l, r⟩
  · simp at hb
  · cases c
    · exact ⟨a, l, r, rfl⟩
    · simp at h0

/-- a black tree of height 0 that satisfies the invariant is empty -/
theorem eq_nil_of_bh_zero {h : LLRBNode} (h0 : isRed h = false) (hb : bh h = 0) : h = nil := by
  rcases h with _ | ⟨a, c, l, r⟩
  · rfl
  · cases c <;> simp at h0 hb

theorem isRed_left_of_LLInv_red {a : Nat} {l r : LLRBNode} (h : LLInv (node a .RED l r)) :
    isRed l = false := by
  simp at h; exact h.2.2.2.2

theorem fixUp_id {a : Nat} {c : Color} {l r : LLRBNode} (hr : isRed r = false)
    (hl : isRed l = true → isRed l.left = false) :
    fixUp (node a c l r) = .ok (node a c l r) := by
  by_cases h : isRed l = true
  · simp [fixUp, hr, h, hl h]
  · simp [fixUp, hr, h]

theorem fixUp_rotL {a : Nat} {c : Color} {l : LLRBNode} {ra : Nat} {rl rr : LLRBNode}
    (hl : isRed l = false) (hrr : isRed rr = false) :
    fixUp (node a c l (node ra .RED rl rr)) = .ok (node ra c (node a .RED l rl) rr) := by
  simp [fixUp, hl, hrr]

theorem fixUp_flip {a : Nat} {c : Color} {la : Nat} {ll lr : LLRBNode} {ra : Nat}
    {rl rr : LLRBNode} (hll : isRed ll = false) :
    fixUp (node a c (node la .RED ll lr) (node ra .RED rl rr)) =
      .ok (node a c.flip (node la .BLACK ll lr) (node ra .BLACK rl rr)) := by
  simp [fixUp, hll]

theorem fixUp_rotR {a : Nat} {c : Color} {la lla : Nat} {lll llr lr r : LLRBNode} :
    fixUp (node a c (node la .RED (node lla .RED lll llr) lr) r) =
      .ok (node la c.flip (node lla .BLACK lll llr) (node a .BLACK lr r)) := by
  simp [fixUp]

/-- the result of a fix-up above a subtree that came back from the deletion recursion, when the
right child is black -/
theorem fixUp_after_left {a : Nat} {c : Color} {l' r : LLRBNode} (hl : LLInv l')
    (hr : isRed r = false) : fixUp (node a c l' r) = .ok (node a c l' r) := by
  apply fixUp_id hr
  intro h
  obtain ⟨la, ll, lr, rfl⟩ := isRed_eq_true.mp h
  simpa using isRed_left_of_LLInv_red hl

theorem fixUp_after_right {x : Nat} {c : Color} {l r' : LLRBNode} (hr : LLInv r')
    (hl : isRed l = false) :
    (isRed r' = false ∧ fixUp (node x c l r') = .ok (node x c l r')) ∨
    (∃ ra rl rr, r' = node ra .RED rl rr ∧
      fixUp (node x c l r') = .ok (node ra c (node x .RED l rl) rr)) := by
  by_cases h : isRed r' = true
  · obtain ⟨ra, rl, rr, rfl⟩ := isRed_eq_true.mp h
    right
    simp only [LLInv_node] at hr
    exact ⟨ra, rl, rr, rfl, fixUp_rotL hl hr.2.2.2.1⟩
  · simp only [Bool.not_eq_true] at h
    exact Or.inl ⟨h, fixUp_id h (by simp [hl])⟩

theorem prepLeft_spec {h : LLRBNode} (hd : Deletable h) : LeftPrep h (DelPost h) := by
  intro a c la lc ll lr r e
  subst e
  obtain ⟨hinv, hred⟩ := hd
  simp only [LLInv_node] at hinv
  obtain ⟨⟨hll, hlr, hbl, hlrr, hlc⟩, hr, hb, hrr, hc⟩ := hinv
  cases lc
  · -- the left child is black, so the root is red
    cases c
    · simp at hred
    · by_cases hllr : isRed ll = true
      · -- the left child has a red left child: no preparation
        refine ⟨a, .RED, node la .BLACK ll lr, r, by simp [hllr], ⟨by simp [*], by simp [hllr]⟩,
          by simp; omega, fun x hx => hx, ?_⟩
        rintro l' ⟨h1, h2, h3⟩
        refine ⟨_, fixUp_after_left h1 hrr, ?_⟩
        have := h3 (by simp)
        simp_all [DelPost]
      · -- moveRedLeft
        simp only [Bool.not_eq_true] at hllr
        obtain ⟨ra, rl, rr, rfl⟩ := isRed_eq_false_of_bh hrr (by rw [← hb]; simp)
        simp only [LLInv_node] at hr
        obtain ⟨hrl, hrr', hbr, hrrr, -⟩ := hr
        by_cases hrlr : isRed rl = true
        · obtain ⟨rla, rll, rlr, rfl⟩ := isRed_eq_true.mp hrlr
          simp only [LLInv_node] at hrl
          refine ⟨rla, .RED, node a .BLACK (node la .RED ll lr) rll, node ra .BLACK rlr rr,
            by simp [moveRedLeft, hllr], ⟨by simp_all, by simp⟩, by simp; omega,
            fun x hx => by simp at hx ⊢; tauto, ?_⟩
          rintro l' ⟨h1, h2, h3⟩
          refine ⟨_, fixUp_after_left h1 (by simp), ?_⟩
          have := h3 (by simp)
          simp_all [DelPost]
        · simp only [Bool.not_eq_true] at hrlr
          refine ⟨a, .BLACK, node la .RED ll lr, node ra .RED rl rr,
            by simp [moveRedLeft, hllr, hrlr], ⟨by simp_all, by simp⟩, by simp; omega,
            fun x hx => hx, ?_⟩
          rintro l' ⟨h1, h2, h3⟩
          by_cases hl' : isRed l' = true
          · obtain ⟨la', ll', lr', rfl⟩ := isRed_eq_true.mp hl'
            refine ⟨_, fixUp_flip (isRed_left_of_LLInv_red h1), ?_⟩
            simp_all [DelPost]
          · simp only [Bool.not_eq_true] at hl'
            refine ⟨_, fixUp_rotL hl' hrrr, ?_⟩
            simp_all [DelPost]
  · -- the left child is red, so the root is black: no preparation
    cases c
    · refine ⟨a, .BLACK, node la .RED ll lr, r, by simp, ⟨by simp [*], by simp⟩, by simp; omega,
        fun x hx => hx, ?_⟩
      rintro l' ⟨h1, h2, h3⟩
      refine ⟨_, fixUp_after_left h1 hrr, ?_⟩
      simp_all [DelPost]
    · simp at hc

theorem prepRight_spec {h : LLRBNode} (hp : Deletable h ∨ RightRed h) :
    RightPrep h (DelPost h) := by
  intro a c l r e
  subst e
  by_cases hlr : isRed l = true
  · -- a red left child: rotate right, the right child is then red
    obtain ⟨la, ll, lr, rfl⟩ := isRed_eq_true.mp hlr
    have hd : LLInv (node a c (node la .RED ll lr) r) := by
      rcases hp with hp | hp
      · exact hp.1
      · simp [RightRed] at hp
    simp only [LLInv_node] at hd
    obtain ⟨⟨hll, hlr', hbl, hlrr, hlc⟩, hr, hb, hrr, hc⟩ := hd
    have hcB : c = .BLACK := by
      cases c
      · rfl
      · simp at hc
    subst hcB
    refine ⟨la, .BLACK, ll, node a .RED lr r, by simp, Or.inr (by simp), by simp, ?_⟩
    intro ra rc rl rr e
    simp only [node.injEq] at e
    obtain ⟨rfl, rfl, rfl, rfl⟩ := e
    refine ⟨la, .BLACK, ll, node a .RED lr r, by simp, Or.inr (by simp),
      Or.inl ⟨by simp_all, by simp⟩, by simp; omega, ?_⟩
    rintro x r' ⟨h1, h2, h3⟩
    rcases fixUp_after_right (x := x) (c := .BLACK) h1 (hlc trivial) with
      ⟨hr', e⟩ | ⟨ra', rl', rr', rfl, e⟩
    · exact ⟨_, e, by simp_all [DelPost]⟩
    · exact ⟨_, e, by simp_all [DelPost]⟩
  · simp only [Bool.not_eq_true] at hlr
    cases c
    · -- a black root with a black left child: the right child is red
      have hp' : RightRed (node a .BLACK l r) := by
        rcases hp with hp | hp
        · simp [Deletable, hlr] at hp
        · exact hp
      obtain ⟨-, -, hrr, hl, hr, hb⟩ := hp'
      simp only [left_node, right_node] at hrr hl hr hb
      obtain ⟨ra, rl, rr, rfl⟩ := isRed_eq_true.mp hrr
      refine ⟨a, .BLACK, l, node ra .RED rl rr, by simp [hlr], Or.inl rfl, by simp, ?_⟩
      intro ra' rc' rl' rr' e
      simp only [node.injEq] at e
      obtain ⟨rfl, rfl, rfl, rfl⟩ := e
      refine ⟨a, .BLACK, l, node ra .RED rl rr, by simp, Or.inl rfl,
        Or.inl ⟨hr, by simp⟩, by simp; omega, ?_⟩
      rintro x r' ⟨h1, h2, h3⟩
      rcases fixUp_after_right (x := x) (c := .BLACK) h1 hlr with
        ⟨hr', e⟩ | ⟨ra', rl', rr', rfl, e⟩
      · exact ⟨_, e, by simp_all [DelPost]⟩
      · exact ⟨_, e, by simp_all [DelPost]⟩
    · -- a red root: both children are black
      have hd : LLInv (node a .RED l r) := by
        rcases hp with hp | hp
        · exact hp.1
        · simp [RightRed] at hp
      simp only [LLInv_node] at hd
      obtain ⟨hl, hr, hb, hrr, -⟩ := hd
      refine ⟨a, .RED, l, r, by simp [hlr], Or.inl rfl, ?_, ?_⟩
      · rintro rfl
        have hln : l = nil := eq_nil_of_bh_zero hlr (by simpa using hb)
        subst hln
        simp [DelPost]
      intro ra rc rl rr e
      subst e
      have hrc : rc = .BLACK := by
        cases rc
        · rfl
        · simp at hrr
      subst hrc
      by_cases hrlr : isRed rl = true
      · refine ⟨a, .RED, l, node ra .BLACK rl rr, by simp [hrlr], Or.inl rfl,
          Or.inl ⟨hr, by simp [hrlr]⟩, by simp; omega, ?_⟩
        rintro x r' ⟨h1, h2, h3⟩
        have h4 := h3 (by simp)
        exact ⟨_, fixUp_id h4 (by simp [hlr]), by simp_all [DelPost]⟩
      · simp only [Bool.not_eq_true] at hrlr
        obtain ⟨la, ll, lr, rfl⟩ := isRed_eq_false_of_bh hlr (by rw [hb]; simp)
        simp only [LLInv_node] at hl hr
        obtain ⟨hll, hlr', hbl, hlrr, -⟩ := hl
        obtain ⟨hrl, hrr', hbr, hrrr, -⟩ := hr
        by_cases hllr : isRed ll = true
        · obtain ⟨lla, lll, llr, rfl⟩ := isRed_eq_true.mp hllr
          refine ⟨la, .RED, node lla .BLACK lll llr, node a .BLACK lr (node ra .RED rl rr),
            by simp [moveRedRight, hrlr], Or.inr (by simp),
            Or.inr ⟨by simp_all [RightRed], by simp, _, _, _, rfl⟩, by simp; omega, ?_⟩
          rintro x r' ⟨h1, h2, h3⟩
          have h4 := h3 (by simp)
          exact ⟨_, fixUp_id h4 (by simp), by simp_all [DelPost]⟩
        · simp only [Bool.not_eq_true] at hllr
          refine ⟨a, .BLACK, node la .RED ll lr, node ra .RED rl rr,
            by simp [moveRedRight, hrlr, hllr], Or.inl rfl,
            Or.inl ⟨by simp_all, by simp⟩, by simp; omega, ?_⟩
          rintro x r' ⟨h1, h2, h3⟩
          by_cases hr' : isRed r' = true
          · obtain ⟨ra', rl', rr', rfl⟩ := isRed_eq_true.mp hr'
            exact ⟨_, fixUp_flip hllr, by simp_all [DelPost]⟩
          · simp only [Bool.not_eq_true] at hr'
            exact ⟨_, fixUp_id hr' (by simp [hllr]), by simp_all [DelPost]⟩

theorem rootInv_of_LLInv {h : LLRBNode} (hi : LLInv h) : RootInv h := by
  rcases h with _ | ⟨a, c, l, r⟩
  · trivial
  · simp only [LLInv_node] at hi
    simp only [RootInv_node]
    exact ⟨hi.1, hi.2.1, hi.2.2.1, hi.2.2.2.1⟩

theorem LeftPrep_mono {h : LLRBNode} {P Q : LLRBNode → Prop} (hpq : ∀ x, P x → Q x)
    (hl : LeftPrep h P) : LeftPrep h Q := by
  intro a c la lc ll lr r e
  obtain ⟨a1, c1, l1, r1, e1, h1, h2, h3, ctx⟩ := hl a c la lc ll lr r e
  refine ⟨a1, c1, l1, r1, e1, h1, h2, h3, fun l' hl' => ?_⟩
  obtain ⟨h', e', hp⟩ := ctx l' hl'
  exact ⟨h', e', hpq _ hp⟩

theorem RightPrep_mono {h : LLRBNode} {P Q : LLRBNode → Prop} (hpq : ∀ x, P x → Q x)
    (hr : RightPrep h P) : RightPrep h Q := by
  intro a c l r e
  obtain ⟨a1, c1, l1, r1, e1, h1, h2, h3⟩ := hr a c l r e
  refine ⟨a1, c1, l1, r1, e1, h1, fun hn => ⟨(h2 hn).1, (h2 hn).2.1, hpq _ (h2 hn).2.2⟩, ?_⟩
  intro ra rc rl rr er
  obtain ⟨a2, c2, l2, r2, e2, h4, h5, h6, ctx⟩ := h3 ra rc rl rr er
  refine ⟨a2, c2, l2, r2, e2, h4, h5, h6, fun x r' hr' => ?_⟩
  obtain ⟨h', e', hp⟩ := ctx x r' hr'
  exact ⟨h', e', hpq _ hp⟩

theorem rootInv_of_DelPost {h h' : LLRBNode} (hp : DelPost h h') : RootInv h' :=
  rootInv_of_LLInv hp.1

theorem prepLeft_root {h : LLRBNode} (hr : RootInv h) : LeftPrep h RootInv := by
  by_cases hd : Deletable h
  · exact LeftPrep_mono (fun _ hp => rootInv_of_DelPost hp) (prepLeft_spec hd)
  intro a c la lc ll lr r e
  subst e
  simp only [RootInv_node, LLInv_node] at hr
  obtain ⟨⟨hll, hlr, hbl, hlrr, hlc⟩, hr, hb, hrr⟩ := hr
  cases lc
  · -- a black left child: the root is black as well
    cases c
    swap
    · exact absurd ⟨by simp [*], by simp⟩ hd
    by_cases hllr : isRed ll = true
    · refine ⟨a, .BLACK, node la .BLACK ll lr, r, by simp [hllr], ⟨by simp [*], by simp [hllr]⟩,
        by simp; omega, fun x hx => hx, ?_⟩
      rintro l' ⟨h1, h2, h3⟩
      refine ⟨_, fixUp_after_left h1 hrr, ?_⟩
      simp_all
    · simp only [Bool.not_eq_true] at hllr
      obtain ⟨ra, rl, rr, rfl⟩ := isRed_eq_false_of_bh hrr (by rw [← hb]; simp)
      simp only [LLInv_node] at hr
      obtain ⟨hrl, hrr', hbr, hrrr, -⟩ := hr
      by_cases hrlr : isRed rl = true
      · obtain ⟨rla, rll, rlr, rfl⟩ := isRed_eq_true.mp hrlr
        simp only [LLInv_node] at hrl
        refine ⟨rla, .BLACK, node a .BLACK (node la .RED ll lr) rll, node ra .BLACK rlr rr,
          by simp [moveRedLeft, hllr], ⟨by simp_all, by simp⟩, by simp; omega,
          fun x hx => by simp at hx ⊢; tauto, ?_⟩
        rintro l' ⟨h1, h2, h3⟩
        refine ⟨_, fixUp_after_left h1 (by simp), ?_⟩
        have := h3 (by simp)
        simp_all
      · simp only [Bool.not_eq_true] at hrlr
        refine ⟨a, .RED, node la .RED ll lr, node ra .RED rl rr,
          by simp [moveRedLeft, hllr, hrlr], ⟨by simp_all, by simp⟩, by simp; omega,
          fun x hx => hx, ?_⟩
        rintro l' ⟨h1, h2, h3⟩
        by_cases hl' : isRed l' = true
        · obtain ⟨la', ll', lr', rfl⟩ := isRed_eq_true.mp hl'
          refine ⟨_, fixUp_flip (isRed_left_of_LLInv_red h1), ?_⟩
          simp_all
        · simp only [Bool.not_eq_true] at hl'
          refine ⟨_, fixUp_rotL hl' hrrr, ?_⟩
          simp_all
  · -- a red left child: no preparation
    refine ⟨a, c, node la .RED ll lr, r, by simp, ⟨by simp [*], by simp⟩, by simp; omega,
      fun x hx => hx, ?_⟩
    rintro l' ⟨h1, h2, h3⟩
    refine ⟨_, fixUp_after_left h1 hrr, ?_⟩
    simp_all

theorem prepRight_root {h : LLRBNode} (hr : RootInv h) : RightPrep h RootInv := by
  by_cases hd : Deletable h
  · exact RightPrep_mono (fun _ hp => rootInv_of_DelPost hp) (prepRight_spec (Or.inl hd))
  intro a c l r e
  subst e
  simp only [RootInv_node] at hr
  obtain ⟨hl, hr, hb, hrr⟩ := hr
  by_cases hlr : isRed l = true
  · -- a red left child: rotate right, the right child is then red
    obtain ⟨la, ll, lr, rfl⟩ := isRed_eq_true.mp hlr
    simp only [LLInv_node] at hl
    obtain ⟨hll, hlr', hbl, hlrr, hlc⟩ := hl
    refine ⟨la, c, ll, node a .RED lr r, by simp, Or.inr (by simp), by simp, ?_⟩
    intro ra rc rl rr e
    simp only [node.injEq] at e
    obtain ⟨rfl, rfl, rfl, rfl⟩ := e
    refine ⟨la, c, ll, node a .RED lr r, by simp, Or.inr (by simp),
      Or.inl ⟨by simp_all, by simp⟩, by simp; omega, ?_⟩
    rintro x r' ⟨h1, h2, h3⟩
    rcases fixUp_after_right (x := x) (c := c) h1 (hlc trivial) with
      ⟨hr', e⟩ | ⟨ra', rl', rr', rfl, e⟩
    · exact ⟨_, e, by simp_all⟩
    · exact ⟨_, e, by simp_all⟩
  · simp only [Bool.not_eq_true] at hlr
    cases c
    swap
    · exact absurd ⟨by simp [*], by simp⟩ hd
    -- a black root with two black children
    refine ⟨a, .BLACK, l, r, by simp [hlr], Or.inl rfl,
      fun hn => ⟨rfl, eq_nil_of_bh_zero hlr (by simpa [hn] using hb), trivial⟩, ?_⟩
    intro ra rc rl rr e
    subst e
    have hrc : rc = .BLACK := by
      cases rc
      · rfl
      · simp at hrr
    subst hrc
    by_cases hrlr : isRed rl = true
    · refine ⟨a, .BLACK, l, node ra .BLACK rl rr, by simp [hrlr], Or.inl rfl,
        Or.inl ⟨hr, by simp [hrlr]⟩, by simp; omega, ?_⟩
      rintro x r' ⟨h1, h2, h3⟩
      have h4 := h3 (by simp)
      exact ⟨_, fixUp_id h4 (by simp [hlr]), by simp_all⟩
    · simp only [Bool.not_eq_true] at hrlr
      obtain ⟨la, ll, lr, rfl⟩ := isRed_eq_false_of_bh hlr (by rw [hb]; simp)
      simp only [LLInv_node] at hl hr
      obtain ⟨hll, hlr', hbl, hlrr, -⟩ := hl
      obtain ⟨hrl, hrr', hbr, hrrr, -⟩ := hr
      by_cases hllr : isRed ll = true
      · obtain ⟨lla, lll, llr, rfl⟩ := isRed_eq_true.mp hllr
        refine ⟨la, .BLACK, node lla .BLACK lll llr, node a .BLACK lr (node ra .RED rl rr),
          by simp [moveRedRight, hrlr], Or.inr (by simp),
          Or.inr ⟨by simp_all [RightRed], by simp, _, _, _, rfl⟩, by simp; omega, ?_⟩
        rintro x r' ⟨h1, h2, h3⟩
        have h4 := h3 (by simp)
        exact ⟨_, fixUp_id h4 (by simp), by simp_all⟩
      · simp only [Bool.not_eq_true] at hllr
        refine ⟨a, .RED, node la .RED ll lr, node ra .RED rl rr,
          by simp [moveRedRight, hrlr, hllr], Or.inl rfl,
          Or.inl ⟨by simp_all, by simp⟩, by simp; omega, ?_⟩
        rintro x r' ⟨h1, h2, h3⟩
        by_cases hr' : isRed r' = true
        · obtain ⟨ra', rl', rr', rfl⟩ := isRed_eq_true.mp hr'
          exact ⟨_, fixUp_flip hllr, by simp_all⟩
        · simp only [Bool.not_eq_true] at hr'
          exact ⟨_, fixUp_id hr' (by simp [hllr]), by simp_all⟩

theorem deleteMin_step (n : Nat)
    (ih : ∀ (h : LLRBNode) (ng : Neigh), Deletable h → size h ≤ n →
      ∃ h' d, deleteMin n h ng = .ok (h', d, unlink ng d) ∧ DelPost h h' ∧
        inorder h = d :: inorder h')
    {Post : LLRBNode → Prop} {a : Nat} {c : Color} {l r : LLRBNode}
    (hnil : l = nil → r = nil ∧ Post nil) (hL : LeftPrep (node a c l r) Post)
    (hsz : size (node a c l r) ≤ n + 1) (ng : Neigh) :
    ∃ h' d, deleteMin (n + 1) (node a c l r) ng = .ok (h', d, unlink ng d) ∧ Post h' ∧
      inorder (node a c l r) = d :: inorder h' := by
  rcases l with _ | ⟨la, lc, ll, lr⟩
  · obtain ⟨rfl, hp⟩ := hnil rfl
    exact ⟨nil, a, by simp [deleteMin], hp, by simp⟩
  · obtain ⟨a1, c1, l1, r1, e1, hd1, hs1, -, ctx⟩ := hL _ _ _ _ _ _ _ rfl
    have hi1 := ite_ok_inorder (fun e => moveRedLeft_inorder e) e1
    obtain ⟨l', d, e2, hp, hi2⟩ := ih l1 ng hd1 (by omega)
    obtain ⟨h', e3, hp'⟩ := ctx l' hp
    have hi3 := fixUp_inorder e3
    refine ⟨h', d, by simp only [deleteMin, e1, e2, e3, Res.bind_ok], hp', ?_⟩
    rw [← hi1, hi3]
    simp [hi2]

theorem nil_of_left_nil {a : Nat} {c : Color} {r : LLRBNode} (h : RootInv (node a c nil r)) :
    r = nil := by
  simp only [RootInv_node] at h
  exact eq_nil_of_bh_zero h.2.2.2 (by simpa using h.2.2.1.symm)

theorem deleteMin_balance : ∀ (n : Nat) (h : LLRBNode) (ng : Neigh), Deletable h → size h ≤ n →
    ∃ h' d, deleteMin n h ng = .ok (h', d, unlink ng d) ∧ DelPost h h' ∧
      inorder h = d :: inorder h' := by
  intro n
  induction n with
  | zero =>
    intro h ng hd hs
    rcases h with _ | ⟨a, c, l, r⟩
    · simp [Deletable] at hd
    · simp at hs
  | succ n ih =>
    intro h ng hd hs
    rcases h with _ | ⟨a, c, l, r⟩
    · simp [Deletable] at hd
    · refine deleteMin_step n ih ?_ (prepLeft_spec hd) hs ng
      rintro rfl
      obtain ⟨hinv, hred⟩ := hd
      refine ⟨nil_of_left_nil (rootInv_of_LLInv hinv), ?_⟩
      cases c <;> simp_all [DelPost]

theorem deleteMin_root {n : Nat} {h : LLRBNode} (ng : Neigh) (hr : RootInv h) (hne : h ≠ nil)
    (hsz : size h ≤ n) :
    ∃ h' d, deleteMin n h ng = .ok (h', d, unlink ng d) ∧ RootInv h' ∧
      inorder h = d :: inorder h' := by
  rcases h with _ | ⟨a, c, l, r⟩
  · exact absurd rfl hne
  · rcases n with _ | n
    · simp at hsz
    · refine deleteMin_step n (deleteMin_balance n) ?_ (prepLeft_root hr) hsz ng
      rintro rfl
      exact ⟨nil_of_left_nil hr, trivial⟩

theorem deleteKey_step {cmp : Comparator} (hc : TotalOrder cmp) (key : Nat) (n : Nat)
    (ih : ∀ (h : LLRBNode) (ng : Neigh),
      (Deletable h ∨ (RightRed h ∧ ∀ a c l r, h = node a c l r → 0 ≤ cmp key a)) →
      Increasing cmp (inorder h) → (∃ d ∈ inorder h, cmp key d = 0) → size h ≤ n →
      ∃ h' d ng', deleteKey cmp n h key ng = .ok (h', d, ng') ∧ DelPost h h' ∧ cmp key d = 0 ∧
        ∃ l1 l2, inorder h = l1 ++ d :: l2 ∧ inorder h' = l1 ++ l2 ∧
          (ng' = unlink ng d ∨ ∃ m l2', l2 = m :: l2' ∧ ng' = relink (unlink ng m) m d))
    (ihm : ∀ (h : LLRBNode) (ng : Neigh), Deletable h → size h ≤ n →
      ∃ h' d, deleteMin n h ng = .ok (h', d, unlink ng d) ∧ DelPost h h' ∧
        inorder h = d :: inorder h')
    {Post : LLRBNode → Prop} {a : Nat} {c : Color} {l r : LLRBNode}
    (hL : cmp key a < 0 → LeftPrep (node a c l r) Post)
    (hR : ¬ cmp key a < 0 → RightPrep (node a c l r) Post)
    (hs : Increasing cmp (inorder (node a c l r)))
    (hpres : ∃ d ∈ inorder (node a c l r), cmp key d = 0)
    (hsz : size (node a c l r) ≤ n + 1) (ng : Neigh) :
    ∃ h' d ng', deleteKey cmp (n + 1) (node a c l r) key ng = .ok (h', d, ng') ∧ Post h' ∧
      cmp key d = 0 ∧
      ∃ l1 l2, inorder (node a c l r) = l1 ++ d :: l2 ∧ inorder h' = l1 ++ l2 ∧
        (ng' = unlink ng d ∨ ∃ m l2', l2 = m :: l2' ∧ ng' = relink (unlink ng m) m d) := by
  obtain ⟨d, hd, hk⟩ := hpres
  by_cases hlt : cmp key a < 0
  · -- going left
    simp only [inorder_node] at hs hd
    have hdl := present_left hc hs hd hk hlt
    rcases l with _ | ⟨la, lc, ll, lr⟩
    · simp at hdl
    · obtain ⟨a1, c1, l1, r1, e1, hd1, hs1, hsub, ctx⟩ := hL hlt _ _ _ _ _ _ _ rfl
      have hi := ite_ok_inorder (fun e => moveRedLeft_inorder e) e1
      have hs' : Increasing cmp (inorder l1) := by
        have : Increasing cmp (inorder (node a1 c1 l1 r1)) := by
          rw [hi]; exact hs
        exact (Increasing_append_cons.mp this).1
      obtain ⟨l', d', ng', e2, hp2, hk', k1, k2, hi1, hi2, hng⟩ :=
        ih l1 ng (Or.inl hd1) hs' ⟨d, hsub d hdl, hk⟩ (by simp only [size_node] at hs1 hsz; omega)
      obtain ⟨h', e3, hp3⟩ := ctx l' hp2
      have hi3 := fixUp_inorder e3
      refine ⟨h', d', ng', by simp only [deleteKey, if_pos hlt, e1, e2, e3, Res.bind_ok], hp3,
        hk', k1, k2 ++ a1 :: inorder r1, ?_, ?_, ?_⟩
      · rw [← hi]; simp [hi1]
      · rw [hi3]; simp [hi2]
      · rcases hng with h | ⟨m, k2', rfl, h⟩
        · exact Or.inl h
        · exact Or.inr ⟨m, k2' ++ a1 :: inorder r1, by simp, h⟩
  · -- going right or deleting here
    have hge : 0 ≤ cmp key a := by omega
    obtain ⟨a1, c1, l1, r1, e1, ha1, hnil, hnode⟩ := hR hlt _ _ _ _ rfl
    have hi1 : inorder (node a1 c1 l1 r1) = inorder (node a c l r) :=
      ite_ok_inorder (fun e => rotate_inorder e) e1
    have hkl : ∀ x ∈ inorder l, 0 < cmp key x := by
      intro x hx
      simp only [inorder_node] at hs
      obtain ⟨-, -, hla, -, -⟩ := Increasing_append_cons.mp hs
      have h1 := hc.lt_of_lt_of_le (hla x hx) (hc.ge_symm hge)
      exact (hc.swap x key).mp h1
    by_cases hleaf : cmp key a1 = 0 ∧ r1 = nil
    · obtain ⟨-, hl1, hpost⟩ := hnil hleaf.2
      refine ⟨nil, a1, unlink ng a1,
        by simp only [deleteKey, if_neg hlt, e1, Res.bind_ok, if_pos hleaf], hpost, hleaf.1,
        [], [], ?_, rfl, Or.inl rfl⟩
      rw [← hi1, hl1, hleaf.2]
      rfl
    · rcases r1 with _ | ⟨ra, rc, rl, rr⟩
      · exfalso
        obtain ⟨rfl, -, -⟩ := hnil rfl
        have hne : cmp key a1 ≠ 0 := fun h => hleaf ⟨h, rfl⟩
        rw [← hi1] at hs hd
        simp only [inorder_node] at hs hd
        have := present_right hc hs hd hk (by omega)
        simp at this
      · obtain ⟨a2, c2, l2, r2, e2, ha2, hr2, hsz2, ctx⟩ := hnode ra rc rl rr rfl
        have hi2 : inorder (node a2 c2 l2 r2) = inorder (node a c l r) :=
          (ite_ok_inorder (fun e => moveRedRight_inorder e) e2).trans hi1
        rw [← hi2] at hs hd ⊢
        simp only [inorder_node] at hs hd ⊢
        by_cases heq : cmp key a2 = 0
        · have hD2 : Deletable r2 := by
            rcases hr2 with h | ⟨-, hm, -⟩
            · exact h
            · have := hkl _ hm
              omega
          obtain ⟨r', rmin, e3, hp3, hi3⟩ :=
            ihm r2 ng hD2 (by simp only [size_node] at hsz2 hsz; omega)
          obtain ⟨h', e4, hp4⟩ := ctx rmin r' hp3
          have hi4 := fixUp_inorder e4
          refine ⟨h', a2, relink (unlink ng rmin) rmin a2,
            by simp only [deleteKey, if_neg hlt, e1, Res.bind_ok, if_neg hleaf, e2, if_pos heq,
              e3, e4], hp4, heq, inorder l2, rmin :: inorder r', ?_, ?_,
            Or.inr ⟨rmin, inorder r', rfl, rfl⟩⟩
          · rw [hi3]
          · rw [hi4]; simp
        · have hka2 : 0 < cmp key a2 := by
            rcases ha2 with rfl | h
            · omega
            · exact hkl _ h
          have hd2 : d ∈ inorder r2 := present_right hc hs hd hk hka2
          have hP2 : Deletable r2 ∨
              (RightRed r2 ∧ ∀ a c l r, r2 = node a c l r → 0 ≤ cmp key a) := by
            rcases hr2 with h | ⟨h, -, c', l', r'', rfl⟩
            · exact Or.inl h
            · refine Or.inr ⟨h, fun a' _ _ _ e => ?_⟩
              simp only [node.injEq] at e
              rw [← e.1]; exact hge
          obtain ⟨r', d', ng', e3, hp3, hk', k1, k2, hi3, hi3', hng⟩ :=
            ih r2 ng hP2 (Increasing_append_cons.mp hs).2.1 ⟨d, hd2, hk⟩
              (by simp only [size_node] at hsz2 hsz; omega)
          obtain ⟨h', e4, hp4⟩ := ctx a2 r' hp3
          have hi4 := fixUp_inorder e4
          refine ⟨h', d', ng',
            by simp only [deleteKey, if_neg hlt, e1, Res.bind_ok, if_neg hleaf, e2, if_neg heq,
              e3, e4], hp4, hk', inorder l2 ++ a2 :: k1, k2, ?_, ?_, hng⟩
          · simp [hi3]
          · rw [hi4]; simp [hi3']

theorem deleteKey_balance {cmp : Comparator} (hc : TotalOrder cmp) (key : Nat) :
    ∀ (n : Nat) (h : LLRBNode) (ng : Neigh),
    (Deletable h ∨ (RightRed h ∧ ∀ a c l r, h = node a c l r → 0 ≤ cmp key a)) →
    Increasing cmp (inorder h) → (∃ d ∈ inorder h, cmp key d = 0) → size h ≤ n →
    ∃ h' d ng', deleteKey cmp n h key ng = .ok (h', d, ng') ∧ DelPost h h' ∧ cmp key d = 0 ∧
      ∃ l1 l2, inorder h = l1 ++ d :: l2 ∧ inorder h' = l1 ++ l2 ∧
        (ng' = unlink ng d ∨ ∃ m l2', l2 = m :: l2' ∧ ng' = relink (unlink ng m) m d) := by
  intro n
  induction n with
  | zero =>
    rintro h ng - - ⟨d, hd, -⟩ hsz
    rcases h with _ | ⟨a, c, l, r⟩
    · simp at hd
    · simp at hsz
  | succ n ih =>
    rintro h ng hp hs hpres hsz
    rcases h with _ | ⟨a, c, l, r⟩
    · obtain ⟨d, hd, -⟩ := hpres
      simp at hd
    · refine deleteKey_step hc key n ih (deleteMin_balance n) ?_ ?_ hs hpres hsz ng
      · intro hlt
        rcases hp with hp | ⟨-, hp⟩
        · exact prepLeft_spec hp
        · have := hp _ _ _ _ rfl
          omega
      · intro _
        exact prepRight_spec (hp.imp id And.left)

theorem deleteKey_root {cmp : Comparator} (hc : TotalOrder cmp) {key n : Nat} {h : LLRBNode}
    (ng : Neigh) (hr : RootInv h) (hs : Increasing cmp (inorder h))
    (hpres : ∃ d ∈ inorder h, cmp key d = 0) (hsz : size h ≤ n) :
    ∃ h' d ng', deleteKey cmp n h key ng = .ok (h', d, ng') ∧ RootInv h' ∧ cmp key d = 0 ∧
      ∃ l1 l2, inorder h = l1 ++ d :: l2 ∧ inorder h' = l1 ++ l2 ∧
        (ng' = unlink ng d ∨ ∃ m l2', l2 = m :: l2' ∧ ng' = relink (unlink ng m) m d) := by
  rcases h with _ | ⟨a, c, l, r⟩
  · obtain ⟨d, hd, -⟩ := hpres
    simp at hd
  · rcases n with _ | n
    · simp at hsz
    · exact deleteKey_step hc key n (deleteKey_balance hc key n) (deleteMin_balance n)
        (fun _ => prepLeft_root hr) (fun _ => prepRight_root hr) hs hpres hsz ng

theorem LLInv_of_rootInv_red {a : Nat} {l r : LLRBNode} (h : RootInv (node a .RED l r))
    (hl : isRed l = false) : LLInv (node a .RED l r) := by
  simp only [RootInv_node] at h
  simp only [LLInv_node]
  exact ⟨h.1, h.2.1, h.2.2.1, h.2.2.2, fun _ => hl⟩

/-- the fix-up above a left subtree that came back from an insertion into a red subtree -/
theorem fixUp_after_insert_left {a : Nat} {c : Color} {l' r : LLRBNode} (hl : RootInv l')
    (hlr : isRed l' = true) (hr : isRed r = false) :
    (LLInv l' ∧ fixUp (node a c l' r) = .ok (node a c l' r)) ∨
    (∃ la lla lll llr lr, l' = node la .RED (node lla .RED lll llr) lr ∧
      fixUp (node a c l' r) = .ok (node la c.flip (node lla .BLACK lll llr) (node a .BLACK lr r))) := by
  obtain ⟨la, ll, lr, rfl⟩ := isRed_eq_true.mp hlr
  by_cases hll : isRed ll = true
  · obtain ⟨lla, lll, llr, rfl⟩ := isRed_eq_true.mp hll
    exact Or.inr ⟨la, lla, lll, llr, lr, rfl, fixUp_rotR⟩
  · simp only [Bool.not_eq_true] at hll
    exact Or.inl ⟨LLInv_of_rootInv_red hl hll, fixUp_id hr (by simp [hll])⟩

theorem insert_balance (cmp : Comparator) (x : Nat) :
    ∀ (h : LLRBNode) (ng : Neigh) (old : Option Nat) (p : Nat) (side : Side), LLInv h →
    ∃ h' ng' old', insert cmp h x ng old p side = .ok (h', ng', old') ∧ bh h' = bh h ∧
      RootInv h' ∧ (isRed h = false → LLInv h') ∧ (isRed h = true → isRed h' = true) := by
  intro h
  induction h with
  | nil =>
    intro ng old p side _
    exact ⟨_, _, _, rfl, by simp, by simp, by simp, by simp⟩
  | node a c l r ihl ihr =>
    intro ng old p side hi
    simp only [LLInv_node] at hi
    obtain ⟨hl, hr, hb, hrr, hc⟩ := hi
    by_cases h0 : cmp a x = 0
    · refine ⟨_, _, _, by simp only [insert, if_pos h0]; rfl, ?_⟩
      cases c <;> simp_all
    by_cases hlt : cmp a x < 0
    · -- into the right subtree, which is black
      obtain ⟨r', ng', old', e, hb', -, hri, -⟩ := ihr ng old a .RIGHT hr
      have hr' := hri hrr
      by_cases hr'r : isRed r' = true
      · obtain ⟨ra', rl', rr', rfl⟩ := isRed_eq_true.mp hr'r
        simp only [LLInv_node] at hr'
        by_cases hlr : isRed l = true
        · obtain ⟨la, ll, lr, rfl⟩ := isRed_eq_true.mp hlr
          have hll := isRed_left_of_LLInv_red hl
          refine ⟨_, ng', old',
            by simp only [insert, if_neg h0, if_pos hlt, e, Res.bind_ok, fixUp_flip hll]; rfl, ?_⟩
          cases c <;> simp_all
        · simp only [Bool.not_eq_true] at hlr
          refine ⟨_, ng', old', by
            simp only [insert, if_neg h0, if_pos hlt, e, Res.bind_ok,
              fixUp_rotL hlr hr'.2.2.2.1]; rfl, ?_⟩
          cases c <;> simp_all
      · simp only [Bool.not_eq_true] at hr'r
        refine ⟨_, ng', old', by
          simp only [insert, if_neg h0, if_pos hlt, e, Res.bind_ok, fixUp_after_left hl hr'r]; rfl,
          ?_⟩
        cases c <;> simp_all
    · -- into the left subtree
      obtain ⟨l', ng', old', e, hb', hlroot, hlb, hlred⟩ := ihl ng old a .LEFT hl
      by_cases hlr : isRed l = true
      · rcases fixUp_after_insert_left (a := a) (c := c) hlroot (hlred hlr) hrr with
          ⟨hl', e'⟩ | ⟨la, lla, lll, llr, lr, rfl, e'⟩
        · refine ⟨_, ng', old',
            by simp only [insert, if_neg h0, if_neg hlt, e, Res.bind_ok, e']; rfl, ?_⟩
          have := hlred hlr
          cases c <;> simp_all
        · refine ⟨_, ng', old',
            by simp only [insert, if_neg h0, if_neg hlt, e, Res.bind_ok, e']; rfl, ?_⟩
          cases c
          · simp_all; omega
          · simp_all
      · simp only [Bool.not_eq_true] at hlr
        have hl' := hlb hlr
        refine ⟨_, ng', old', by
          simp only [insert, if_neg h0, if_neg hlt, e, Res.bind_ok, fixUp_after_left hl' hrr]; rfl,
          ?_⟩
        cases c <;> simp_all

theorem insert_root (cmp : Comparator) (x : Nat) (h : LLRBNode) (ng : Neigh) (old : Option Nat)
    (p : Nat) (side : Side) (hr : RootInv h) :
    ∃ h' ng' old', insert cmp h x ng old p side = .ok (h', ng', old') ∧ RootInv h' := by
  by_cases hi : LLInv h
  · obtain ⟨h', ng', old', e, -, hr', -, -⟩ := insert_balance cmp x h ng old p side hi
    exact ⟨h', ng', old', e, hr'⟩
  rcases h with _ | ⟨a, c, l, r⟩
  · simp at hi
  simp only [RootInv_node] at hr
  obtain ⟨hl, hr, hb, hrr⟩ := hr
  have hlr : isRed l = true := by
    by_contra hn
    simp only [Bool.not_eq_true] at hn
    exact hi (by simp only [LLInv_node]; exact ⟨hl, hr, hb, hrr, fun _ => hn⟩)
  by_cases h0 : cmp a x = 0
  · exact ⟨_, _, _, by simp only [insert, if_pos h0]; rfl, by simp [*]⟩
  by_cases hlt : cmp a x < 0
  · obtain ⟨r', ng', old', e, hb', -, hri, -⟩ := insert_balance cmp x r ng old a .RIGHT hr
    have hr' := hri hrr
    by_cases hr'r : isRed r' = true
    · obtain ⟨ra', rl', rr', rfl⟩ := isRed_eq_true.mp hr'r
      obtain ⟨la, ll, lr, rfl⟩ := isRed_eq_true.mp hlr
      have hll := isRed_left_of_LLInv_red hl
      refine ⟨_, ng', old',
        by simp only [insert, if_neg h0, if_pos hlt, e, Res.bind_ok, fixUp_flip hll]; rfl, ?_⟩
      simp_all
    · simp only [Bool.not_eq_true] at hr'r
      refine ⟨_, ng', old', by
        simp only [insert, if_neg h0, if_pos hlt, e, Res.bind_ok, fixUp_after_left hl hr'r]; rfl, ?_⟩
      simp_all
  · obtain ⟨l', ng', old', e, hb', hlroot, hlb, hlred⟩ :=
      insert_balance cmp x l ng old a .LEFT hl
    rcases fixUp_after_insert_left (a := a) (c := c) hlroot (hlred hlr) hrr with
      ⟨hl', e'⟩ | ⟨la, lla, lll, llr, lr, rfl, e'⟩
    · refine ⟨_, ng', old', by simp only [insert, if_neg h0, if_neg hlt, e, Res.bind_ok, e']; rfl, ?_⟩
      simp_all
    · refine ⟨_, ng', old', by simp only [insert, if_neg h0, if_neg hlt, e, Res.bind_ok, e']; rfl, ?_⟩
      simp_all; omega

theorem size_eq_length (h : LLRBNode) : size h = (inorder h).length := by
  induction h with
  | nil => rfl
  | node a c l r ihl ihr => simp [ihl, ihr]; omega

theorem insert_spec {cmp : Comparator} (hc : TotalOrder cmp) (x : Nat) :
    ∀ (h : LLRBNode) (ng : Neigh) (old : Option Nat) (p : Nat) (side : Side)
      (h' : LLRBNode) (ng' : Neigh) (old' : Option Nat),
    Increasing cmp (inorder h) → insert cmp h x ng old p side = .ok (h', ng', old') →
    ∃ l1 l2, inorder h' = l1 ++ x :: l2 ∧ (∀ y ∈ l1, cmp y x < 0) ∧ (∀ y ∈ l2, cmp x y < 0) ∧
      ((old' = old ∧ inorder h = l1 ++ l2 ∧
          ∀ pre post, SlotOK p side pre post →
            ∃ p' s', ng' = linkLeaf ng x p' s' ∧ SlotOK p' s' (pre ++ l1) (l2 ++ post)) ∨
        (∃ d, old' = some d ∧ cmp d x = 0 ∧ inorder h = l1 ++ d :: l2 ∧
          ng' = relink ng x d)) := by
  intro h
  induction h with
  | nil =>
    intro ng old p side h' ng' old' _ e
    simp only [insert, Res.ok.injEq, Prod.mk.injEq] at e
    obtain ⟨rfl, rfl, rfl⟩ := e
    exact ⟨[], [], by simp, by simp, by simp,
      Or.inl ⟨rfl, by simp, fun pre post hs => ⟨p, side, rfl, by simpa using hs⟩⟩⟩
  | node a c l r ihl ihr =>
    intro ng old p side h' ng' old' hs e
    simp only [inorder_node] at hs
    obtain ⟨hsl, hsr, hla, har, -⟩ := Increasing_append_cons.mp hs
    by_cases h0 : cmp a x = 0
    · simp only [insert, if_pos h0, Res.ok.injEq, Prod.mk.injEq] at e
      obtain ⟨rfl, rfl, rfl⟩ := e
      refine ⟨inorder l, inorder r, by simp, ?_, ?_, Or.inr ⟨a, rfl, h0, by simp, rfl⟩⟩
      · intro y hy
        exact hc.lt_of_lt_of_le (hla y hy) (by omega)
      · intro y hy
        exact hc.lt_of_le_of_lt (by have := hc.eq_symm h0; omega) (har y hy)
    by_cases hlt : cmp a x < 0
    · simp only [insert, if_neg h0, if_pos hlt, Res.bind_eq_ok] at e
      obtain ⟨⟨r', ng1, old1⟩, e1, h1, e2, e3⟩ := e
      simp only [Res.ok.injEq, Prod.mk.injEq] at e3
      obtain ⟨rfl, rfl, rfl⟩ := e3
      obtain ⟨l1, l2, hi, hb1, hb2, hor⟩ := ihr ng old a .RIGHT r' ng1 old1 hsr e1
      have hi' := fixUp_inorder e2
      simp only [inorder_node, hi] at hi'
      refine ⟨inorder l ++ a :: l1, l2, by simp [hi'], ?_, hb2, ?_⟩
      · intro y hy
        simp only [List.mem_append, List.mem_cons] at hy
        rcases hy with hy | rfl | hy
        · exact hc.lt_trans (hla y hy) hlt
        · exact hlt
        · exact hb1 y hy
      · rcases hor with ⟨ho, hio, hslot⟩ | ⟨d, ho, hd, hio, hng⟩
        · refine Or.inl ⟨ho, by simp [hio], fun pre post _ => ?_⟩
          obtain ⟨p', s', e, hs'⟩ :=
            hslot (pre ++ inorder l ++ [a]) post (Or.inr ⟨rfl, by simp⟩)
          exact ⟨p', s', e, by simpa using hs'⟩
        · exact Or.inr ⟨d, ho, hd, by simp [hio], hng⟩
    · simp only [insert, if_neg h0, if_neg hlt, Res.bind_eq_ok] at e
      obtain ⟨⟨l', ng1, old1⟩, e1, h1, e2, e3⟩ := e
      simp only [Res.ok.injEq, Prod.mk.injEq] at e3
      obtain ⟨rfl, rfl, rfl⟩ := e3
      obtain ⟨l1, l2, hi, hb1, hb2, hor⟩ := ihl ng old a .LEFT l' ng1 old1 hsl e1
      have hi' := fixUp_inorder e2
      simp only [inorder_node, hi] at hi'
      have hxa : cmp x a < 0 := (hc.swap x a).mpr (by omega)
      refine ⟨l1, l2 ++ a :: inorder r, by simp [hi'], hb1, ?_, ?_⟩
      · intro y hy
        simp only [List.mem_append, List.mem_cons] at hy
        rcases hy with hy | rfl | hy
        · exact hb2 y hy
        · exact hxa
        · exact hc.lt_trans hxa (har y hy)
      · rcases hor with ⟨ho, hio, hslot⟩ | ⟨d, ho, hd, hio, hng⟩
        · refine Or.inl ⟨ho, by simp [hio], fun pre post _ => ?_⟩
          obtain ⟨p', s', e, hs'⟩ :=
            hslot pre (a :: inorder r ++ post) (Or.inl ⟨rfl, by simp⟩)
          exact ⟨p', s', e, by simpa using hs'⟩
        · exact Or.inr ⟨d, ho, hd, by simp [hio], hng⟩

theorem Res.bind_ne_ok {α β : Type} {x : Res α} {f : α → Res β}
    (h : ∀ a, x = .ok a → ∀ b, f a ≠ .ok b) : ∀ b, x.bind f ≠ .ok b := by
  intro b e
  obtain ⟨a, e1, e2⟩ := Res.bind_eq_ok.mp e
  exact h a e1 b e2

/-- The function `deleteKey` with a key that no node of the subtree compares equal to never returns: it
ends in a dereference of `NULL` (or runs out of fuel) -/
theorem deleteKey_absent (cmp : Comparator) (key : Nat) :
    ∀ (n : Nat) (h : LLRBNode) (ng : Neigh), (∀ d ∈ inorder h, cmp key d ≠ 0) →
    ∀ res, deleteKey cmp n h key ng ≠ .ok res := by
  intro n
  induction n with
  | zero =>
    intro h ng _ res
    simp [deleteKey]
  | succ n ih =>
    intro h ng habs res
    rcases h with _ | ⟨a, c, l, r⟩
    · simp [deleteKey]
    by_cases hlt : cmp key a < 0
    · rcases l with _ | ⟨la, lc, ll, lr⟩
      · simp [deleteKey, hlt]
      · simp only [deleteKey, if_pos hlt]
        apply Res.bind_ne_ok
        intro h1 e1
        have hi1 := ite_ok_inorder (fun e => moveRedLeft_inorder e) e1
        rcases h1 with _ | ⟨a1, c1, l1, r1⟩
        · simp
        · apply Res.bind_ne_ok
          intro res1 e2
          exact absurd e2 (ih l1 ng (fun d hd => habs d (by rw [← hi1]; simp [hd])) res1)
    · simp only [deleteKey, if_neg hlt]
      apply Res.bind_ne_ok
      intro h1 e1
      have hi1 := ite_ok_inorder (fun e => rotate_inorder e) e1
      rcases h1 with _ | ⟨a1, c1, l1, r1⟩
      · simp
      have ha1 : cmp key a1 ≠ 0 := habs a1 (by rw [← hi1]; simp)
      have hleaf : ¬ (cmp key a1 = 0 ∧ r1 = nil) := fun h => ha1 h.1
      simp only [if_neg hleaf]
      rcases r1 with _ | ⟨ra, rc, rl, rr⟩
      · simp
      · apply Res.bind_ne_ok
        intro h2 e2
        have hi2 := (ite_ok_inorder (fun e => moveRedRight_inorder e) e2).trans hi1
        rcases h2 with _ | ⟨a2, c2, l2, r2⟩
        · simp
        have ha2 : cmp key a2 ≠ 0 := habs a2 (by rw [← hi2]; simp)
        simp only [if_neg ha2]
        apply Res.bind_ne_ok
        intro res1 e3
        exact absurd e3 (ih r2 ng (fun d hd => habs d (by rw [← hi2]; simp [hd])) res1)

@[simp] theorem Linked_nil (ng : Neigh) : Linked ng [] = True := rfl
@[simp] theorem Linked_singleton (ng : Neigh) (a : Nat) : Linked ng [a] = True := rfl
@[simp] theorem Linked_cons_cons (ng : Neigh) (a b : Nat) (l : List Nat) :
    Linked ng (a :: b :: l) = (ng a .RIGHT = b ∧ ng b .LEFT = a ∧ Linked ng (b :: l)) := rfl

theorem Linked_append_cons (ng : Neigh) (l1 : List Nat) (a : Nat) (l2 : List Nat) :
    Linked ng (l1 ++ a :: l2) ↔ Linked ng (l1 ++ [a]) ∧ Linked ng (a :: l2) := by
  induction l1 with
  | nil => simp
  | cons b l1 ih =>
    rcases l1 with _ | ⟨c, l1⟩
    · simp [and_assoc]
    · simp only [List.cons_append, Linked_cons_cons] at ih ⊢
      rw [ih]
      tauto

/-- only the right links of all but the last element and the left links of all but the first
element matter -/
theorem Linked_frame {ng ng' : Neigh} : ∀ (l : List Nat),
    (∀ a ∈ l.dropLast, ng' a .RIGHT = ng a .RIGHT) → (∀ b ∈ l.tail, ng' b .LEFT = ng b .LEFT) →
    Linked ng l → Linked ng' l
  | [], _, _, _ => trivial
  | [_], _, _, _ => trivial
  | a :: b :: l, h1, h2, h => by
    simp only [Linked_cons_cons] at h ⊢
    refine ⟨?_, ?_, Linked_frame (b :: l) ?_ ?_ h.2.2⟩
    · rw [h1 a (by simp), h.1]
    · rw [h2 b (by simp), h.2.1]
    · intro x hx
      exact h1 x (by simp only [List.dropLast_cons₂, List.mem_cons]; exact Or.inr hx)
    · intro x hx
      exact h2 x (by simp only [List.tail_cons, List.mem_cons]; exact Or.inr (by simpa using hx))

theorem setNeigh_apply (ng : Neigh) (a : Nat) (s : Side) (v b : Nat) (s' : Side) :
    setNeigh ng a s v b s' = if b = a ∧ s' = s then v else ng b s' := rfl

theorem unlink_eq (ng : Neigh) (d : Nat) :
    unlink ng d =
      setNeigh (setNeigh ng (ng d .LEFT) .RIGHT (ng d .RIGHT)) (ng d .RIGHT) .LEFT (ng d .LEFT) := by
  simp [unlink, setNeigh_apply]

theorem relink_eq (ng : Neigh) (x h : Nat) (hx : x ≠ ng h .LEFT) :
    relink ng x h =
      setNeigh (setNeigh (setNeigh (setNeigh ng x .LEFT (ng h .LEFT)) x .RIGHT (ng h .RIGHT))
        (ng h .LEFT) .RIGHT x) (ng h .RIGHT) .LEFT x := by
  simp [relink, setNeigh_apply, hx]

/-- a chain stays linked when the links between `q` and `p0` are redirected through a new
element `x` -/
theorem Linked_between {ng F : Neigh} {P0 Q0 : List Nat} {q x p0 : Nat}
    (hP : Linked ng (P0 ++ [q])) (hQ : Linked ng (p0 :: Q0))
    (h1 : F x .LEFT = q) (h2 : F x .RIGHT = p0) (h3 : F q .RIGHT = x) (h4 : F p0 .LEFT = x)
    (hR : ∀ a, a ≠ x → a ≠ q → F a .RIGHT = ng a .RIGHT)
    (hL : ∀ a, a ≠ x → a ≠ p0 → F a .LEFT = ng a .LEFT)
    (hxP : x ∉ P0 ++ [q]) (hxQ : x ∉ p0 :: Q0) (hqP : q ∉ P0) (hpQ : p0 ∉ Q0)
    (hpP : p0 ∉ (P0 ++ [q]).tail) (hqQ : q ∉ (p0 :: Q0).dropLast) :
    Linked F (P0 ++ q :: x :: p0 :: Q0) := by
  rw [Linked_append_cons]
  refine ⟨Linked_frame _ ?_ ?_ hP, ?_⟩
  · intro a ha
    simp only [List.dropLast_concat] at ha
    exact hR a (fun e => hxP (by simp [← e, ha])) (fun e => hqP (e ▸ ha))
  · intro a ha
    exact hL a (fun e => hxP (e ▸ List.mem_of_mem_tail ha)) (fun e => hpP (e ▸ ha))
  · simp only [Linked_cons_cons]
    refine ⟨h3, h1, h2, h4, Linked_frame _ ?_ ?_ hQ⟩
    · intro a ha
      exact hR a (fun e => hxQ (e ▸ List.mem_of_mem_dropLast ha)) (fun e => hqQ (e ▸ ha))
    · intro a ha
      simp only [List.tail_cons] at ha
      exact hL a (fun e => hxQ (by simp [← e, ha])) (fun e => hpQ (e ▸ ha))

/-- a chain stays linked when the element between `q` and `p0` is bypassed -/
theorem Linked_bypass {ng G : Neigh} {P0 Q0 : List Nat} {q p0 : Nat}
    (hP : Linked ng (P0 ++ [q])) (hQ : Linked ng (p0 :: Q0))
    (h1 : G q .RIGHT = p0) (h2 : G p0 .LEFT = q)
    (hR : ∀ a, a ≠ q → G a .RIGHT = ng a .RIGHT)
    (hL : ∀ a, a ≠ p0 → G a .LEFT = ng a .LEFT)
    (hqP : q ∉ P0) (hpQ : p0 ∉ Q0)
    (hpP : p0 ∉ (P0 ++ [q]).tail) (hqQ : q ∉ (p0 :: Q0).dropLast) :
    Linked G (P0 ++ q :: p0 :: Q0) := by
  rw [Linked_append_cons]
  refine ⟨Linked_frame _ ?_ ?_ hP, ?_⟩
  · intro a ha
    simp only [List.dropLast_concat] at ha
    exact hR a (fun e => hqP (e ▸ ha))
  · intro a ha
    exact hL a (fun e => hpP (e ▸ ha))
  · simp only [Linked_cons_cons]
    refine ⟨h1, h2, Linked_frame _ ?_ ?_ hQ⟩
    · intro a ha
      exact hR a (fun e => hqQ (e ▸ ha))
    · intro a ha
      simp only [List.tail_cons] at ha
      exact hL a (fun e => hpQ (e ▸ ha))

/-- the circular list cut open at a position: the part before ends in `q`, the part after
starts with `p0`, and the side conditions of the chain updates hold -/
theorem cyc_split {A : Nat} {L1 L2 : List Nat} (hn : (A :: (L1 ++ L2)).Nodup) :
    ∃ P0 q p0 Q0, A :: L1 = P0 ++ [q] ∧ L2 ++ [A] = p0 :: Q0 ∧ q ∉ P0 ∧ p0 ∉ Q0 ∧
      p0 ∉ (P0 ++ [q]).tail ∧ q ∉ (p0 :: Q0).dropLast ∧
      (A :: L1).getLast? = some q ∧ (L2 ++ [A]).head? = some p0 := by
  simp only [List.nodup_cons, List.mem_append, not_or, List.nodup_append] at hn
  obtain ⟨⟨hA1, hA2⟩, hn1, hn2, hdis⟩ := hn
  rcases List.eq_nil_or_concat (A :: L1) with h | ⟨P0, q, hP⟩
  · simp at h
  rw [List.concat_eq_append] at hP
  have hqmem : q ∈ A :: L1 := by rw [hP]; simp
  have hqP : q ∉ P0 := by
    have hnd : (A :: L1).Nodup := List.nodup_cons.mpr ⟨hA1, hn1⟩
    rw [hP] at hnd
    have := List.nodup_append.mp hnd
    exact fun h => this.2.2 h (by simp)
  have hqL2 : q ∉ L2 := by
    simp only [List.mem_cons] at hqmem
    rcases hqmem with rfl | h
    · exact hA2
    · exact fun h2 => hdis h h2
  rcases L2 with _ | ⟨b, L2⟩
  · refine ⟨P0, q, A, [], hP, rfl, hqP, by simp, ?_, by simp, by rw [hP]; simp, rfl⟩
    rw [← hP]
    simpa using hA1
  · simp only [List.nodup_cons] at hn2
    simp only [List.mem_cons, not_or] at hA2
    refine ⟨P0, q, b, L2 ++ [A], hP, rfl, hqP, ?_, ?_, ?_, by rw [hP]; simp, rfl⟩
    · simp only [List.mem_append, List.mem_singleton, not_or]
      exact ⟨hn2.1, fun h => hA2.1 h.symm⟩
    · rw [← hP]
      simp only [List.tail_cons]
      exact fun h => hdis h (by simp)
    · rw [show b :: (L2 ++ [A]) = (b :: L2) ++ [A] from rfl, List.dropLast_concat]
      exact hqL2

theorem Linked_unlink {ng : Neigh} {A d : Nat} {L1 L2 : List Nat}
    (hn : (A :: (L1 ++ d :: L2)).Nodup)
    (hl : Linked ng (A :: (L1 ++ d :: L2) ++ [A])) :
    Linked (unlink ng d) (A :: (L1 ++ L2) ++ [A]) := by
  have hn' : (A :: (L1 ++ L2)).Nodup :=
    hn.sublist ((List.Sublist.refl _).cons₂ A |>.trans
      (List.Sublist.cons₂ A ((List.Sublist.refl L1).append (List.sublist_cons_self d L2))))
  obtain ⟨P0, q, p0, Q0, hP, hQ, hqP, hpQ, hpP, hqQ, -, -⟩ := cyc_split hn'
  have e1 : A :: (L1 ++ d :: L2) ++ [A] = P0 ++ q :: d :: p0 :: Q0 := by
    calc A :: (L1 ++ d :: L2) ++ [A] = (A :: L1) ++ d :: (L2 ++ [A]) := by simp
      _ = P0 ++ q :: d :: p0 :: Q0 := by rw [hP, hQ]; simp
  have e2 : A :: (L1 ++ L2) ++ [A] = P0 ++ q :: p0 :: Q0 := by
    calc A :: (L1 ++ L2) ++ [A] = (A :: L1) ++ (L2 ++ [A]) := by simp
      _ = P0 ++ q :: p0 :: Q0 := by rw [hP, hQ]; simp
  rw [e1, Linked_append_cons] at hl
  obtain ⟨hlP, hl2⟩ := hl
  simp only [Linked_cons_cons] at hl2
  obtain ⟨-, hdq, hdp, -, hlQ⟩ := hl2
  rw [e2, unlink_eq, hdq, hdp]
  exact Linked_bypass hlP hlQ (by simp [setNeigh_apply]) (by simp [setNeigh_apply])
    (fun a ha => by simp [setNeigh_apply, ha]) (fun a ha => by simp [setNeigh_apply, ha])
    hqP hpQ hpP hqQ

theorem Linked_relink {ng : Neigh} {A h0 x : Nat} {L1 L2 : List Nat}
    (hn : (A :: (L1 ++ h0 :: L2)).Nodup) (hx : x ∉ A :: (L1 ++ L2))
    (hl : Linked ng (A :: (L1 ++ h0 :: L2) ++ [A])) :
    Linked (relink ng x h0) (A :: (L1 ++ x :: L2) ++ [A]) := by
  have hn' : (A :: (L1 ++ L2)).Nodup :=
    hn.sublist ((List.Sublist.refl _).cons₂ A |>.trans
      (List.Sublist.cons₂ A ((List.Sublist.refl L1).append (List.sublist_cons_self h0 L2))))
  obtain ⟨P0, q, p0, Q0, hP, hQ, hqP, hpQ, hpP, hqQ, -, -⟩ := cyc_split hn'
  have e1 : A :: (L1 ++ h0 :: L2) ++ [A] = P0 ++ q :: h0 :: p0 :: Q0 := by
    calc A :: (L1 ++ h0 :: L2) ++ [A] = (A :: L1) ++ h0 :: (L2 ++ [A]) := by simp
      _ = P0 ++ q :: h0 :: p0 :: Q0 := by rw [hP, hQ]; simp
  have e2 : A :: (L1 ++ x :: L2) ++ [A] = P0 ++ q :: x :: p0 :: Q0 := by
    calc A :: (L1 ++ x :: L2) ++ [A] = (A :: L1) ++ x :: (L2 ++ [A]) := by simp
      _ = P0 ++ q :: x :: p0 :: Q0 := by rw [hP, hQ]; simp
  have hxP : x ∉ P0 ++ [q] := by
    rw [← hP]
    simp only [List.mem_cons, List.mem_append, not_or] at hx ⊢
    exact ⟨hx.1, hx.2.1⟩
  have hxQ : x ∉ p0 :: Q0 := by
    rw [← hQ]
    simp only [List.mem_cons, List.mem_append, not_or, List.mem_singleton, List.not_mem_nil,
      or_false] at hx ⊢
    exact ⟨hx.2.2, hx.1⟩
  have hxq : x ≠ q := fun e => hxP (by simp [e])
  have hxp : x ≠ p0 := fun e => hxQ (by simp [e])
  rw [e1, Linked_append_cons] at hl
  obtain ⟨hlP, hl2⟩ := hl
  simp only [Linked_cons_cons] at hl2
  obtain ⟨-, hdq, hdp, -, hlQ⟩ := hl2
  rw [e2, relink_eq _ _ _ (by rw [hdq]; exact hxq), hdq, hdp]
  exact Linked_between hlP hlQ (by simp [setNeigh_apply, hxp]) (by simp [setNeigh_apply, hxq])
    (by simp [setNeigh_apply]) (by simp [setNeigh_apply])
    (fun a ha1 ha2 => by simp [setNeigh_apply, ha1, ha2])
    (fun a ha1 ha2 => by simp [setNeigh_apply, ha1, ha2])
    hxP hxQ hqP hpQ hpP hqQ

theorem Linked_linkLeaf {ng : Neigh} {A x p : Nat} {side : Side} {L1 L2 : List Nat}
    (hn : (A :: (L1 ++ L2)).Nodup) (hx : x ∉ A :: (L1 ++ L2))
    (hl : Linked ng (A :: (L1 ++ L2) ++ [A])) (hs : SlotOK p side (A :: L1) (L2 ++ [A])) :
    Linked (linkLeaf ng x p side) (A :: (L1 ++ x :: L2) ++ [A]) := by
  obtain ⟨P0, q, p0, Q0, hP, hQ, hqP, hpQ, hpP, hqQ, hq, hp⟩ := cyc_split hn
  have e1 : A :: (L1 ++ L2) ++ [A] = P0 ++ q :: p0 :: Q0 := by
    calc A :: (L1 ++ L2) ++ [A] = (A :: L1) ++ (L2 ++ [A]) := by simp
      _ = P0 ++ q :: p0 :: Q0 := by rw [hP, hQ]; simp
  have e2 : A :: (L1 ++ x :: L2) ++ [A] = P0 ++ q :: x :: p0 :: Q0 := by
    calc A :: (L1 ++ x :: L2) ++ [A] = (A :: L1) ++ x :: (L2 ++ [A]) := by simp
      _ = P0 ++ q :: x :: p0 :: Q0 := by rw [hP, hQ]; simp
  have hxP : x ∉ P0 ++ [q] := by
    rw [← hP]
    simp only [List.mem_cons, List.mem_append, not_or] at hx ⊢
    exact ⟨hx.1, hx.2.1⟩
  have hxQ : x ∉ p0 :: Q0 := by
    rw [← hQ]
    simp only [List.mem_cons, List.mem_append, not_or, List.mem_singleton, List.not_mem_nil,
      or_false] at hx ⊢
    exact ⟨hx.2.2, hx.1⟩
  have hxq : x ≠ q := fun e => hxP (by simp [e])
  have hxp : x ≠ p0 := fun e => hxQ (by simp [e])
  rw [e1, Linked_append_cons] at hl
  obtain ⟨hlP, hl2⟩ := hl
  simp only [Linked_cons_cons] at hl2
  obtain ⟨hqp, hpq, hlQ⟩ := hl2
  rw [e2]
  rcases hs with ⟨rfl, hs⟩ | ⟨rfl, hs⟩
  · have hpp : p = p0 := by
      rw [hp] at hs
      exact (Option.some.inj hs).symm
    subst hpp
    exact Linked_between hlP hlQ
      (by simp [linkLeaf, Side.other, setNeigh_apply, hxp, hpq])
      (by simp [linkLeaf, Side.other, setNeigh_apply, hxp, hxq, hpq])
      (by simp [linkLeaf, Side.other, setNeigh_apply, hxp, hxq, hpq])
      (by simp [linkLeaf, Side.other, setNeigh_apply, hxp, hxq, hpq])
      (fun a ha1 ha2 => by simp [linkLeaf, Side.other, setNeigh_apply, hxp, hxq, hpq, ha1, ha2])
      (fun a ha1 ha2 => by simp [linkLeaf, Side.other, setNeigh_apply, hxp, hxq, hpq, ha1, ha2])
      hxP hxQ hqP hpQ hpP hqQ
  · have hpp : p = q := by
      rw [hq] at hs
      exact (Option.some.inj hs).symm
    subst hpp
    exact Linked_between hlP hlQ
      (by simp [linkLeaf, Side.other, setNeigh_apply, hxp, hxq, hqp])
      (by simp [linkLeaf, Side.other, setNeigh_apply, hxp, hxq, hqp])
      (by simp [linkLeaf, Side.other, setNeigh_apply, hxp, hxq, hqp])
      (by simp [linkLeaf, Side.other, setNeigh_apply, hxp, hxq, hqp])
      (fun a ha1 ha2 => by simp [linkLeaf, Side.other, setNeigh_apply, hxp, hxq, hqp, ha1, ha2])
      (fun a ha1 ha2 => by simp [linkLeaf, Side.other, setNeigh_apply, hxp, hxq, hqp, ha1, ha2])
      hxP hxQ hqP hpQ hpP hqQ

@[simp] theorem inorder_blacken (h : LLRBNode) : inorder (blacken h) = inorder h := by
  cases h <;> rfl

theorem RootInv_blacken {h : LLRBNode} (hr : RootInv h) : RootInv (blacken h) := by
  cases h
  · trivial
  · exact hr

theorem Increasing_nodup {cmp : Comparator} (hc : TotalOrder cmp) {l : List Nat}
    (h : Increasing cmp l) : l.Nodup := by
  refine List.Pairwise.imp ?_ h
  intro a b hab e
  subst e
  have := hc.refl a
  omega

theorem Increasing_sublist {cmp : Comparator} {l l' : List Nat} (h : Increasing cmp l)
    (hs : List.Sublist l' l) : Increasing cmp l' :=
  List.Pairwise.sublist hs h

/-- in a strictly increasing list at most one element compares equal to a key -/
theorem Increasing_unique {cmp : Comparator} (hc : TotalOrder cmp) {key : Nat} :
    ∀ {l : List Nat}, Increasing cmp l → ∀ {d d' : Nat}, d ∈ l → d' ∈ l → cmp key d = 0 →
      cmp key d' = 0 → d = d' := by
  have hlt : ∀ a b, cmp key a = 0 → cmp key b = 0 → ¬ cmp a b < 0 := by
    intro a b hka hkb hab
    have h1 : cmp key b < 0 := hc.lt_of_le_of_lt (by omega) hab
    omega
  intro l
  induction l with
  | nil => intro _ d d' hd; simp at hd
  | cons a l ih =>
    intro h d d' hd hd' hk hk'
    simp only [Increasing, List.pairwise_cons] at h
    simp only [List.mem_cons] at hd hd'
    rcases hd with rfl | hd <;> rcases hd' with rfl | hd'
    · rfl
    · exact absurd (h.1 d' hd') (hlt _ _ hk hk')
    · exact absurd (h.1 d hd) (hlt _ _ hk' hk)
    · exact ih h.2 hd hd' hk hk'

theorem ListInv_nodup {cmp : Comparator} (hc : TotalOrder cmp) {t : LLRBTree}
    (hi : TreeInv cmp t) (hl : ListInv t) : (t.anchor :: inorder t.root).Nodup :=
  List.nodup_cons.mpr ⟨hl.anchor_not_mem, Increasing_nodup hc hi.sorted⟩

theorem llrb_init_treeInv (t0 : LLRBTree) (cmp : Comparator) : TreeInv cmp (llrb_init t0 cmp) where
  compare_eq := rfl
  shape := trivial
  sorted := List.Pairwise.nil

theorem llrb_init_listInv (t0 : LLRBTree) (cmp : Comparator) : ListInv (llrb_init t0 cmp) where
  anchor_not_mem := by simp [llrb_init]
  linked := by simp [llrb_init, setNeigh_apply]

theorem llrb_insert_or_replace_spec {cmp : Comparator} (hc : TotalOrder cmp) {t : LLRBTree}
    (hi : TreeInv cmp t) (x : Nat) :
    ∃ t' o, llrb_insert_or_replace t x = .ok (t', o) ∧ TreeInv cmp t' ∧ t'.anchor = t.anchor ∧
      (x ≠ t.anchor → ListInv t → ListInv t') ∧
      ∃ l1 l2, inorder t'.root = l1 ++ x :: l2 ∧ (∀ y ∈ l1, cmp y x < 0) ∧
        (∀ y ∈ l2, cmp x y < 0) ∧
        ((o = none ∧ inorder t.root = l1 ++ l2) ∨
          (∃ d, o = some d ∧ cmp d x = 0 ∧ inorder t.root = l1 ++ d :: l2 ∧
            t'.neigh = relink t.neigh x d)) := by
  obtain ⟨hcmp, hshape, hsorted⟩ := hi
  subst hcmp
  obtain ⟨h', ng', old', e, hr'⟩ :=
    insert_root t.compare x t.root t.neigh none t.anchor .LEFT hshape
  obtain ⟨l1, l2, hi', hb1, hb2, hor⟩ :=
    insert_spec hc x t.root t.neigh none t.anchor .LEFT h' ng' old' hsorted e
  have hx1 : x ∉ l1 := fun h => by
    have h1 := hb1 x h
    have h2 := hc.refl x
    omega
  have hx2 : x ∉ l2 := fun h => by
    have h1 := hb2 x h
    have h2 := hc.refl x
    omega
  refine ⟨{ t with root := h', neigh := ng' }, old', by simp [llrb_insert_or_replace, e], ?_, rfl,
    ?_, l1, l2, hi', hb1, hb2, ?_⟩
  · refine ⟨rfl, hr', ?_⟩
    show Increasing t.compare (inorder h')
    rw [hi']
    rcases hor with ⟨-, hio, -⟩ | ⟨d, -, hd, hio, -⟩
    · rw [hio] at hsorted
      obtain ⟨h1, h2⟩ := List.pairwise_append.mp hsorted
      exact Increasing_append_cons.mpr ⟨h1, h2.1, hb1, hb2, h2.2⟩
    · rw [hio] at hsorted
      obtain ⟨h1, h2, h3, h4, h5⟩ := Increasing_append_cons.mp hsorted
      exact Increasing_append_cons.mpr ⟨h1, h2, hb1, hb2, h5⟩
  · intro hx hl
    have hnd := ListInv_nodup hc ⟨rfl, hshape, hsorted⟩ hl
    obtain ⟨hanchor, hlinked⟩ := hl
    rcases hor with ⟨-, hio, hslot⟩ | ⟨d, -, hd, hio, hng⟩
    · rw [hio] at hanchor hnd hlinked
      have hxm : x ∉ t.anchor :: (l1 ++ l2) := by
        simp only [List.mem_cons, List.mem_append, not_or]
        exact ⟨hx, hx1, hx2⟩
      constructor
      · show t.anchor ∉ inorder h'
        rw [hi']
        simp only [List.mem_append, List.mem_cons, not_or] at hanchor ⊢
        exact ⟨hanchor.1, fun e => hx e.symm, hanchor.2⟩
      · show Linked ng' (t.anchor :: (inorder h' ++ [t.anchor]))
        obtain ⟨p', s', e', hs'⟩ := hslot [t.anchor] [t.anchor] (Or.inl ⟨rfl, rfl⟩)
        rw [hi', e']
        exact Linked_linkLeaf hnd hxm hlinked hs'
    · rw [hio] at hanchor hnd hlinked
      have hxm : x ∉ t.anchor :: (l1 ++ l2) := by
        simp only [List.mem_cons, List.mem_append, not_or]
        exact ⟨hx, hx1, hx2⟩
      constructor
      · show t.anchor ∉ inorder h'
        rw [hi']
        simp only [List.mem_append, List.mem_cons, not_or] at hanchor ⊢
        exact ⟨hanchor.1, fun e => hx e.symm, hanchor.2.2⟩
      · show Linked ng' (t.anchor :: (inorder h' ++ [t.anchor]))
        rw [hi', hng]
        exact Linked_relink hnd hxm hlinked
  · rcases hor with ⟨ho, hio, -⟩ | ⟨d, ho, hd, hio, hng⟩
    · exact Or.inl ⟨ho, hio⟩
    · exact Or.inr ⟨d, ho, hd, hio, hng⟩

theorem llrb_pop_min_spec {cmp : Comparator} (hc : TotalOrder cmp) {t : LLRBTree}
    (hi : TreeInv cmp t) (hne : t.root ≠ nil) :
    ∃ t' d, llrb_pop_min t = .ok (t', some d) ∧ TreeInv cmp t' ∧ t'.anchor = t.anchor ∧
      (ListInv t → ListInv t') ∧
      inorder t.root = d :: inorder t'.root ∧ t'.neigh = unlink t.neigh d := by
  obtain ⟨hcmp, hshape, hsorted⟩ := hi
  obtain ⟨h', d, e, hr', hio⟩ :=
    deleteMin_root (n := size t.root + 1) t.neigh hshape hne (by omega)
  refine ⟨{ t with root := blacken h', neigh := unlink t.neigh d }, d, ?_, ?_, rfl, ?_,
    by simpa using hio, rfl⟩
  · rcases hroot : t.root with _ | ⟨a, c, l, r⟩
    · exact absurd hroot hne
    · rw [hroot] at e
      simp only [llrb_pop_min, hroot, e, Res.bind_ok]
  · refine ⟨hcmp, RootInv_blacken hr', ?_⟩
    show Increasing cmp (inorder (blacken h'))
    rw [inorder_blacken]
    rw [hio] at hsorted
    exact (List.pairwise_cons.mp hsorted).2
  · intro hl
    have hnd := ListInv_nodup hc ⟨hcmp, hshape, hsorted⟩ hl
    obtain ⟨hanchor, hlinked⟩ := hl
    rw [hio] at hanchor hnd hlinked
    constructor
    · show t.anchor ∉ inorder (blacken h')
      rw [inorder_blacken]
      exact fun h => hanchor (List.mem_cons_of_mem _ h)
    · show Linked (unlink t.neigh d) (t.anchor :: (inorder (blacken h') ++ [t.anchor]))
      rw [inorder_blacken]
      exact @Linked_unlink _ _ _ [] _ hnd hlinked

theorem llrb_delete_spec {cmp : Comparator} (hc : TotalOrder cmp) {t : LLRBTree}
    (hi : TreeInv cmp t) {key d : Nat} (hd : d ∈ inorder t.root) (hk : cmp key d = 0) :
    ∃ t', llrb_delete t key = .ok (t', some d) ∧ TreeInv cmp t' ∧ t'.anchor = t.anchor ∧
      (ListInv t → ListInv t') ∧
      ∃ l1 l2, inorder t.root = l1 ++ d :: l2 ∧ inorder t'.root = l1 ++ l2 ∧
        (t'.neigh = unlink t.neigh d ∨
          ∃ m l2', l2 = m :: l2' ∧ t'.neigh = relink (unlink t.neigh m) m d) := by
  obtain ⟨hcmp, hshape, hsorted⟩ := hi
  subst hcmp
  obtain ⟨h', d', ng', e, hr', hk', l1, l2, hio, hio', hng⟩ :=
    @deleteKey_root _ hc key (size t.root + 1) _ t.neigh hshape hsorted ⟨d, hd, hk⟩
      (by omega)
  have hdd : d' = d :=
    Increasing_unique hc hsorted (by rw [hio]; simp) hd hk' hk
  subst hdd
  refine ⟨{ t with root := blacken h', neigh := ng' }, by simp [llrb_delete, e], ?_, rfl, ?_,
    l1, l2, hio, by simpa using hio', hng⟩
  · refine ⟨rfl, RootInv_blacken hr', ?_⟩
    show Increasing t.compare (inorder (blacken h'))
    rw [inorder_blacken, hio']
    rw [hio] at hsorted
    exact Increasing_sublist hsorted ((List.Sublist.refl l1).append (List.sublist_cons_self d' l2))
  · intro hl
    have hnd := ListInv_nodup hc ⟨rfl, hshape, hsorted⟩ hl
    obtain ⟨hanchor, hlinked⟩ := hl
    rw [hio] at hanchor hnd hlinked
    constructor
    · show t.anchor ∉ inorder (blacken h')
      rw [inorder_blacken, hio']
      simp only [List.mem_append, List.mem_cons, not_or] at hanchor ⊢
      exact ⟨hanchor.1, hanchor.2.2⟩
    · show Linked ng' (t.anchor :: (inorder (blacken h') ++ [t.anchor]))
      rw [inorder_blacken, hio']
      rcases hng with rfl | ⟨m, l2', rfl, rfl⟩
      · exact Linked_unlink hnd hlinked
      · have hnd1 : (t.anchor :: ((l1 ++ [d']) ++ m :: l2')).Nodup := by
          simpa using hnd
        have hl1 : Linked t.neigh (t.anchor :: ((l1 ++ [d']) ++ m :: l2') ++ [t.anchor]) := by
          simpa using hlinked
        have h1 := Linked_unlink hnd1 hl1
        have hnd2 : (t.anchor :: (l1 ++ d' :: l2')).Nodup :=
          hnd.sublist (List.Sublist.cons₂ _ ((List.Sublist.refl l1).append
            (List.Sublist.cons₂ d' (List.sublist_cons_self m l2'))))
        have hm : m ∉ t.anchor :: (l1 ++ l2') := by
          simp only [List.nodup_cons, List.mem_append, List.mem_cons, not_or,
            List.nodup_append, List.disjoint_cons_right] at hnd
          simp only [List.mem_cons, List.mem_append, not_or]
          refine ⟨fun e => hnd.1.2.2.1 e.symm, fun h => ?_, hnd.2.2.1.2.1⟩
          exact hnd.2.2.2.2.1 h
        have h2 : Linked (unlink t.neigh m) (t.anchor :: (l1 ++ d' :: l2') ++ [t.anchor]) := by
          simpa using h1
        exact Linked_relink hnd2 hm h2

theorem llrb_delete_absent (t : LLRBTree) (key : Nat)
    (habs : ∀ d ∈ inorder t.root, t.compare key d ≠ 0) (res : LLRBTree × Option Nat) :
    llrb_delete t key ≠ .ok res := by
  unfold llrb_delete
  apply Res.bind_ne_ok
  intro r e
  exact absurd e (deleteKey_absent t.compare key _ t.root t.neigh habs r)

/-- every tree built from `llrb_init` satisfies the tree invariant, and the list invariant when
the anchor was never handed to `llrb_insert_or_replace` -/
theorem Reachable_inv {cmp : Comparator} (hc : TotalOrder cmp) {xs : List Nat} {t : LLRBTree}
    (hr : Reachable cmp xs t) : TreeInv cmp t ∧ (t.anchor ∉ xs → ListInv t) := by
  induction hr with
  | init t0 => exact ⟨llrb_init_treeInv t0 cmp, fun _ => llrb_init_listInv t0 cmp⟩
  | insert xs t t' x o _ e ih =>
    obtain ⟨t'', o', e', hi', ha, hl, -⟩ := llrb_insert_or_replace_spec hc ih.1 x
    rw [e] at e'
    simp only [Res.ok.injEq, Prod.mk.injEq] at e'
    rw [e'.1]
    refine ⟨hi', fun hm => ?_⟩
    rw [ha] at hm
    simp only [List.mem_cons, not_or] at hm
    exact hl (fun e => hm.1 e.symm) (ih.2 hm.2)
  | delete xs t t' key o _ e ih =>
    by_cases hp : ∃ d ∈ inorder t.root, cmp key d = 0
    · obtain ⟨d, hd, hk⟩ := hp
      obtain ⟨t'', e', hi', ha, hl, -⟩ := llrb_delete_spec hc ih.1 hd hk
      rw [e] at e'
      simp only [Res.ok.injEq, Prod.mk.injEq] at e'
      rw [e'.1]
      refine ⟨hi', fun hm => ?_⟩
      rw [ha] at hm
      exact hl (ih.2 hm)
    · exfalso
      refine llrb_delete_absent t key ?_ _ e
      intro d hd hk
      rw [ih.1.compare_eq] at hk
      exact hp ⟨d, hd, hk⟩
  | pop_min xs t t' o _ e ih =>
    by_cases hne : t.root = nil
    · simp only [llrb_pop_min, hne, Res.ok.injEq, Prod.mk.injEq] at e
      rw [← e.1]
      exact ih
    · obtain ⟨t'', d, e', hi', ha, hl, -⟩ := llrb_pop_min_spec hc ih.1 hne
      rw [e] at e'
      simp only [Res.ok.injEq, Prod.mk.injEq] at e'
      rw [e'.1]
      refine ⟨hi', fun hm => ?_⟩
      rw [ha] at hm
      exact hl (ih.2 hm)

theorem blackCounts_of_LLInv : ∀ {h : LLRBNode}, LLInv h → ∀ p ∈ blackCounts h, p = bh h
  | nil, _, p, hp => by simpa [blackCounts] using hp
  | node a c l r, hi, p, hp => by
    simp only [LLInv_node] at hi
    obtain ⟨hl, hr, hb, -, -⟩ := hi
    simp only [blackCounts, List.mem_map, List.mem_append] at hp
    obtain ⟨k, hk, rfl⟩ := hp
    have hk' : k = bh l := by
      rcases hk with hk | hk
      · exact blackCounts_of_LLInv hl k hk
      · rw [hb]; exact blackCounts_of_LLInv hr k hk
    cases c <;> simp [hk']

theorem LeftLeaning_of_LLInv : ∀ {h : LLRBNode}, LLInv h → LeftLeaning h
  | nil, _ => trivial
  | node a c l r, hi => by
    simp only [LLInv_node] at hi
    exact ⟨hi.2.2.2.1, LeftLeaning_of_LLInv hi.1, LeftLeaning_of_LLInv hi.2.1⟩

theorem BlackBalanced_of_RootInv {h : LLRBNode} (hr : RootInv h) : BlackBalanced h := by
  rcases h with _ | ⟨a, c, l, r⟩
  · intro p hp q hq
    simp only [blackCounts, List.mem_singleton] at hp hq
    rw [hp, hq]
  · simp only [RootInv_node] at hr
    obtain ⟨hl, hr, hb, -⟩ := hr
    have key : ∀ p ∈ blackCounts (node a c l r), p = if c = .BLACK then bh l + 1 else bh l := by
      intro p hp
      simp only [blackCounts, List.mem_map, List.mem_append] at hp
      obtain ⟨k, hk, rfl⟩ := hp
      have hk' : k = bh l := by
        rcases hk with hk | hk
        · exact blackCounts_of_LLInv hl k hk
        · rw [hb]; exact blackCounts_of_LLInv hr k hk
      rw [hk']
    intro p hp q hq
    rw [key p hp, key q hq]

theorem LeftLeaning_of_RootInv {h : LLRBNode} (hr : RootInv h) : LeftLeaning h := by
  rcases h with _ | ⟨a, c, l, r⟩
  · trivial
  · simp only [RootInv_node] at hr
    exact ⟨hr.2.2.2, LeftLeaning_of_LLInv hr.1, LeftLeaning_of_LLInv hr.2.1⟩

theorem findLoop_present {cmp : Comparator} (hc : TotalOrder cmp) {key d : Nat} :
    ∀ {h : LLRBNode}, Increasing cmp (inorder h) → d ∈ inorder h → cmp key d = 0 →
      findLoop cmp key h = some d
  | nil, _, hd, _ => by simp at hd
  | node a c l r, hs, hd, hk => by
    simp only [inorder_node] at hs hd
    obtain ⟨hsl, hsr, -, -, -⟩ := Increasing_append_cons.mp hs
    by_cases h0 : cmp key a = 0
    · have : a = d := Increasing_unique hc hs (by simp) hd h0 hk
      subst this
      simp only [findLoop, if_pos h0]
    · by_cases hlt : cmp key a < 0
      · simp only [findLoop, if_neg h0, if_pos hlt]
        exact findLoop_present hc hsl (present_left hc hs hd hk hlt) hk
      · simp only [findLoop, if_neg h0, if_neg hlt]
        exact findLoop_present hc hsr (present_right hc hs hd hk (by omega)) hk

theorem findLoop_absent {cmp : Comparator} {key : Nat} :
    ∀ {h : LLRBNode}, (∀ d ∈ inorder h, cmp key d ≠ 0) → findLoop cmp key h = none
  | nil, _ => rfl
  | node a c l r, habs => by
    simp only [inorder_node, List.mem_append, List.mem_cons] at habs
    have h0 : cmp key a ≠ 0 := habs a (Or.inr (Or.inl rfl))
    by_cases hlt : cmp key a < 0
    · simp only [findLoop, if_neg h0, if_pos hlt]
      exact findLoop_absent fun d hd => habs d (Or.inl hd)
    · simp only [findLoop, if_neg h0, if_neg hlt]
      exact findLoop_absent fun d hd => habs d (Or.inr (Or.inr hd))

theorem llrb_min_nolist_eq : ∀ (h : LLRBNode), llrb_min_nolist h = (inorder h).head?
  | nil => rfl
  | node a c nil r => rfl
  | node a c (node la lc ll lr) r => by
    have ih := llrb_min_nolist_eq (node la lc ll lr)
    simp only [inorder_node] at ih
    simp [llrb_min_nolist, ih]

theorem llrb_max_nolist_eq : ∀ (h : LLRBNode), llrb_max_nolist h = (inorder h).getLast?
  | nil => rfl
  | node a c l nil => by simp [llrb_max_nolist]
  | node a c l (node ra rc rl rr) => by
    have ih := llrb_max_nolist_eq (node ra rc rl rr)
    simp only [inorder_node] at ih
    simp only [llrb_max_nolist, ih, inorder_node]
    have e : inorder l ++ a :: (inorder rl ++ ra :: inorder rr) =
        (inorder l ++ a :: inorder rl) ++ (ra :: inorder rr) := by simp
    rw [e, List.getLast?_append_of_ne_nil _ (by simp),
      List.getLast?_append_of_ne_nil _ (by simp)]

theorem walk_none (t : LLRBTree) (side : Side) (n : Nat) : walk t side n none = [] := by
  cases n <;> rfl

theorem walk_right (t : LLRBTree) : ∀ (l2 pre : List Nat) (a : Nat),
    Linked t.neigh (pre ++ a :: (l2 ++ [t.anchor])) → t.anchor ∉ l2 → ∀ n, l2.length < n →
    walk t .RIGHT n (some a) = a :: l2
  | [], pre, a, hl, _, n, hn => by
    obtain ⟨m, rfl⟩ : ∃ m, n = m + 1 := ⟨n - 1, by omega⟩
    rw [Linked_append_cons] at hl
    have h1 : t.neigh a .RIGHT = t.anchor := by simpa using hl.2.1
    simp [walk, llrb_neighbour, h1, walk_none]
  | b :: l2, pre, a, hl, hA, n, hn => by
    obtain ⟨m, rfl⟩ : ∃ m, n = m + 1 := ⟨n - 1, by omega⟩
    simp only [List.mem_cons, not_or] at hA
    have hl' := hl
    rw [Linked_append_cons] at hl'
    have h1 : t.neigh a .RIGHT = b := by simpa using hl'.2.1
    have ih := walk_right t l2 (pre ++ [a]) b (by simpa using hl) hA.2 m
      (by simp only [List.length_cons] at hn; omega)
    have hne : b ≠ t.anchor := fun e => hA.1 e.symm
    simp [walk, llrb_neighbour, h1, hne, ih]

theorem walk_left (t : LLRBTree) : ∀ (l1 post : List Nat) (a : Nat),
    Linked t.neigh (t.anchor :: (l1 ++ a :: post)) → t.anchor ∉ l1 → ∀ n, l1.length < n →
    walk t .LEFT n (some a) = a :: l1.reverse := by
  intro l1
  induction l1 using List.reverseRecOn with
  | nil =>
    intro post a hl _ n hn
    obtain ⟨m, rfl⟩ : ∃ m, n = m + 1 := ⟨n - 1, by omega⟩
    have h1 : t.neigh a .LEFT = t.anchor := by
      simp only [List.nil_append, Linked_cons_cons] at hl
      exact hl.2.1
    simp [walk, llrb_neighbour, h1, walk_none]
  | append_singleton l1 b ih =>
    intro post a hl hA n hn
    obtain ⟨m, rfl⟩ : ∃ m, n = m + 1 := ⟨n - 1, by omega⟩
    simp only [List.mem_append, List.mem_singleton, not_or] at hA
    have hl2 : Linked t.neigh ((t.anchor :: l1) ++ b :: a :: post) := by
      simpa using hl
    have hl' := hl2
    rw [Linked_append_cons] at hl'
    have h1 : t.neigh a .LEFT = b := by
      have := hl'.2
      simp only [Linked_cons_cons] at this
      exact this.2.1
    have ih' := ih (a :: post) b (by simpa using hl2) hA.1 m
      (by simp only [List.length_append, List.length_singleton] at hn; omega)
    have hne : b ≠ t.anchor := fun e => hA.2 e.symm
    simp [walk, llrb_neighbour, h1, hne, ih']

theorem llrb_min_eq {t : LLRBTree} (hl : ListInv t) : llrb_min t = (inorder t.root).head? := by
  obtain ⟨hA, hl⟩ := hl
  rcases h : inorder t.root with _ | ⟨a, l⟩
  · rw [h] at hl
    simp only [List.nil_append, Linked_cons_cons] at hl
    simp [llrb_min, hl.1]
  · rw [h] at hl hA
    simp only [List.cons_append, Linked_cons_cons] at hl
    simp only [List.mem_cons, not_or] at hA
    have hne : a ≠ t.anchor := fun e => hA.1 e.symm
    simp [llrb_min, hl.1, hne]

theorem llrb_max_eq {t : LLRBTree} (hl : ListInv t) :
    llrb_max t = (inorder t.root).getLast? := by
  obtain ⟨hA, hl⟩ := hl
  rcases List.eq_nil_or_concat (inorder t.root) with h | ⟨l, a, h⟩
  · rw [h] at hl
    simp only [List.nil_append, Linked_cons_cons] at hl
    simp [llrb_max, hl.2.1, h]
  · rw [List.concat_eq_append] at h
    rw [h] at hl hA
    have hl2 : Linked t.neigh ((t.anchor :: l) ++ a :: [t.anchor]) := by
      simpa using hl
    rw [Linked_append_cons] at hl2
    have h1 : t.neigh t.anchor .LEFT = a := by
      have := hl2.2
      simp only [Linked_cons_cons] at this
      exact this.2.1
    simp only [List.mem_append, List.mem_singleton, not_or] at hA
    have hne : a ≠ t.anchor := fun e => hA.2 e.symm
    simp [llrb_max, h1, h, hne]

theorem Res.bind_eq_nullDeref {α β : Type} {x : Res α} {f : α → Res β} (hx : x ≠ .noFuel)
    (hf : ∀ a, x = .ok a → f a = .nullDeref) : x.bind f = .nullDeref := by
  cases x with
  | ok a => exact hf a rfl
  | nullDeref => rfl
  | noFuel => exact absurd rfl hx

theorem Res.bind_ne_noFuel {α β : Type} {x : Res α} {f : α → Res β} (hx : x ≠ .noFuel)
    (hf : ∀ a, f a ≠ .noFuel) : x.bind f ≠ .noFuel := by
  cases x with
  | ok a => exact hf a
  | nullDeref => simp
  | noFuel => exact absurd rfl hx

theorem rotate_ne_noFuel (h : LLRBNode) (s : Side) : rotate h s ≠ .noFuel := by
  unfold rotate
  split <;> simp

theorem colorFlip_ne_noFuel (h : LLRBNode) : colorFlip h ≠ .noFuel := by
  unfold colorFlip
  split <;> simp

theorem moveRedLeft_ne_noFuel (h : LLRBNode) : moveRedLeft h ≠ .noFuel := by
  unfold moveRedLeft
  refine Res.bind_ne_noFuel (colorFlip_ne_noFuel h) fun h1 => ?_
  split
  · simp
  · split
    · exact Res.bind_ne_noFuel (rotate_ne_noFuel _ _) fun r1 =>
        Res.bind_ne_noFuel (rotate_ne_noFuel _ _) fun h2 => colorFlip_ne_noFuel h2
    · simp

theorem moveRedRight_ne_noFuel (h : LLRBNode) : moveRedRight h ≠ .noFuel := by
  unfold moveRedRight
  refine Res.bind_ne_noFuel (colorFlip_ne_noFuel h) fun h1 => ?_
  split
  · exact Res.bind_ne_noFuel (rotate_ne_noFuel _ _) fun h2 => colorFlip_ne_noFuel h2
  · simp

theorem ite_ne_noFuel {p : Prop} [Decidable p] {f : Res LLRBNode} {h : LLRBNode}
    (hf : f ≠ .noFuel) : (if p then f else .ok h) ≠ .noFuel := by
  split
  · exact hf
  · simp

theorem size_eq_of_inorder_eq {h h' : LLRBNode} (e : inorder h' = inorder h) :
    size h' = size h := by
  rw [size_eq_length, size_eq_length, e]

/-- The function `deleteKey` with a key that no node of the subtree compares equal to ends in a
dereference of `NULL`, whatever the shape of the subtree -/
theorem deleteKey_absent_nullDeref (cmp : Comparator) (key : Nat) :
    ∀ (n : Nat) (h : LLRBNode) (ng : Neigh), (∀ d ∈ inorder h, cmp key d ≠ 0) → size h < n →
    deleteKey cmp n h key ng = .nullDeref := by
  intro n
  induction n with
  | zero =>
    intro h ng _ hs
    simp at hs
  | succ n ih =>
    intro h ng habs hs
    rcases h with _ | ⟨a, c, l, r⟩
    · simp [deleteKey]
    by_cases hlt : cmp key a < 0
    · rcases l with _ | ⟨la, lc, ll, lr⟩
      · simp [deleteKey, hlt]
      · simp only [deleteKey, if_pos hlt]
        refine Res.bind_eq_nullDeref (ite_ne_noFuel (moveRedLeft_ne_noFuel _)) fun h1 e1 => ?_
        have hi1 := ite_ok_inorder (fun e => moveRedLeft_inorder e) e1
        have hs1 := size_eq_of_inorder_eq hi1
        rcases h1 with _ | ⟨a1, c1, l1, r1⟩
        · rfl
        · have := ih l1 ng (fun d hd => habs d (by rw [← hi1]; simp [hd]))
            (by simp only [size_node] at hs1 hs ⊢; omega)
          simp only [this, Res.bind_nullDeref]
    · simp only [deleteKey, if_neg hlt]
      refine Res.bind_eq_nullDeref (ite_ne_noFuel (rotate_ne_noFuel _ _)) fun h1 e1 => ?_
      have hi1 := ite_ok_inorder (fun e => rotate_inorder e) e1
      have hs1 := size_eq_of_inorder_eq hi1
      rcases h1 with _ | ⟨a1, c1, l1, r1⟩
      · rfl
      have ha1 : cmp key a1 ≠ 0 := habs a1 (by rw [← hi1]; simp)
      have hleaf : ¬ (cmp key a1 = 0 ∧ r1 = nil) := fun h => ha1 h.1
      simp only [if_neg hleaf]
      rcases r1 with _ | ⟨ra, rc, rl, rr⟩
      · rfl
      · refine Res.bind_eq_nullDeref (ite_ne_noFuel (moveRedRight_ne_noFuel _)) fun h2 e2 => ?_
        have hi2 := (ite_ok_inorder (fun e => moveRedRight_inorder e) e2).trans hi1
        have hs2 := size_eq_of_inorder_eq hi2
        rcases h2 with _ | ⟨a2, c2, l2, r2⟩
        · rfl
        have ha2 : cmp key a2 ≠ 0 := habs a2 (by rw [← hi2]; simp)
        simp only [if_neg ha2]
        have := ih r2 ng (fun d hd => habs d (by rw [← hi2]; simp [hd]))
          (by simp only [size_node] at hs2 hs ⊢; omega)
        simp only [this, Res.bind_nullDeref]

/-- The function `llrb_delete` with a key that no resident node compares equal to ends in a
dereference of `NULL`, on every tree -/
theorem llrb_delete_absent_nullDeref (t : LLRBTree) (key : Nat)
    (habs : ∀ d ∈ inorder t.root, t.compare key d ≠ 0) : llrb_delete t key = .nullDeref := by
  unfold llrb_delete
  rw [deleteKey_absent_nullDeref t.compare key _ t.root t.neigh habs (by omega)]
  rfl

theorem keyCmp_total : TotalOrder keyCmp where
  swap := by
    intro a b
    unfold keyCmp
    omega
  le_trans := by
    intro a b c
    unfold keyCmp
    omega

theorem Res.getD_ok {α : Type} {r : Res α} {a d : α} (h : r = .ok a) : r.getD d = a := by
  rw [h]; rfl

theorem reachable_insertAll {cmp : Comparator} (hc : TotalOrder cmp) :
    ∀ (xs ys : List Nat) (t : LLRBTree), Reachable cmp ys t →
      Reachable cmp (xs.reverse ++ ys) (insertAll t xs)
  | [], ys, t, hr => by simpa [insertAll] using hr
  | x :: xs, ys, t, hr => by
    obtain ⟨t', o, e, -⟩ := llrb_insert_or_replace_spec hc (Reachable_inv hc hr).1 x
    have h1 : Reachable cmp (x :: ys) t' := Reachable.insert ys t t' x o hr e
    have h2 := reachable_insertAll hc xs (x :: ys) t' h1
    simp only [insertAll, Res.getD_ok e, List.reverse_cons, List.append_assoc,
      List.singleton_append]
    exact h2

theorem sampleTree_reachable : Reachable keyCmp [4, 1, 8, 3, 5] sampleTree :=
  reachable_insertAll keyCmp_total [5, 3, 8, 1, 4] [] emptyTree (Reachable.init _)

theorem sampleTree_inorder : inorder sampleTree.root = [1, 3, 4, 5, 8] := by decide

theorem sampleDeleted_reachable : Reachable keyCmp [4, 1, 8, 3, 5] sampleDeleted := by
  obtain ⟨t', e, -⟩ := @llrb_delete_spec _ keyCmp_total _
    (Reachable_inv keyCmp_total sampleTree_reachable).1 3 3 (by decide) (by decide)
  have h := Reachable.delete _ sampleTree t' 3 (some 3) sampleTree_reachable e
  simpa only [sampleDeleted, Res.getD_ok e] using h

/-! ## The claims -/

/-- C1: for every comparator that is a total order and every tree built from `llrb_init` by
calls of `llrb_insert_or_replace`, `llrb_delete` and `llrb_pop_min` that return, the in-order
traversal is strictly increasing under the comparator, so no two resident nodes compare equal
(and no node is resident twice). -/
theorem C1_bst_order_preserved (cmp : Comparator) (hc : TotalOrder cmp) (xs : List Nat)
    (t : LLRBTree) (hr : Reachable cmp xs t) :
    Increasing cmp (inorder t.root) ∧
      (inorder t.root).Pairwise (fun a b => cmp a b ≠ 0 ∧ a ≠ b) := by
  have hs := (Reachable_inv hc hr).1.sorted
  refine ⟨hs, List.Pairwise.imp ?_ hs⟩
  intro a b hab
  refine ⟨by omega, ?_⟩
  rintro rfl
  have := hc.refl a
  omega

/-- C1 at the sample tree after a deletion. -/
theorem C1_bst_order_preserved_witness :
    Increasing keyCmp (inorder sampleDeleted.root) ∧
      (inorder sampleDeleted.root).Pairwise (fun a b => keyCmp a b ≠ 0 ∧ a ≠ b) :=
  C1_bst_order_preserved keyCmp keyCmp_total _ sampleDeleted sampleDeleted_reachable

/-- C2: every tree built from `llrb_init` by calls of the three mutating functions is perfectly
black-balanced (all paths from the root to an absent child pass through the same number of black
nodes) and left-leaning (no node has a red right child). -/
theorem C2_black_balanced_left_leaning (cmp : Comparator) (hc : TotalOrder cmp) (xs : List Nat)
    (t : LLRBTree) (hr : Reachable cmp xs t) :
    BlackBalanced t.root ∧ LeftLeaning t.root :=
  ⟨BlackBalanced_of_RootInv (Reachable_inv hc hr).1.shape, LeftLeaning_of_RootInv (Reachable_inv hc hr).1.shape⟩

/-- C2 at the sample tree after a deletion. -/
theorem C2_black_balanced_left_leaning_witness :
    BlackBalanced sampleDeleted.root ∧ LeftLeaning sampleDeleted.root :=
  C2_black_balanced_left_leaning keyCmp keyCmp_total _ sampleDeleted
    sampleDeleted_reachable

/-- C3: on a tree built from `llrb_init`, `llrb_insert_or_replace` of a node `x` that compares
unequal to all resident nodes returns absent, the node count grows by one, and the in-order
traversal afterwards is the previous one with `x` put between the nodes below it and the nodes
above it; every previously resident node remains resident. -/
theorem C3_insert_new_key (cmp : Comparator) (hc : TotalOrder cmp) (xs : List Nat)
    (t : LLRBTree) (hr : Reachable cmp xs t) (x : Nat)
    (hnew : ∀ a ∈ inorder t.root, cmp a x ≠ 0) :
    ∃ t', llrb_insert_or_replace t x = .ok (t', none) ∧ size t'.root = size t.root + 1 ∧
      (∀ a ∈ inorder t.root, a ∈ inorder t'.root) ∧
      ∃ l1 l2, inorder t.root = l1 ++ l2 ∧ inorder t'.root = l1 ++ x :: l2 ∧
        (∀ y ∈ l1, cmp y x < 0) ∧ (∀ y ∈ l2, cmp x y < 0) := by
  obtain ⟨t', o, e, -, -, -, l1, l2, hi', hb1, hb2, hor⟩ :=
    llrb_insert_or_replace_spec hc (Reachable_inv hc hr).1 x
  rcases hor with ⟨rfl, hio⟩ | ⟨d, -, hd, hio, -⟩
  · refine ⟨t', e, ?_, ?_, l1, l2, hio, hi', hb1, hb2⟩
    · simp only [size_eq_length, hi', hio, List.length_append, List.length_cons]
      omega
    · intro a ha
      rw [hio] at ha
      rw [hi']
      simp only [List.mem_append, List.mem_cons] at ha ⊢
      tauto
  · exact absurd hd (hnew d (by rw [hio]; simp))

/-- C3 at the sample tree and the new node 7. -/
theorem C3_insert_new_key_witness :
    ∃ t', llrb_insert_or_replace sampleTree 7 = .ok (t', none) ∧
      size t'.root = size sampleTree.root + 1 ∧
      (∀ a ∈ inorder sampleTree.root, a ∈ inorder t'.root) ∧
      ∃ l1 l2, inorder sampleTree.root = l1 ++ l2 ∧ inorder t'.root = l1 ++ 7 :: l2 ∧
        (∀ y ∈ l1, keyCmp y 7 < 0) ∧ (∀ y ∈ l2, keyCmp 7 y < 0) :=
  C3_insert_new_key keyCmp keyCmp_total _ sampleTree sampleTree_reachable 7
    (by decide)

/-- C4: on a tree built from `llrb_init` that holds a node `h` comparing equal to `x`,
`llrb_insert_or_replace` of `x` returns exactly `h`, the node count is unchanged, and the in-order
traversal afterwards is the previous one with `x` at the position of `h`; `h` is no longer in the
tree (unless `x` is `h` itself). -/
theorem C4_insert_existing_key (cmp : Comparator) (hc : TotalOrder cmp) (xs : List Nat)
    (t : LLRBTree) (hr : Reachable cmp xs t) (x h : Nat) (hh : h ∈ inorder t.root)
    (heq : cmp h x = 0) :
    ∃ t', llrb_insert_or_replace t x = .ok (t', some h) ∧ size t'.root = size t.root ∧
      ∃ l1 l2, inorder t.root = l1 ++ h :: l2 ∧ inorder t'.root = l1 ++ x :: l2 ∧
        (x ≠ h → h ∉ inorder t'.root) := by
  have hti := (Reachable_inv hc hr).1
  obtain ⟨t', o, e, -, -, -, l1, l2, hi', hb1, hb2, hor⟩ :=
    llrb_insert_or_replace_spec hc hti x
  rcases hor with ⟨-, hio⟩ | ⟨d, rfl, hd, hio, -⟩
  · exfalso
    rw [hio] at hh
    rcases List.mem_append.mp hh with h1 | h2
    · have := hb1 h h1
      omega
    · have := hb2 h h2
      have := hc.eq_symm heq
      omega
  · have hdh : d = h :=
      Increasing_unique hc hti.sorted (by rw [hio]; simp) hh (hc.eq_symm hd) (hc.eq_symm heq)
    subst hdh
    refine ⟨t', e, by simp [size_eq_length, hi', hio], l1, l2, hio, hi', ?_⟩
    intro hne
    have hnd := Increasing_nodup hc hti.sorted
    rw [hio] at hnd
    rw [hi']
    simp only [List.nodup_append, List.nodup_cons, List.disjoint_cons_right] at hnd
    simp only [List.mem_append, List.mem_cons, not_or]
    exact ⟨hnd.2.2.1, fun e => hne e.symm, hnd.2.1.1⟩

/-- C4 at the sample tree and the node 13, which carries the key of the resident node 3. -/
theorem C4_insert_existing_key_witness :
    ∃ t', llrb_insert_or_replace sampleTree 13 = .ok (t', some 3) ∧
      size t'.root = size sampleTree.root ∧
      ∃ l1 l2, inorder sampleTree.root = l1 ++ 3 :: l2 ∧ inorder t'.root = l1 ++ 13 :: l2 ∧
        (13 ≠ 3 → 3 ∉ inorder t'.root) :=
  C4_insert_existing_key keyCmp keyCmp_total _ sampleTree sampleTree_reachable 13 3
    (by decide) (by decide)

/-- C5: on a tree built from `llrb_init`, `llrb_delete` with a key that compares equal to the
resident node `d` returns (it dereferences no absent node), returns exactly `d`, decreases the
node count by one, and leaves the in-order traversal of before with `d` removed. -/
theorem C5_delete_present_key (cmp : Comparator) (hc : TotalOrder cmp) (xs : List Nat)
    (t : LLRBTree) (hr : Reachable cmp xs t) (key d : Nat) (hd : d ∈ inorder t.root)
    (hk : cmp key d = 0) :
    ∃ t', llrb_delete t key = .ok (t', some d) ∧ size t'.root + 1 = size t.root ∧
      inorder t'.root = (inorder t.root).erase d := by
  have hti := (Reachable_inv hc hr).1
  obtain ⟨t', e, -, -, -, l1, l2, hio, hio', -⟩ := llrb_delete_spec hc hti hd hk
  refine ⟨t', e, ?_, ?_⟩
  · simp only [size_eq_length, hio, hio', List.length_append, List.length_cons]
    omega
  · have hnd := Increasing_nodup hc hti.sorted
    rw [hio] at hnd
    simp only [List.nodup_append, List.nodup_cons, List.disjoint_cons_right] at hnd
    rw [hio, hio', List.erase_append_right _ hnd.2.2.1, List.erase_cons_head]

/-- C5 at the sample tree: the transient key node 23 deletes the resident node 3. -/
theorem C5_delete_present_key_witness :
    ∃ t', llrb_delete sampleTree 23 = .ok (t', some 3) ∧
      size t'.root + 1 = size sampleTree.root ∧
      inorder t'.root = (inorder sampleTree.root).erase 3 :=
  C5_delete_present_key keyCmp keyCmp_total _ sampleTree sampleTree_reachable 23 3
    (by decide) (by decide)

/-- C6 (the code fails the claim): `llrb_delete` with a key that compares unequal to all
resident nodes, on any tree and in particular on the empty one, ends in a dereference of `NULL`,
where the claim has it return absent and leave the tree unchanged. -/
theorem C6_delete_absent_key_faults (t : LLRBTree) (key : Nat)
    (habs : ∀ d ∈ inorder t.root, t.compare key d ≠ 0) :
    llrb_delete t key = .nullDeref ∧
      ∀ (t0 : LLRBTree) (cmp : Comparator), llrb_delete (llrb_init t0 cmp) key = .nullDeref :=
  ⟨llrb_delete_absent_nullDeref t key habs, fun _ _ => rfl⟩

/-- C6 at the sample tree and a key node with the key 7, which no resident node carries. -/
theorem C6_delete_absent_key_faults_witness :
    llrb_delete sampleTree 7 = .nullDeref ∧
      ∀ (t0 : LLRBTree) (cmp : Comparator), llrb_delete (llrb_init t0 cmp) 7 = .nullDeref :=
  C6_delete_absent_key_faults sampleTree 7 (by decide)

/-- C7: on a non-empty tree built from `llrb_init`, `llrb_pop_min` returns the first node of
the in-order traversal, which is below every other node under the comparator, and leaves the
traversal without its first element; on an empty tree it returns absent and leaves the tree as it
is. -/
theorem C7_pop_min (cmp : Comparator) (hc : TotalOrder cmp) (xs : List Nat) (t : LLRBTree)
    (hr : Reachable cmp xs t) :
    (t.root = nil → llrb_pop_min t = .ok (t, none)) ∧
    ∀ a rest, inorder t.root = a :: rest →
      (∀ b ∈ rest, cmp a b < 0) ∧
      ∃ t', llrb_pop_min t = .ok (t', some a) ∧ inorder t'.root = rest := by
  have hti := (Reachable_inv hc hr).1
  refine ⟨fun h => by simp [llrb_pop_min, h], fun a rest hio => ?_⟩
  have hne : t.root ≠ nil := by
    intro h
    rw [h] at hio
    simp at hio
  obtain ⟨t', d, e, -, -, -, hio', -⟩ := llrb_pop_min_spec hc hti hne
  rw [hio] at hio'
  simp only [List.cons.injEq] at hio'
  obtain ⟨rfl, rfl⟩ := hio'
  have hs := hti.sorted
  rw [hio] at hs
  exact ⟨(List.pairwise_cons.mp hs).1, t', e, rfl⟩

/-- C7 at the sample tree. -/
theorem C7_pop_min_witness :
    (sampleTree.root = nil → llrb_pop_min sampleTree = .ok (sampleTree, none)) ∧
    ∀ a rest, inorder sampleTree.root = a :: rest →
      (∀ b ∈ rest, keyCmp a b < 0) ∧
      ∃ t', llrb_pop_min sampleTree = .ok (t', some a) ∧ inorder t'.root = rest :=
  C7_pop_min keyCmp keyCmp_total _ sampleTree sampleTree_reachable

/-- C8: on a tree whose in-order traversal is strictly increasing under a total-order
comparator, `llrb_find` returns the resident node that compares equal to the key when there is
one, and absent when there is none; `llrb_find` only reads the tree, so it has no tree to
return. -/
theorem C8_find (t : LLRBTree) (hc : TotalOrder t.compare)
    (hs : Increasing t.compare (inorder t.root)) (key : Nat) :
    (∀ d ∈ inorder t.root, t.compare key d = 0 → llrb_find t key = some d) ∧
    ((∀ d ∈ inorder t.root, t.compare key d ≠ 0) → llrb_find t key = none) :=
  ⟨fun _ hd hk => findLoop_present hc hs hd hk, fun habs => findLoop_absent habs⟩

/-- C8 at the sample tree and the transient key node 24. -/
theorem C8_find_witness :
    (∀ d ∈ inorder sampleTree.root, sampleTree.compare 24 d = 0 →
      llrb_find sampleTree 24 = some d) ∧
    ((∀ d ∈ inorder sampleTree.root, sampleTree.compare 24 d ≠ 0) →
      llrb_find sampleTree 24 = none) :=
  C8_find sampleTree keyCmp_total (by unfold Increasing; decide) 24

/-- C9: on a tree built from `llrb_init` (the anchor never handed in as a node), following
`llrb_next` from `llrb_min` visits exactly the nodes of the in-order traversal in order and then
yields absent, the last node visited being `llrb_max`; following `llrb_prev` from `llrb_max`
visits the reverse sequence and then yields absent; the anchor is not among the nodes. -/
theorem C9_list_tree_agreement (cmp : Comparator) (hc : TotalOrder cmp) (xs : List Nat)
    (t : LLRBTree) (hr : Reachable cmp xs t) (hA : t.anchor ∉ xs) :
    t.anchor ∉ inorder t.root ∧
    llrb_max t = (inorder t.root).getLast? ∧
    (∀ n, size t.root < n →
      walk t .RIGHT n (llrb_min t) = inorder t.root ∧
      walk t .LEFT n (llrb_max t) = (inorder t.root).reverse) ∧
    (∀ a, llrb_max t = some a → llrb_next t a = none) ∧
    (∀ a, llrb_min t = some a → llrb_prev t a = none) := by
  have hl := (Reachable_inv hc hr).2 hA
  have hmin := llrb_min_eq hl
  have hmax := llrb_max_eq hl
  obtain ⟨hAn, hlk⟩ := hl
  refine ⟨hAn, hmax, ?_, ?_, ?_⟩
  · intro n hn
    rw [size_eq_length] at hn
    constructor
    · rw [hmin]
      rcases h : inorder t.root with _ | ⟨a, l⟩
      · simp [walk_none]
      · rw [h] at hlk hAn hn
        simp only [List.mem_cons, not_or] at hAn
        exact walk_right t l [t.anchor] a (by simpa using hlk) hAn.2 n
          (by simp only [List.length_cons] at hn; omega)
    · rw [hmax]
      rcases List.eq_nil_or_concat (inorder t.root) with h | ⟨l, a, h⟩
      · simp [h, walk_none]
      · rw [List.concat_eq_append] at h
        rw [h] at hlk hAn hn
        simp only [List.mem_append, List.mem_singleton, not_or] at hAn
        have := walk_left t l [t.anchor] a (by simpa using hlk) hAn.1 n
          (by simp only [List.length_append, List.length_singleton] at hn; omega)
        simpa [h] using this
  · intro a ha
    rw [hmax] at ha
    obtain ⟨l, h⟩ : ∃ l, inorder t.root = l ++ [a] := by
      rcases List.eq_nil_or_concat (inorder t.root) with h | ⟨l, b, h⟩
      · simp [h] at ha
      · rw [List.concat_eq_append] at h
        rw [h] at ha
        simp only [List.getLast?_append, List.getLast?_singleton] at ha
        have hba : some b = some a := ha
        exact ⟨l, by rw [h, Option.some.inj hba]⟩
    rw [h] at hlk
    have h2 : Linked t.neigh ((t.anchor :: l) ++ a :: [t.anchor]) := by simpa using hlk
    rw [Linked_append_cons] at h2
    have h3 : t.neigh a .RIGHT = t.anchor := by simpa using h2.2.1
    simp [llrb_next, llrb_neighbour, h3]
  · intro a ha
    rw [hmin] at ha
    obtain ⟨l, h⟩ : ∃ l, inorder t.root = a :: l := by
      rcases h : inorder t.root with _ | ⟨b, l⟩
      · simp [h] at ha
      · rw [h] at ha
        simp only [List.head?_cons, Option.some.injEq] at ha
        exact ⟨l, by rw [ha]⟩
    rw [h] at hlk
    simp only [List.cons_append, Linked_cons_cons] at hlk
    simp [llrb_prev, llrb_neighbour, hlk.2.1]

/-- C9 at the sample tree after a deletion. -/
theorem C9_list_tree_agreement_witness :
    sampleDeleted.anchor ∉ inorder sampleDeleted.root ∧
    llrb_max sampleDeleted = (inorder sampleDeleted.root).getLast? ∧
    (∀ n, size sampleDeleted.root < n →
      walk sampleDeleted .RIGHT n (llrb_min sampleDeleted) = inorder sampleDeleted.root ∧
      walk sampleDeleted .LEFT n (llrb_max sampleDeleted) =
        (inorder sampleDeleted.root).reverse) ∧
    (∀ a, llrb_max sampleDeleted = some a → llrb_next sampleDeleted a = none) ∧
    (∀ a, llrb_min sampleDeleted = some a → llrb_prev sampleDeleted a = none) :=
  C9_list_tree_agreement keyCmp keyCmp_total _ sampleDeleted sampleDeleted_reachable
    (by decide)

/-- C10: on a tree built from `llrb_init` (the anchor never handed in as a node), `llrb_min`
and `llrb_max` of the build with the neighbour list (the two neighbours of the anchor) return the
first and the last node of the in-order traversal, absent on the empty tree; the versions of the
build with `LLRB_NO_LIST` (the walks down the left and the right spine) do so on every tree; so
both builds return the same node. -/
theorem C10_min_max_both_builds (cmp : Comparator) (hc : TotalOrder cmp) (xs : List Nat)
    (t : LLRBTree) (hr : Reachable cmp xs t) (hA : t.anchor ∉ xs) :
    (llrb_min t = (inorder t.root).head? ∧ llrb_max t = (inorder t.root).getLast?) ∧
    (∀ h : LLRBNode, llrb_min_nolist h = (inorder h).head? ∧
      llrb_max_nolist h = (inorder h).getLast?) ∧
    (llrb_min_nolist t.root = llrb_min t ∧ llrb_max_nolist t.root = llrb_max t) ∧
    (t.root = nil → llrb_min t = none ∧ llrb_max t = none) := by
  have hl := (Reachable_inv hc hr).2 hA
  refine ⟨⟨llrb_min_eq hl, llrb_max_eq hl⟩,
    fun h => ⟨llrb_min_nolist_eq h, llrb_max_nolist_eq h⟩,
    ⟨by rw [llrb_min_nolist_eq, llrb_min_eq hl], by rw [llrb_max_nolist_eq, llrb_max_eq hl]⟩, ?_⟩
  intro h
  rw [llrb_min_eq hl, llrb_max_eq hl, h]
  exact ⟨rfl, rfl⟩

/-- C10 at the sample tree after a deletion. -/
theorem C10_min_max_both_builds_witness :
    (llrb_min sampleDeleted = (inorder sampleDeleted.root).head? ∧
      llrb_max sampleDeleted = (inorder sampleDeleted.root).getLast?) ∧
    (∀ h : LLRBNode, llrb_min_nolist h = (inorder h).head? ∧
      llrb_max_nolist h = (inorder h).getLast?) ∧
    (llrb_min_nolist sampleDeleted.root = llrb_min sampleDeleted ∧
      llrb_max_nolist sampleDeleted.root = llrb_max sampleDeleted) ∧
    (sampleDeleted.root = nil → llrb_min sampleDeleted = none ∧ llrb_max sampleDeleted = none) :=
  C10_min_max_both_builds keyCmp keyCmp_total _ sampleDeleted sampleDeleted_reachable
    (by decide)

/-! ## Sequences of calls -/

theorem inorder_eq_nil {h : LLRBNode} (e : inorder h = []) : h = nil := by
  rcases h with _ | ⟨a, c, l, r⟩
  · rfl
  · simp at e

/-- Inserting nodes with pairwise distinct keys, all distinct from the keys in the tree, adds
all of them. -/
theorem insertSeq_spec {cmp : Comparator} (hc : TotalOrder cmp) :
    ∀ (xs : List Nat) (t : LLRBTree), TreeInv cmp t →
      xs.Pairwise (fun a b => cmp a b ≠ 0) →
      (∀ x ∈ xs, ∀ a ∈ inorder t.root, cmp a x ≠ 0) →
      ∃ t1, insertSeq t xs = .ok t1 ∧ TreeInv cmp t1 ∧
        (inorder t1.root).Perm (xs ++ inorder t.root)
  | [], t, hi, _, _ => ⟨t, rfl, hi, by simp⟩
  | x :: xs, t, hi, hd, hnew => by
    obtain ⟨t', o, e, hi', -, -, l1, l2, hio', -, -, hor⟩ := llrb_insert_or_replace_spec hc hi x
    rcases hor with ⟨-, hio⟩ | ⟨d, -, hdx, hio, -⟩
    · have hd' := List.pairwise_cons.mp hd
      have hnew' : ∀ y ∈ xs, ∀ a ∈ inorder t'.root, cmp a y ≠ 0 := by
        intro y hy a ha
        rw [hio'] at ha
        rcases List.mem_append.mp ha with h1 | h2
        · exact hnew y (List.mem_cons_of_mem _ hy) a (by rw [hio]; simp [h1])
        · rcases List.mem_cons.mp h2 with rfl | h3
          · exact hd'.1 y hy
          · exact hnew y (List.mem_cons_of_mem _ hy) a (by rw [hio]; simp [h3])
      obtain ⟨t1, e1, hi1, hp⟩ := insertSeq_spec hc xs t' hi' hd'.2 hnew'
      refine ⟨t1, by simp only [insertSeq, e, Res.bind_ok, e1], hi1, ?_⟩
      refine hp.trans ?_
      rw [hio', hio]
      have h1 : (xs ++ (l1 ++ x :: l2)).Perm (x :: (xs ++ (l1 ++ l2))) := by
        rw [← List.append_assoc, ← List.append_assoc]
        exact List.perm_middle
      simpa using h1
    · exact absurd hdx (hnew x (List.mem_cons_self _ _) d (by rw [hio]; simp))

/-- Deleting, in any order, keys equal to the keys of all the nodes of a tree returns exactly
those nodes and empties the tree. -/
theorem deleteSeq_spec {cmp : Comparator} (hc : TotalOrder cmp) :
    ∀ (kd : List (Nat × Nat)) (t : LLRBTree), TreeInv cmp t →
      (kd.map Prod.snd).Perm (inorder t.root) → (∀ p ∈ kd, cmp p.1 p.2 = 0) →
      ∃ t2, deleteSeq t (kd.map Prod.fst) = .ok (t2, kd.map fun p => some p.2) ∧ t2.root = nil
  | [], t, _, hp, _ => by
    refine ⟨t, rfl, inorder_eq_nil ?_⟩
    simpa using hp.symm
  | (k, d) :: kd, t, hi, hp, hk => by
    have hd : d ∈ inorder t.root := hp.subset (by simp)
    obtain ⟨t', e, hi', -, -, l1, l2, hio, hio', -⟩ :=
      llrb_delete_spec hc hi hd (hk (k, d) (List.mem_cons_self _ _))
    have hp' : (kd.map Prod.snd).Perm (inorder t'.root) := by
      rw [hio']
      rw [hio] at hp
      have h1 : (d :: kd.map Prod.snd).Perm (d :: (l1 ++ l2)) := by
        simpa using hp.trans List.perm_middle
      exact h1.cons_inv
    obtain ⟨t2, e2, hnil⟩ := deleteSeq_spec hc kd t' hi' hp'
      (fun p hp => hk p (List.mem_cons_of_mem _ hp))
    exact ⟨t2, by simp only [List.map_cons, deleteSeq, e, Res.bind_ok, e2], hnil⟩

/-! ## The comparators -/

theorem llrb_ptrcmp_total : TotalOrder llrb_ptrcmp where
  swap := by
    intro a b
    unfold llrb_ptrcmp
    split_ifs <;> omega
  le_trans := by
    intro a b c
    unfold llrb_ptrcmp
    split_ifs <;> omega

theorem toInt32_small {u : Nat} (h : u < 2 ^ 31) : toInt32 u = (u : Int) := by
  unfold toInt32
  have h1 : u % 2 ^ 32 = u := Nat.mod_eq_of_lt (by omega)
  rw [h1, if_pos h]

/-- On keys whose difference is below `2^31` the difference comparator of `example_int.c` has
the sign of the comparison of the keys; the keys `random() % 20000` of its `main` are such. -/
theorem rbcmp_SetItem_near (key : Nat → Nat) (a b : Nat) (ha : key a < 2 ^ 32)
    (hb : key b < 2 ^ 32) (hd : key a < key b + 2 ^ 31 ∧ key b < key a + 2 ^ 31) :
    (rbcmp_SetItem key a b < 0 ↔ key a < key b) ∧ (rbcmp_SetItem key a b = 0 ↔ key a = key b) ∧
      (0 < rbcmp_SetItem key a b ↔ key b < key a) := by
  unfold rbcmp_SetItem toInt32 subU32
  have h1 : key a % 2 ^ 32 = key a := Nat.mod_eq_of_lt ha
  have h2 : key b % 2 ^ 32 = key b := Nat.mod_eq_of_lt hb
  rw [h1, h2, Nat.mod_mod]
  rcases Nat.lt_or_ge (key a) (key b) with h | h
  · have h3 : (key a + (2 ^ 32 - key b)) % 2 ^ 32 = key a + 2 ^ 32 - key b := by
      rw [Nat.mod_eq_of_lt (by omega)]; omega
    rw [h3]
    split_ifs <;> omega
  · have h3 : (key a + (2 ^ 32 - key b)) % 2 ^ 32 = key a - key b := by
      have : key a + (2 ^ 32 - key b) = (key a - key b) + 2 ^ 32 := by omega
      rw [this, Nat.add_mod_right, Nat.mod_eq_of_lt (by omega)]
    rw [h3]
    split_ifs <;> omega

theorem color_of_blacken {h : LLRBNode} {a : Nat} {c : Color} {l r : LLRBNode}
    (e : blacken h = node a c l r) : c = .BLACK := by
  cases h
  · cases e
  · cases e
    rfl

/-! ## Height -/

@[simp] theorem height_nil : height nil = 0 := rfl
@[simp] theorem height_node (a : Nat) (c : Color) (l r : LLRBNode) :
    height (node a c l r) = max (height l) (height r) + 1 := rfl

/-- A subtree of black height `b` holds at least `2^b - 1` nodes, and at least `2^(b+1) - 1`
when its root is red. -/
theorem size_lower : ∀ {h : LLRBNode}, LLInv h →
    2 ^ bh h ≤ size h + 1 ∧ (isRed h = true → 2 ^ (bh h + 1) ≤ size h + 1)
  | nil, _ => by simp
  | node a c l r, hi => by
    simp only [LLInv_node] at hi
    obtain ⟨hl, hr, hb, -, -⟩ := hi
    have h1 := (size_lower hl).1
    have h2 := (size_lower hr).1
    rw [← hb] at h2
    have h3 : 2 ^ (bh l + 1) = 2 ^ bh l + 2 ^ bh l := by rw [pow_succ]; omega
    cases c
    · simp only [bh_black, isRed_black, Bool.false_eq_true, false_implies, and_true, size_node]
      omega
    · simp only [bh_red, isRed_red, true_implies, size_node]
      have h4 := Nat.one_le_two_pow (n := bh l)
      omega

/-- A subtree of black height `b` has height at most `2 * b`, and at most `2 * b + 1` when its
root is red. -/
theorem height_upper : ∀ {h : LLRBNode}, LLInv h →
    height h ≤ 2 * bh h + (if isRed h = true then 1 else 0)
  | nil, _ => by simp
  | node a c l r, hi => by
    simp only [LLInv_node] at hi
    obtain ⟨hl, hr, hb, hrr, hc⟩ := hi
    have h1 := height_upper hl
    have h2 := height_upper hr
    rw [hrr, ← hb] at h2
    simp only [Bool.false_eq_true, if_false] at h2
    cases c
    · simp only [bh_black, isRed_black, height_node]
      split_ifs at h1 <;> simp <;> omega
    · rw [hc rfl] at h1
      simp only [Bool.false_eq_true, if_false] at h1
      simp only [bh_red, isRed_red, height_node]
      simp
      omega

theorem height_bound_of_RootInv {h : LLRBNode} (hr : RootInv h) :
    2 ^ height h ≤ (size h + 1) ^ 2 := by
  rcases h with _ | ⟨a, c, l, r⟩
  · simp
  · simp only [RootInv_node] at hr
    obtain ⟨hl, hr, hb, hrr⟩ := hr
    have h1 := height_upper hl
    have h2 := height_upper hr
    have s1 := size_lower hl
    have s2 := (size_lower hr).1
    rw [hrr, ← hb] at h2
    rw [← hb] at s2
    simp only [Bool.false_eq_true, if_false] at h2
    simp only [height_node, size_node]
    have hp : 2 ^ (2 * bh l) = 2 ^ bh l * 2 ^ bh l := by rw [two_mul, pow_add]
    by_cases hlr : isRed l = true
    · rw [if_pos hlr] at h1
      have s3 := s1.2 hlr
      have hh : max (height l) (height r) + 1 ≤ 2 * bh l + 2 := by
        simp only [Nat.max_def]; split_ifs <;> omega
      have s4 : 3 * 2 ^ bh l ≤ size l + size r + 1 + 1 := by
        rw [pow_succ] at s3; omega
      calc 2 ^ (max (height l) (height r) + 1) ≤ 2 ^ (2 * bh l + 2) :=
            Nat.pow_le_pow_right (by norm_num) hh
        _ = 4 * (2 ^ bh l * 2 ^ bh l) := by rw [pow_add, hp]; ring
        _ ≤ (3 * 2 ^ bh l) * (3 * 2 ^ bh l) := by nlinarith
        _ ≤ (size l + size r + 1 + 1) * (size l + size r + 1 + 1) := Nat.mul_le_mul s4 s4
        _ = (size l + size r + 1 + 1) ^ 2 := by ring
    · rw [if_neg hlr] at h1
      have hh : max (height l) (height r) + 1 ≤ 2 * bh l + 1 := by
        simp only [Nat.max_def]; split_ifs <;> omega
      have s4 : 2 * 2 ^ bh l ≤ size l + size r + 1 + 1 := by omega
      calc 2 ^ (max (height l) (height r) + 1) ≤ 2 ^ (2 * bh l + 1) :=
            Nat.pow_le_pow_right (by norm_num) hh
        _ = 2 * (2 ^ bh l * 2 ^ bh l) := by rw [pow_add, hp]; ring
        _ ≤ (2 * 2 ^ bh l) * (2 * 2 ^ bh l) := by nlinarith
        _ ≤ (size l + size r + 1 + 1) * (size l + size r + 1 + 1) := Nat.mul_le_mul s4 s4
        _ = (size l + size r + 1 + 1) ^ 2 := by ring

/-! ## Replacement of a resident node -/

@[simp] theorem replaceNode_nil (h x : Nat) : replaceNode h x nil = nil := rfl
@[simp] theorem replaceNode_node (h x a : Nat) (c : Color) (l r : LLRBNode) :
    replaceNode h x (node a c l r) =
      node (if a = h then x else a) c (replaceNode h x l) (replaceNode h x r) := rfl

theorem replaceNode_of_not_mem {h x : Nat} : ∀ {t : LLRBNode}, h ∉ inorder t →
    replaceNode h x t = t
  | nil, _ => rfl
  | node a c l r, hn => by
    simp only [inorder_node, List.mem_append, List.mem_cons, not_or] at hn
    have ha : a ≠ h := fun e => hn.2.1 e.symm
    rw [replaceNode_node, if_neg ha, replaceNode_of_not_mem hn.1, replaceNode_of_not_mem hn.2.2]

@[simp] theorem isRed_replaceNode (h x : Nat) (t : LLRBNode) :
    isRed (replaceNode h x t) = isRed t := by
  rcases t with _ | ⟨a, c, l, r⟩
  · rfl
  · cases c <;> rfl

@[simp] theorem left_replaceNode (h x : Nat) (t : LLRBNode) :
    (replaceNode h x t).left = replaceNode h x t.left := by
  cases t <;> rfl

theorem isRed_left_of_LLInv {l : LLRBNode} (hl : LLInv l) (h : isRed l = true) :
    isRed l.left = false := by
  obtain ⟨a, ll, lr, rfl⟩ := isRed_eq_true.mp h
  exact isRed_left_of_LLInv_red hl

/-- On a tree with the shape invariant and a strictly increasing traversal, `insert` of a node
`x` that compares equal to the resident node `d` returns the same tree with `x` at the place of
`d`, and stores `d` into `*old`. -/
theorem insert_replace {cmp : Comparator} (hc : TotalOrder cmp) {x d : Nat} (hdx : cmp d x = 0) :
    ∀ (h : LLRBNode) (ng : Neigh) (old : Option Nat) (p : Nat) (side : Side), RootInv h →
      Increasing cmp (inorder h) → d ∈ inorder h →
      insert cmp h x ng old p side = .ok (replaceNode d x h, relink ng x d, some d)
  | nil, _, _, _, _, _, _, hd => by simp at hd
  | node a c l r, ng, old, p, side, hr, hs, hd => by
    simp only [RootInv_node] at hr
    obtain ⟨hl, hr, -, hrr⟩ := hr
    have hxd : cmp x d = 0 := hc.eq_symm hdx
    have hs' := hs
    simp only [inorder_node] at hs' hd
    obtain ⟨hsl, hsr, -, -, -⟩ := Increasing_append_cons.mp hs'
    have hnd := Increasing_nodup hc hs'
    simp only [List.nodup_append, List.nodup_cons, List.disjoint_cons_right] at hnd
    obtain ⟨-, ⟨har, -⟩, hal, hdis⟩ := hnd
    by_cases h0 : cmp a x = 0
    · have hda : d = a :=
        Increasing_unique hc hs' hd (by simp) hxd (hc.eq_symm h0)
      subst hda
      simp only [insert, if_pos h0, replaceNode_node, if_true,
        replaceNode_of_not_mem hal, replaceNode_of_not_mem har]
    · have hne : a ≠ d := by
        rintro rfl
        exact h0 hdx
      by_cases h1 : cmp a x < 0
      · have hdr : d ∈ inorder r :=
          present_right hc hs' hd hxd ((hc.swap a x).mp h1)
        have hdl : d ∉ inorder l := fun hm => hdis hm hdr
        have ih := insert_replace hc hdx r ng old a .RIGHT (rootInv_of_LLInv hr) hsr hdr
        simp only [insert, if_neg h0, if_pos h1, ih, Res.bind_ok, replaceNode_node, if_neg hne,
          replaceNode_of_not_mem hdl]
        rw [fixUp_id (by simpa using hrr) (isRed_left_of_LLInv hl)]
        rfl
      · have h2 : cmp x a < 0 := by
          have := (hc.swap x a).mpr
          have h3 : 0 < cmp a x := by omega
          exact this h3
        have hdl : d ∈ inorder l := present_left hc hs' hd hxd h2
        have hdr : d ∉ inorder r := fun hm => hdis hdl hm
        have ih := insert_replace hc hdx l ng old a .LEFT (rootInv_of_LLInv hl) hsl hdl
        simp only [insert, if_neg h0, if_neg h1, ih, Res.bind_ok, replaceNode_node, if_neg hne,
          replaceNode_of_not_mem hdr]
        rw [fixUp_id hrr (by
          intro hred
          rw [left_replaceNode, isRed_replaceNode]
          exact isRed_left_of_LLInv hl (by simpa using hred))]
        rfl

/-- On every node of a tree with the shape invariant `fixUp` changes nothing. -/
theorem fixUp_subtrees_of_LLInv : ∀ {h : LLRBNode}, LLInv h → ∀ s ∈ subtrees h, fixUp s = .ok s
  | nil, _, s, hs => by simp [subtrees] at hs
  | node a c l r, hi, s, hs => by
    simp only [LLInv_node] at hi
    obtain ⟨hl, hr, -, hrr, -⟩ := hi
    simp only [subtrees, List.mem_cons, List.mem_append] at hs
    rcases hs with rfl | hs | hs
    · exact fixUp_id hrr (isRed_left_of_LLInv hl)
    · exact fixUp_subtrees_of_LLInv hl s hs
    · exact fixUp_subtrees_of_LLInv hr s hs

theorem fixUp_subtrees_of_RootInv {h : LLRBNode} (hr : RootInv h) :
    ∀ s ∈ subtrees h, fixUp s = .ok s := by
  rcases h with _ | ⟨a, c, l, r⟩
  · intro s hs
    simp [subtrees] at hs
  · simp only [RootInv_node] at hr
    obtain ⟨hl, hr, -, hrr⟩ := hr
    intro s hs
    simp only [subtrees, List.mem_cons, List.mem_append] at hs
    rcases hs with rfl | hs | hs
    · exact fixUp_id hrr (isRed_left_of_LLInv hl)
    · exact fixUp_subtrees_of_LLInv hl s hs
    · exact fixUp_subtrees_of_LLInv hr s hs

theorem colorFlip_fault (h : LLRBNode) :
    colorFlip h = .nullDeref ↔ (h = nil ∨ h.left = nil ∨ h.right = nil) := by
  rcases h with _ | ⟨a, c, _ | ⟨la, lc, ll, lr⟩, _ | ⟨ra, rc, rl, rr⟩⟩ <;> simp [colorFlip]

theorem moveRedRight_fault (h : LLRBNode) :
    moveRedRight h = .nullDeref ↔ (h = nil ∨ h.left = nil ∨ h.right = nil) := by
  rcases h with _ | ⟨a, c, _ | ⟨la, lc, ll, lr⟩, _ | ⟨ra, rc, rl, rr⟩⟩ <;>
    simp [moveRedRight, colorFlip]
  rcases ll with _ | ⟨lla, _ | _, lll, llr⟩ <;> simp

theorem moveRedLeft_fault (h : LLRBNode) :
    moveRedLeft h = .nullDeref ↔ (h = nil ∨ h.left = nil ∨ h.right = nil) := by
  rcases h with _ | ⟨a, c, _ | ⟨la, lc, ll, lr⟩, _ | ⟨ra, rc, rl, rr⟩⟩ <;>
    simp [moveRedLeft, colorFlip]
  rcases rl with _ | ⟨rla, _ | _, rll, rlr⟩ <;> simp

theorem relink_fields {ng : Neigh} {x h : Nat} (hL : ng h .LEFT ≠ x) (hR : ng h .RIGHT ≠ x) :
    relink ng x h x .LEFT = ng h .LEFT ∧ relink ng x h x .RIGHT = ng h .RIGHT := by
  simp [relink, setNeigh, hL, hR, Ne.symm hL, Ne.symm hR]

theorem Linked_neighbours {ng : Neigh} {A h : Nat} {L1 L2 : List Nat}
    (hl : Linked ng (A :: (L1 ++ h :: L2) ++ [A])) :
    ng h .LEFT ∈ A :: L1 ∧ ng h .RIGHT ∈ L2 ++ [A] := by
  have e : A :: (L1 ++ h :: L2) ++ [A] = (A :: L1) ++ h :: (L2 ++ [A]) := by simp
  rw [e, Linked_append_cons] at hl
  obtain ⟨h1, h2⟩ := hl
  constructor
  · rcases List.eq_nil_or_concat (A :: L1) with h0 | ⟨P0, q, hP⟩
    · simp at h0
    · rw [List.concat_eq_append] at hP
      rw [hP] at h1 ⊢
      have e2 : P0 ++ [q] ++ [h] = P0 ++ q :: [h] := by simp
      rw [e2, Linked_append_cons] at h1
      simp only [Linked_cons_cons] at h1
      rw [h1.2.2.1]
      simp
  · rcases hq : L2 ++ [A] with _ | ⟨p0, Q0⟩
    · simp at hq
    · rw [hq] at h2
      simp only [Linked_cons_cons] at h2
      rw [h2.1]
      simp

/-! ## Deletion of the minimum by key -/

theorem head?_append_of_mem {l1 l2 : List Nat} {x : Nat} (hx : x ∈ l1) :
    (l1 ++ l2).head? = l1.head? := by
  rcases l1 with _ | ⟨b, l1⟩
  · simp at hx
  · rfl

/-- On a tree with the shape invariant and a strictly increasing traversal, `deleteKey` with a
key that compares equal to the first node of the traversal runs exactly as `deleteMin`, for
every bound on the recursion depth. -/
theorem deleteKey_min_eq_deleteMin {cmp : Comparator} (hc : TotalOrder cmp) {key m : Nat}
    (hk : cmp key m = 0) :
    ∀ (n : Nat) (h : LLRBNode) (ng : Neigh), RootInv h → Increasing cmp (inorder h) →
      (inorder h).head? = some m → deleteKey cmp n h key ng = deleteMin n h ng
  | 0, _, _, _, _, _ => rfl
  | n + 1, nil, _, _, _, hm => by simp at hm
  | n + 1, node a c nil r, ng, hr, _, hm => by
    have hrn := nil_of_left_nil hr
    subst hrn
    simp only [inorder_node, inorder_nil, List.nil_append, List.head?_cons,
      Option.some.injEq] at hm
    subst hm
    have h0 : ¬ cmp key a < 0 := by omega
    simp [deleteKey, deleteMin, h0, hk]
  | n + 1, node a c (node la lc ll lr) r, ng, hr, hs, hm => by
    obtain ⟨a1, c1, l1, r1, e1, hd1, -, hmem, -⟩ := prepLeft_root hr a c la lc ll lr r rfl
    have hla : la ∈ inorder (node la lc ll lr) := by simp
    have hml : m ∈ inorder (node la lc ll lr) := by
      rw [inorder_node, head?_append_of_mem hla] at hm
      exact List.mem_of_mem_head? hm
    have hs1 := hs
    rw [inorder_node] at hs1
    obtain ⟨-, -, hlt, -, -⟩ := Increasing_append_cons.mp hs1
    have hka : cmp key a < 0 := hc.lt_of_le_of_lt (by omega) (hlt m hml)
    have hio : inorder (node a1 c1 l1 r1) = inorder (node a c (node la lc ll lr) r) :=
      ite_ok_inorder moveRedLeft_inorder e1
    have hs2 : Increasing cmp (inorder l1) := by
      rw [← hio, inorder_node] at hs
      exact (Increasing_append_cons.mp hs).1
    have hm2 : (inorder l1).head? = some m := by
      rw [← hio, inorder_node, head?_append_of_mem (hmem la hla)] at hm
      exact hm
    have ih := deleteKey_min_eq_deleteMin hc hk n l1 ng (rootInv_of_LLInv hd1.1) hs2 hm2
    simp only [deleteKey, deleteMin, if_pos hka, e1, Res.bind_ok, ih]

/-- On a non-empty tree with the invariant, `llrb_delete` with a key equal to the first node of
the traversal and `llrb_pop_min` have the same outcome. -/
theorem llrb_delete_min_eq_pop_min {cmp : Comparator} (hc : TotalOrder cmp) {t : LLRBTree}
    (hi : TreeInv cmp t) {key m : Nat} (hm : (inorder t.root).head? = some m)
    (hk : cmp key m = 0) : llrb_delete t key = llrb_pop_min t := by
  unfold llrb_delete llrb_pop_min
  rw [hi.compare_eq, deleteKey_min_eq_deleteMin hc hk _ _ _ hi.shape hi.sorted hm]
  rcases h : t.root with _ | ⟨a, c, l, r⟩
  · rw [h] at hm
    simp at hm
  · rfl

/-! ## The claims on call sequences, colours and stale links -/

/-- C11: for every list `xs` of nodes with pairwise distinct keys inserted in that order into a
freshly initialised tree, and every order in which keys equal to those of all the nodes are then
passed to `llrb_delete` (`kd` pairs each key node with the inserted node of that key), all the
calls return, every `llrb_delete` returns the inserted node whose key equals the requested key
(never absent), and after the last one the root is absent. -/
theorem C11_round_trip_to_empty (cmp : Comparator) (hc : TotalOrder cmp) (t0 : LLRBTree)
    (xs : List Nat) (hdist : xs.Pairwise fun a b => cmp a b ≠ 0)
    (kd : List (Nat × Nat)) (hperm : (kd.map Prod.snd).Perm xs)
    (hkey : ∀ p ∈ kd, cmp p.1 p.2 = 0) :
    ∃ t1, insertSeq (llrb_init t0 cmp) xs = .ok t1 ∧ size t1.root = xs.length ∧
      ∃ t2, deleteSeq t1 (kd.map Prod.fst) = .ok (t2, kd.map fun p => some p.2) ∧
        t2.root = nil := by
  obtain ⟨t1, e1, hi1, hp1⟩ := insertSeq_spec hc xs (llrb_init t0 cmp)
    (llrb_init_treeInv t0 cmp) hdist (by simp [llrb_init])
  have hp1' : (inorder t1.root).Perm xs := by simpa [llrb_init] using hp1
  obtain ⟨t2, e2, hnil⟩ := deleteSeq_spec hc kd t1 hi1 (hperm.trans hp1'.symm) hkey
  exact ⟨t1, e1, by rw [size_eq_length, hp1'.length_eq], t2, e2, hnil⟩

/-- C11 at the nodes 5, 3, 8, 1, 4 and the keys of the nodes 4, 5, 1, 8, 3 in that order, the
first, second and last of them carried by transient key nodes. -/
theorem C11_round_trip_to_empty_witness :
    ∃ t1, insertSeq (llrb_init emptyTree keyCmp) [5, 3, 8, 1, 4] = .ok t1 ∧
      size t1.root = [5, 3, 8, 1, 4].length ∧
      ∃ t2, deleteSeq t1 ([(14, 4), (25, 5), (1, 1), (8, 8), (33, 3)].map Prod.fst) =
          .ok (t2, [(14, 4), (25, 5), (1, 1), (8, 8), (33, 3)].map fun p => some p.2) ∧
        t2.root = nil :=
  C11_round_trip_to_empty keyCmp keyCmp_total emptyTree [5, 3, 8, 1, 4] (by decide)
    [(14, 4), (25, 5), (1, 1), (8, 8), (33, 3)] (by decide) (by decide)

/-- C12: the scenario of the specification.  Inserting nodes with the keys 5, 3, 8, 1, 4 (the
node at address `a` carries the key `a % 10`) gives the in-order keys 1, 3, 4, 5, 8; inserting the
second key-3 node 13 returns the resident key-3 node 3 and leaves the keys 1, 3, 4, 5, 8;
`llrb_delete` with a key node of key 1 returns the node 1 and leaves 3, 4, 5, 8; `llrb_pop_min`
then returns the key-3 node and leaves 4, 5, 8. -/
theorem C12_concrete_scenario :
    ∃ t1 t2 t3 t4, insertSeq emptyTree [5, 3, 8, 1, 4] = .ok t1 ∧
      (inorder t1.root).map (fun a => a % 10) = [1, 3, 4, 5, 8] ∧
      llrb_insert_or_replace t1 13 = .ok (t2, some 3) ∧
      (inorder t2.root).map (fun a => a % 10) = [1, 3, 4, 5, 8] ∧
      llrb_delete t2 21 = .ok (t3, some 1) ∧
      (inorder t3.root).map (fun a => a % 10) = [3, 4, 5, 8] ∧
      llrb_pop_min t3 = .ok (t4, some 13) ∧ 13 % 10 = 3 ∧
      (inorder t4.root).map (fun a => a % 10) = [4, 5, 8] :=
  ⟨_, _, _, _, rfl, by decide, rfl, by decide, rfl, by decide, rfl, rfl, by decide⟩

/-- C13 (the code fails the claim for `llrb_insert_or_replace`): the first insertion into a
freshly initialised tree returns with a RED root, because `llrb_insert_or_replace`, unlike
`llrb_delete` and `llrb_pop_min`, does not set the colour of the root; after each of the other
two the root, when there is one, is BLACK. -/
theorem C13_insert_leaves_root_red (t0 : LLRBTree) (cmp : Comparator) (x : Nat) :
    (∃ t', llrb_insert_or_replace (llrb_init t0 cmp) x = .ok (t', none) ∧
      t'.root = node x .RED nil nil) ∧
    (∀ t key t' o, llrb_delete t key = .ok (t', o) →
      ∀ a c l r, t'.root = node a c l r → c = .BLACK) ∧
    (∀ t t' o, llrb_pop_min t = .ok (t', o) → t.root ≠ nil →
      ∀ a c l r, t'.root = node a c l r → c = .BLACK) := by
  refine ⟨⟨_, rfl, rfl⟩, ?_, ?_⟩
  · intro t key t' o e a c l r hroot
    simp only [llrb_delete, Res.bind_eq_ok] at e
    obtain ⟨res, -, e⟩ := e
    cases e
    exact color_of_blacken hroot
  · intro t t' o e hne a c l r hroot
    unfold llrb_pop_min at e
    rcases h : t.root with _ | ⟨a0, c0, l0, r0⟩
    · exact absurd h hne
    · rw [h] at e
      simp only [Res.bind_eq_ok] at e
      obtain ⟨res, -, e⟩ := e
      cases e
      exact color_of_blacken hroot

/-- C14 (the code fails the claim when the removed node is replaced by its successor): in the
sample tree with the nodes 1, 3, 4, 5, 8 the node 3 has the predecessor 1 and the successor 4;
after `llrb_delete` removed 3, `llrb_prev` of the returned node is still 1, but `llrb_next` of it
is 5, not 4, because unlinking the successor from the list stored the successor of the successor
into the removed node.  The removal of node 1, which has no right child, keeps both links. -/
theorem C14_successor_case_clobbers_next :
    llrb_prev sampleTree 3 = some 1 ∧ llrb_next sampleTree 3 = some 4 ∧
    (∃ t', llrb_delete sampleTree 3 = .ok (t', some 3) ∧
      llrb_prev t' 3 = some 1 ∧ llrb_next t' 3 = some 5) ∧
    llrb_prev sampleTree 1 = none ∧ llrb_next sampleTree 1 = some 3 ∧
    (∃ t', llrb_delete sampleTree 1 = .ok (t', some 1) ∧
      llrb_prev t' 1 = none ∧ llrb_next t' 1 = some 3) :=
  ⟨by decide, by decide, ⟨_, rfl, by decide, by decide⟩, by decide, by decide,
    ⟨_, rfl, by decide, by decide⟩⟩

/-- C15: in every tree built from `llrb_init` by calls of the three mutating functions, the
number `h` of nodes on the longest path from the root to an absent child and the number `n` of
nodes satisfy `2^h ≤ (n+1)^2`, that is `h ≤ 2*log2(n+1)`. -/
theorem C15_height_bound (cmp : Comparator) (hc : TotalOrder cmp) (xs : List Nat)
    (t : LLRBTree) (hr : Reachable cmp xs t) :
    2 ^ height t.root ≤ (size t.root + 1) ^ 2 :=
  height_bound_of_RootInv (Reachable_inv hc hr).1.shape

/-- C15 at the sample tree after a deletion. -/
theorem C15_height_bound_witness :
    2 ^ height sampleDeleted.root ≤ (size sampleDeleted.root + 1) ^ 2 :=
  C15_height_bound keyCmp keyCmp_total _ sampleDeleted sampleDeleted_reachable

/-- C16: `llrb_ptrcmp` returns 0 exactly when the two addresses are equal, -1 exactly when the
first is below the second and 1 exactly when it is above, so it is the negation of the comparison
the other way round; it is transitive and a total order for the tree functions; and its value does
not depend on the tree argument. -/
theorem C16_ptrcmp_total_order (a b c : Nat) (t t' : LLRBTree) :
    (llrb_ptrcmp_tree a b t = 0 ↔ a = b) ∧ (llrb_ptrcmp_tree a b t = -1 ↔ a < b) ∧
    (llrb_ptrcmp_tree a b t = 1 ↔ b < a) ∧
    llrb_ptrcmp_tree a b t = - llrb_ptrcmp_tree b a t ∧
    (llrb_ptrcmp_tree a b t < 0 → llrb_ptrcmp_tree b c t < 0 → llrb_ptrcmp_tree a c t < 0) ∧
    (llrb_ptrcmp_tree a b t ≤ 0 → llrb_ptrcmp_tree b c t ≤ 0 → llrb_ptrcmp_tree a c t ≤ 0) ∧
    llrb_ptrcmp_tree a b t = llrb_ptrcmp_tree a b t' ∧
    llrb_ptrcmp_tree a b t = llrb_ptrcmp a b ∧ TotalOrder llrb_ptrcmp := by
  have val : ∀ x y : Nat, (x < y ∧ llrb_ptrcmp_tree x y t = -1) ∨
      (x = y ∧ llrb_ptrcmp_tree x y t = 0) ∨ (y < x ∧ llrb_ptrcmp_tree x y t = 1) := by
    intro x y
    unfold llrb_ptrcmp_tree
    rcases Nat.lt_trichotomy x y with h | h | h
    · exact Or.inl ⟨h, by rw [if_neg (by omega), if_pos h]⟩
    · exact Or.inr (Or.inl ⟨h, by rw [if_pos h]⟩)
    · exact Or.inr (Or.inr ⟨h, by rw [if_neg (by omega), if_neg (by omega)]⟩)
  have hab := val a b
  have hba := val b a
  have hbc := val b c
  have hac := val a c
  refine ⟨?_, ?_, ?_, ?_, ?_, ?_, rfl, rfl, llrb_ptrcmp_total⟩ <;> omega

/-- C17 (the code fails the claim at the root): inserting the nodes 1 and 2 in that order into
an empty tree leaves the red root 2 with the red left child 1, because
`llrb_insert_or_replace` does not set the colour of the root to black. -/
theorem C17_red_root_with_red_left_child :
    ∃ t, insertSeq emptyTree [1, 2] = .ok t ∧
      t.root = node 2 .RED (node 1 .RED nil nil) nil ∧
      isRed t.root = true ∧ isRed t.root.left = true :=
  ⟨_, rfl, by decide, by decide, by decide⟩

/-- C18: `colorFlip`, `moveRedLeft` and `moveRedRight` end in a dereference of `NULL` exactly
when they are called on an absent node or on a node that lacks a child, and every function of the
embedding passes such an outcome on to its caller; on a tree built from `llrb_init`, every call of
`llrb_insert_or_replace`, of `llrb_pop_min`, and of `llrb_delete` with a key present in the tree
returns, so every call of the three functions made on the way was on a node with both
children. -/
theorem C18_colorFlip_precondition (cmp : Comparator) (hc : TotalOrder cmp) (xs : List Nat)
    (t : LLRBTree) (hr : Reachable cmp xs t) :
    (∀ h : LLRBNode, (colorFlip h = .nullDeref ↔ (h = nil ∨ h.left = nil ∨ h.right = nil)) ∧
      (moveRedLeft h = .nullDeref ↔ (h = nil ∨ h.left = nil ∨ h.right = nil)) ∧
      (moveRedRight h = .nullDeref ↔ (h = nil ∨ h.left = nil ∨ h.right = nil))) ∧
    (∀ x, ∃ r, llrb_insert_or_replace t x = .ok r) ∧
    (∃ r, llrb_pop_min t = .ok r) ∧
    (∀ key d, d ∈ inorder t.root → cmp key d = 0 → ∃ r, llrb_delete t key = .ok r) := by
  have hti := (Reachable_inv hc hr).1
  refine ⟨fun h => ⟨colorFlip_fault h, moveRedLeft_fault h, moveRedRight_fault h⟩, ?_, ?_, ?_⟩
  · intro x
    obtain ⟨t', o, e, -⟩ := llrb_insert_or_replace_spec hc hti x
    exact ⟨_, e⟩
  · by_cases hne : t.root = nil
    · exact ⟨(t, none), by simp [llrb_pop_min, hne]⟩
    · obtain ⟨t', d, e, -⟩ := llrb_pop_min_spec hc hti hne
      exact ⟨_, e⟩
  · intro key d hd hk
    obtain ⟨t', e, -⟩ := llrb_delete_spec hc hti hd hk
    exact ⟨_, e⟩

/-- C18 at the sample tree. -/
theorem C18_colorFlip_precondition_witness :
    (∀ h : LLRBNode, (colorFlip h = .nullDeref ↔ (h = nil ∨ h.left = nil ∨ h.right = nil)) ∧
      (moveRedLeft h = .nullDeref ↔ (h = nil ∨ h.left = nil ∨ h.right = nil)) ∧
      (moveRedRight h = .nullDeref ↔ (h = nil ∨ h.left = nil ∨ h.right = nil))) ∧
    (∀ x, ∃ r, llrb_insert_or_replace sampleTree x = .ok r) ∧
    (∃ r, llrb_pop_min sampleTree = .ok r) ∧
    (∀ key d, d ∈ inorder sampleTree.root → keyCmp key d = 0 →
      ∃ r, llrb_delete sampleTree key = .ok r) :=
  C18_colorFlip_precondition keyCmp keyCmp_total _ sampleTree sampleTree_reachable

/-- C19 (counterexample to the claim as stated, for every pair of 32-bit keys): on
`unsigned int` keys that are `2^31` or more apart the difference comparators of `example_int.c`
have the wrong sign.  With the keys `0`, `3 * 2^29` and `3 * 2^30` of the nodes 0, 1, 2 the first
is below the second and the second below the third under the comparator, but the first is above
the third, although its key is smaller: the comparator is not a total order on these keys. -/
theorem C19_difference_comparator_wraps :
    wideKey 0 = 0 ∧ wideKey 1 = 1610612736 ∧ wideKey 2 = 3221225472 ∧
    rbcmp_SetItem wideKey 0 1 < 0 ∧ rbcmp_SetItem wideKey 1 2 < 0 ∧
    0 < rbcmp_SetItem wideKey 0 2 ∧ ¬ TotalOrder (rbcmp_SetItem wideKey) ∧
    rbcmp_MapItem wideKey 0 1 < 0 ∧ rbcmp_MapItem wideKey 1 2 < 0 ∧
    0 < rbcmp_MapItem wideKey 0 2 ∧ ¬ TotalOrder (rbcmp_MapItem wideKey) := by
  have h1 : rbcmp_SetItem wideKey 0 1 < 0 := by decide
  have h2 : rbcmp_SetItem wideKey 1 2 < 0 := by decide
  have h3 : 0 < rbcmp_SetItem wideKey 0 2 := by decide
  have key : ∀ cmp : Comparator, cmp 0 1 < 0 → cmp 1 2 < 0 → 0 < cmp 0 2 → ¬ TotalOrder cmp := by
    intro cmp a b c hc
    have := hc.le_trans 0 1 2 (by omega) (by omega)
    omega
  exact ⟨by decide, by decide, by decide, h1, h2, h3, key _ h1 h2 h3, h1, h2, h3, key _ h1 h2 h3⟩

/-- C19 (as amended): on `unsigned int` keys that are less than `2^31` apart, `rbcmp_SetItem`
and `rbcmp_MapItem` are negative exactly when the first key is smaller, zero exactly when the keys
are equal and positive exactly when the first key is larger; and when all the keys of a tree are
less than `2^31` apart, as the keys `random() % 20000` that `main` stores are, the comparators
are total orders as the comparator contract requires. -/
theorem C19_difference_comparator_near (key : Nat → Nat) (hkey : ∀ a, key a < 2 ^ 32) :
    (∀ a b, key a < key b + 2 ^ 31 → key b < key a + 2 ^ 31 →
      ((rbcmp_SetItem key a b < 0 ↔ key a < key b) ∧ (rbcmp_SetItem key a b = 0 ↔ key a = key b) ∧
        (0 < rbcmp_SetItem key a b ↔ key b < key a)) ∧
      ((rbcmp_MapItem key a b < 0 ↔ key a < key b) ∧ (rbcmp_MapItem key a b = 0 ↔ key a = key b) ∧
        (0 < rbcmp_MapItem key a b ↔ key b < key a))) ∧
    ((∀ a b, key a < key b + 2 ^ 31) →
      TotalOrder (rbcmp_SetItem key) ∧ TotalOrder (rbcmp_MapItem key)) := by
  have sign : ∀ a b, key a < key b + 2 ^ 31 → key b < key a + 2 ^ 31 →
      (rbcmp_SetItem key a b < 0 ↔ key a < key b) ∧ (rbcmp_SetItem key a b = 0 ↔ key a = key b) ∧
        (0 < rbcmp_SetItem key a b ↔ key b < key a) :=
    fun a b h1 h2 => rbcmp_SetItem_near key a b (hkey a) (hkey b) ⟨h1, h2⟩
  have total : (∀ a b, key a < key b + 2 ^ 31) → TotalOrder (rbcmp_SetItem key) := by
    intro hn
    refine ⟨fun a b => ?_, fun a b c => ?_⟩
    · have h1 := sign a b (hn a b) (hn b a)
      have h2 := sign b a (hn b a) (hn a b)
      omega
    · have h1 := sign a b (hn a b) (hn b a)
      have h2 := sign b c (hn b c) (hn c b)
      have h3 := sign a c (hn a c) (hn c a)
      omega
  exact ⟨fun a b h1 h2 => ⟨sign a b h1 h2, sign a b h1 h2⟩, fun hn => ⟨total hn, total hn⟩⟩

/-- C19 (as amended) at keys in the range that `main` of `example_int.c` stores: they are
`unsigned int` values less than `2^31` apart, so both comparators have the sign of the key
comparison on every pair and are total orders. -/
theorem C19_difference_comparator_near_witness :
    (∀ a, mainKey a < 2 ^ 32) ∧ (∀ a b, mainKey a < mainKey b + 2 ^ 31) ∧
    (∀ a b, (rbcmp_SetItem mainKey a b < 0 ↔ mainKey a < mainKey b) ∧
      (rbcmp_SetItem mainKey a b = 0 ↔ mainKey a = mainKey b) ∧
      (0 < rbcmp_SetItem mainKey a b ↔ mainKey b < mainKey a)) ∧
    TotalOrder (rbcmp_SetItem mainKey) ∧ TotalOrder (rbcmp_MapItem mainKey) :=
  have h1 : ∀ a, mainKey a < 20000 := fun a => Nat.mod_lt a (by decide)
  have h2 : ∀ a, mainKey a < 2 ^ 32 := fun a => Nat.lt_of_lt_of_le (h1 a) (by decide)
  have h3 : ∀ a b, mainKey a < mainKey b + 2 ^ 31 := fun a b =>
    Nat.lt_of_lt_of_le (h1 a) (Nat.le_trans (by decide) (Nat.le_add_left _ _))
  ⟨h2, h3, fun a b => ((C19_difference_comparator_near mainKey h2).1 a b (h3 a b) (h3 b a)).1,
    (C19_difference_comparator_near mainKey h2).2 h3⟩

/-- C20: on a tree built from `llrb_init` that holds a node `h` comparing equal to `x`,
`llrb_insert_or_replace` of `x` returns `h` and leaves the tree it found with `x` at the place of
`h` (which is in the tree once): the same shape and the same colour at every position; `fixUp`
changes nothing at any node of it; the neighbour fields are those after the four assignments of
the replacement, and `x` has the neighbours `h` had (the anchor never handed in as a node). -/
theorem C20_replace_keeps_structure (cmp : Comparator) (hc : TotalOrder cmp) (xs : List Nat)
    (t : LLRBTree) (hr : Reachable cmp xs t) (x h : Nat) (hh : h ∈ inorder t.root)
    (heq : cmp h x = 0) :
    ∃ t', llrb_insert_or_replace t x = .ok (t', some h) ∧
      (inorder t.root).Nodup ∧
      t'.root = replaceNode h x t.root ∧
      (∀ s ∈ subtrees t'.root, fixUp s = .ok s) ∧
      t'.neigh = relink t.neigh x h ∧
      (t.anchor ∉ x :: xs →
        t'.neigh x .LEFT = t.neigh h .LEFT ∧ t'.neigh x .RIGHT = t.neigh h .RIGHT) := by
  obtain ⟨hti, hli⟩ := Reachable_inv hc hr
  have hnd := Increasing_nodup hc hti.sorted
  have e : llrb_insert_or_replace t x =
      .ok ({ t with root := replaceNode h x t.root, neigh := relink t.neigh x h }, some h) := by
    unfold llrb_insert_or_replace
    rw [hti.compare_eq, insert_replace hc heq t.root t.neigh none t.anchor .LEFT hti.shape
      hti.sorted hh]
    rfl
  obtain ⟨t', o, e', hti', -⟩ := llrb_insert_or_replace_spec hc hti x
  have e2 := e'.symm.trans e
  simp only [Res.ok.injEq, Prod.mk.injEq] at e2
  refine ⟨_, e, hnd, rfl, ?_, rfl, ?_⟩
  · have hs := hti'.shape
    rw [e2.1] at hs
    exact fixUp_subtrees_of_RootInv hs
  · intro hA
    simp only [List.mem_cons, not_or] at hA
    have hl := hli hA.2
    obtain ⟨l1, l2, hio⟩ := List.append_of_mem hh
    have hlk := hl.linked
    rw [hio] at hlk hnd
    have hnb := Linked_neighbours hlk
    have hxin : x ∈ inorder t.root → x = h := fun hx =>
      Increasing_unique hc hti.sorted hx hh (hc.refl x) (hc.eq_symm heq)
    simp only [List.nodup_append, List.nodup_cons, List.disjoint_cons_right] at hnd
    obtain ⟨-, ⟨hh2, -⟩, hh1, -⟩ := hnd
    have hx1 : x ∉ l1 := by
      intro hx
      have := hxin (by rw [hio]; simp [hx])
      subst this
      exact hh1 hx
    have hx2 : x ∉ l2 := by
      intro hx
      have := hxin (by rw [hio]; simp [hx])
      subst this
      exact hh2 hx
    refine relink_fields ?_ ?_
    · intro hL
      rw [hL] at hnb
      rcases List.mem_cons.mp hnb.1 with h1 | h1
      · exact hA.1 h1.symm
      · exact hx1 h1
    · intro hR
      rw [hR] at hnb
      rcases List.mem_append.mp hnb.2 with h1 | h1
      · exact hx2 h1
      · exact hA.1 (List.mem_singleton.mp h1).symm

/-- C20 at the sample tree and the node 13, which carries the key of the resident node 3. -/
theorem C20_replace_keeps_structure_witness :
    ∃ t', llrb_insert_or_replace sampleTree 13 = .ok (t', some 3) ∧
      (inorder sampleTree.root).Nodup ∧
      t'.root = replaceNode 3 13 sampleTree.root ∧
      (∀ s ∈ subtrees t'.root, fixUp s = .ok s) ∧
      t'.neigh = relink sampleTree.neigh 13 3 ∧
      (sampleTree.anchor ∉ 13 :: [4, 1, 8, 3, 5] →
        t'.neigh 13 .LEFT = sampleTree.neigh 3 .LEFT ∧
          t'.neigh 13 .RIGHT = sampleTree.neigh 3 .RIGHT) :=
  C20_replace_keeps_structure keyCmp keyCmp_total _ sampleTree sampleTree_reachable 13 3
    (by decide) (by decide)

/-- C21: on a non-empty tree built from `llrb_init`, with `m` the first node of the in-order
traversal, `llrb_delete` with a key that compares equal to `m` and `llrb_pop_min` have the same
outcome: both return `m` and leave the same tree, with the same shape, colours and neighbour
fields. -/
theorem C21_pop_min_agrees_with_delete_min (cmp : Comparator) (hc : TotalOrder cmp)
    (xs : List Nat) (t : LLRBTree) (hr : Reachable cmp xs t) (key m : Nat)
    (hm : (inorder t.root).head? = some m) (hk : cmp key m = 0) :
    llrb_delete t key = llrb_pop_min t ∧
      ∃ t', llrb_pop_min t = .ok (t', some m) ∧ llrb_delete t key = .ok (t', some m) := by
  have hti := (Reachable_inv hc hr).1
  have heq := llrb_delete_min_eq_pop_min hc hti hm hk
  have hne : t.root ≠ nil := by
    intro h
    rw [h] at hm
    simp at hm
  obtain ⟨t', d, e, -, -, -, hio, -⟩ := llrb_pop_min_spec hc hti hne
  rw [hio] at hm
  simp only [List.head?_cons, Option.some.injEq] at hm
  subst hm
  exact ⟨heq, t', e, heq.trans e⟩

/-- C21 at the sample tree, its minimum 1 and the transient key node 21. -/
theorem C21_pop_min_agrees_with_delete_min_witness :
    llrb_delete sampleTree 21 = llrb_pop_min sampleTree ∧
      ∃ t', llrb_pop_min sampleTree = .ok (t', some 1) ∧
        llrb_delete sampleTree 21 = .ok (t', some 1) :=
  C21_pop_min_agrees_with_delete_min keyCmp keyCmp_total _ sampleTree sampleTree_reachable
    21 1 (by decide) (by decide)

end LLRB
